import Mathlib

/-!
# verify-sql-result: schema-aware comparison of tabular result files

A shallow embedding of `StructuredFile.hpp` (the field/record tokenizer) and of
the `Schema` class of `verify.cpp` (field comparison, decimal parsing, the
schema-definition parser and the record-level comparison loop), followed by
theorems about them.

Conventions of the embedding:
* a `std::string` and the mapped bytes of a file are a `List Char`;
* an iterator into a mapped file is the list of bytes from the iterator to
  `file.end()`;
* a function that can throw returns `Except Exception _`;
* `uint64_t` arithmetic is arithmetic modulo `2 ^ 64`, `int` is 32 bits wide and
  `long` 64 bits wide;
* `double` arithmetic is exact rational arithmetic, with the IEEE outcome of a
  division by zero (NaN or an infinity, never smaller than a number) made
  explicit where the source divides.
-/

set_option linter.unusedVariables false

namespace VerifySql

/-! ## Exceptions -/

/-- The exception classes that can leave the code under study: the three classes of
`verify.cpp` and the two that `std::stoi` and `std::stol` throw. -/
inductive Exception where
  | SchemaException (message : List Char)
  | SchemaInputFileException (message : List Char)
  | SchemaReferenceFileException (message : List Char)
  | invalid_argument
  | out_of_range
  deriving DecidableEq, Repr

/-! ## `StructuredFile`: the tokenizer -/

namespace util

/-- How a call of `getNextField` ends: it returns a field, or throws
`EndOfRecordException`, or throws `EndOfFileException`. -/
inductive FieldResult where
  | field (value : List Char)
  | EndOfRecordException
  | EndOfFileException
  deriving DecidableEq, Repr

/-- The members of `class StructuredFile`; `position` holds the bytes from the
iterator `position` to `file.end()`. -/
structure StructuredFile where
  filename : List Char
  position : List Char
  endOfRecord : Bool
  currentRecord : Nat
  ignoreFirstLine : Bool
  fieldDelimiter : Char
  recordDelimiter : Char
  deriving DecidableEq, Repr

/-- The constructor `StructuredFile(filename)` over a file with the given content. -/
def StructuredFile.new (filename content : List Char) : StructuredFile where
  filename := filename
  position := content
  endOfRecord := false
  currentRecord := 0
  ignoreFirstLine := true
  fieldDelimiter := '\t'
  recordDelimiter := '\n'

/-- `StructuredFile::getFilename`. -/
def StructuredFile.getFilename (f : StructuredFile) : List Char := f.filename

/-- `StructuredFile::getLineNumber`: `currentRecord + !ignoreFirstLine + 1`. -/
def StructuredFile.getLineNumber (f : StructuredFile) : Nat :=
  f.currentRecord + (if f.ignoreFirstLine then 0 else 1) + 1

/-- The variables the scanning loop of `getNextField` leaves behind. -/
structure ScanResult where
  position : List Char
  ignoreFirstLine : Bool
  endOfRecord : Bool
  field : List Char
  deriving DecidableEq, Repr

/-- The loop `for (; position != file.end(); ++position)` of `getNextField`. On a
`break` the iterator stays on the delimiter. -/
def scanField (fieldDelimiter recordDelimiter : Char) :
    List Char → Bool → Bool → List Char → ScanResult
  | [], ignoreFirstLine, endOfRecord, field => ⟨[], ignoreFirstLine, endOfRecord, field⟩
  | character :: rest, ignoreFirstLine, endOfRecord, field =>
    if ignoreFirstLine then
      scanField fieldDelimiter recordDelimiter rest (character != recordDelimiter) endOfRecord field
    else if character = fieldDelimiter then
      ⟨character :: rest, ignoreFirstLine, endOfRecord, field⟩
    else if character = recordDelimiter then
      ⟨character :: rest, ignoreFirstLine, true, field⟩
    else
      scanField fieldDelimiter recordDelimiter rest ignoreFirstLine endOfRecord (field ++ [character])

/-- `StructuredFile::getNextField`, returning the outcome and the tokenizer afterwards. -/
def StructuredFile.getNextField (f : StructuredFile) : FieldResult × StructuredFile :=
  if f.endOfRecord then
    (.EndOfRecordException, f)
  else
    let r := scanField f.fieldDelimiter f.recordDelimiter f.position f.ignoreFirstLine
      f.endOfRecord []
    match r.position with
    | [] =>
      (.EndOfFileException,
        { f with position := [], ignoreFirstLine := r.ignoreFirstLine,
                 endOfRecord := r.endOfRecord })
    | _ :: rest =>
      (.field r.field,
        { f with position := rest, ignoreFirstLine := r.ignoreFirstLine,
                 endOfRecord := r.endOfRecord })

/-- `StructuredFile::getNextRecord`. -/
def StructuredFile.getNextRecord (f : StructuredFile) : StructuredFile :=
  { f with endOfRecord := false, currentRecord := f.currentRecord + 1 }

end util

open util

/-! ## The C++ library functions used by the comparison -/

/-- The value of a run of decimal digits, most significant first. -/
def digitsValue (digits : List Char) : Nat :=
  digits.foldl (fun acc c => acc * 10 + (c.toNat - 48)) 0

/-- The characters `isspace` accepts in the C locale. -/
def isspace (c : Char) : Bool :=
  c = ' ' || c = '\t' || c = '\n' || c = '\x0b' || c = '\x0c' || c = '\r'

/-- The optional sign in front of the digits: whether it is a minus, and what follows. -/
def stripSign : List Char → Bool × List Char
  | '-' :: t => (true, t)
  | '+' :: t => (false, t)
  | s => (false, s)

/-- The conversion shared by `std::stoi` and `std::stol` in base 10, before the range
check: leading white space is skipped, one sign is accepted, the longest run of
digits is converted and whatever follows is ignored; `none` when there is no digit. -/
def strtol (s : List Char) : Option Int :=
  let signed := stripSign (s.dropWhile isspace)
  let digits := signed.2.takeWhile Char.isDigit
  if digits = [] then none
  else some (if signed.1 then -(digitsValue digits : Int) else (digitsValue digits : Int))

/-- `std::stoi`: `std::invalid_argument` without a digit, `std::out_of_range` outside
the 32-bit `int`. -/
def stoi (s : List Char) : Except Exception Int :=
  match strtol s with
  | none => .error .invalid_argument
  | some v => if -(2 : Int) ^ 31 ≤ v ∧ v < (2 : Int) ^ 31 then .ok v else .error .out_of_range

/-- `std::stol`: as `stoi`, for the 64-bit `long`. -/
def stol (s : List Char) : Except Exception Int :=
  match strtol s with
  | none => .error .invalid_argument
  | some v => if -(2 : Int) ^ 63 ≤ v ∧ v < (2 : Int) ^ 63 then .ok v else .error .out_of_range

/-- A `char` promoted to `int` (a signed 8-bit value). -/
def charToInt (c : Char) : Int :=
  if c.toNat % 256 < 128 then (c.toNat % 256 : Nat) else ((c.toNat % 256 : Nat) : Int) - 256

/-- Conversion to `uint64_t`: reduction modulo `2 ^ 64`. -/
def u64 (x : Int) : Nat := (x % (2 : Int) ^ 64).toNat

/-- Conversion of a `uint64_t` to the 32-bit `int`. -/
def toInt32 (n : Nat) : Int :=
  if n % 2 ^ 32 < 2 ^ 31 then ((n % 2 ^ 32 : Nat) : Int) else ((n % 2 ^ 32 : Nat) : Int) - 2 ^ 32

/-! ## `Attribute` and the field comparison of `Schema` -/

/-- `Attribute::Type`. -/
inductive AttributeType where
  | Integer | BigInt | Varchar | Char | Decimal | Date
  deriving DecidableEq, Repr

/-- `class Attribute`, with the default member initialisers of the source. The source
leaves `type` uninitialised; it is assigned before every use. -/
structure Attribute where
  name : List Char := []
  type : AttributeType := .Integer
  length : Int := -1
  precision : Int := -1
  null : Bool := true
  deriving DecidableEq, Repr

/-- The local variables of the loop of `parseDecimal`. -/
structure DecimalState where
  first : Nat
  second : Nat
  fraction : Bool
  decimalPlaces : Int
  deriving DecidableEq, Repr

/-- The loop `for (char digit : decimalString)` of `parseDecimal`; the branch with
`break` returns without looking at the rest of the string. -/
def parseDecimalLoop (precision : Int) : List Char → DecimalState → DecimalState
  | [], st => st
  | digit :: rest, st =>
    if digit = '.' then
      parseDecimalLoop precision rest { st with fraction := true }
    else if st.fraction then
      let decimalPlaces := st.decimalPlaces + 1
      let decimalPlace := charToInt digit - 48
      if decimalPlaces = precision + 1 then
        { st with decimalPlaces := decimalPlaces,
                  second := if decimalPlace > 4 then u64 (st.second + 1) else st.second }
      else
        parseDecimalLoop precision rest
          { st with decimalPlaces := decimalPlaces,
                    second := u64 (st.second * 10 + charToInt digit - 48) }
    else
      parseDecimalLoop precision rest
        { st with first := u64 (st.first * 10 + charToInt digit - 48) }

/-- `Schema::parseDecimal`. The length test is disabled in the source
(`false && length > maxLength`), so nothing is thrown; the second loop multiplies by
ten once per missing decimal place. -/
def parseDecimal (decimalString : List Char) (maxLength precision : Int) : Nat × Nat :=
  let st := parseDecimalLoop precision decimalString ⟨0, 0, false, 0⟩
  (st.first, (fun x => u64 (x * 10))^[(precision - st.decimalPlaces).toNat] st.second)

/-- `Schema::compareInteger`; the candidate is converted first. -/
def compareInteger (input reference : List Char) : Except Exception Bool := do
  let i ← stoi input
  let r ← stoi reference
  pure (decide (i = r))

/-- `Schema::compareBigInt`. -/
def compareBigInt (input reference : List Char) : Except Exception Bool := do
  let i ← stol input
  let r ← stol reference
  pure (decide (i = r))

/-- `Schema::compareVarchar`; `length` is converted to the unsigned `size_t` by the
comparison with `input.length()`. -/
def compareVarchar (input reference : List Char) (length : Int) : Except Exception Bool :=
  if input.length > u64 length then
    .error (.SchemaInputFileException "varchar field exceeds length".toList)
  else if reference.length > u64 length then
    .error (.SchemaReferenceFileException "varchar field exceeds length".toList)
  else
    .ok (decide (input = reference))

/-- `Schema::compareChar`. -/
def compareChar (input reference : List Char) (length : Int) : Except Exception Bool :=
  if input.length > u64 length then
    .error (.SchemaInputFileException "character field exceeds length".toList)
  else if reference.length > u64 length then
    .error (.SchemaReferenceFileException "character field exceeds length".toList)
  else
    .ok (decide (input = reference))

/-- `Schema::fractionToDouble`: the fraction divided by ten to the number of digits of
its own magnitude. The quotient is an exact rational where the source divides `double`
values, and the magnitude is that of the integer where the source takes `abs` of a 32-bit
`int`: at the least `int`, where `abs` overflows, the definition does not follow the
source. -/
def fractionToDouble (fraction : Int) : ℚ :=
  let numberOfDigits : Nat := if fraction ≠ 0 then Nat.log 10 fraction.natAbs + 1 else 1
  (fraction : ℚ) / (10 : ℚ) ^ numberOfDigits

/-- `Schema::compareDecimal`. `parseDecimal` throws nothing, so neither handler runs. The
branch for `epsilon = 0` follows the source exactly. The other branch computes the relative
difference in exact rationals where the source computes in `double`, so it follows the
source only where every `double` operation is exact, and at a reference of zero: there the
quotient of the source is NaN or infinite and `delta < epsilon` is false, which the test
`referenceDouble = 0` stands for. -/
def compareDecimal (input reference : List Char) (length precision : Int) (epsilon : ℚ) :
    Except Exception Bool :=
  let inputDecimal := parseDecimal input length precision
  let referenceDecimal := parseDecimal reference length precision
  if epsilon = 0 then
    .ok (decide (inputDecimal.1 = referenceDecimal.1) && decide (inputDecimal.2 = referenceDecimal.2))
  else
    let inputDouble : ℚ := (inputDecimal.1 : ℚ) + fractionToDouble (toInt32 inputDecimal.2)
    let referenceDouble : ℚ :=
      (referenceDecimal.1 : ℚ) + fractionToDouble (toInt32 referenceDecimal.2)
    if referenceDouble = 0 then
      .ok false
    else
      .ok (decide (|inputDouble - referenceDouble| / referenceDouble * 100 < epsilon))

/-- `Schema::compareDate`. -/
def compareDate (input reference : List Char) : Except Exception Bool := do
  let i ← stol input
  let r ← stol reference
  pure (decide (i = r))

/-- The `switch (attribute.type)` of the field comparison. -/
def Attribute.compareByType (attr : Attribute) (input reference : List Char) (epsilon : ℚ) :
    Except Exception Bool :=
  match attr.type with
  | .Integer => compareInteger input reference
  | .BigInt => compareBigInt input reference
  | .Varchar => compareVarchar input reference attr.length
  | .Char => compareChar input reference attr.length
  | .Decimal => compareDecimal input reference attr.length attr.precision epsilon
  | .Date => compareDate input reference

/-- The body of the field comparison `Schema::compare(attributeNumber, input, reference,
epsilon)` once `attributes[attributeNumber]` has been read. -/
def Attribute.compare (attr : Attribute) (input reference : List Char) (epsilon : ℚ) :
    Except Exception Bool :=
  if attr.null then
    if input = "null".toList ∧ reference = "null".toList then
      .ok true
    else
      attr.compareByType input reference epsilon
  else
    if input = "null".toList then
      .error (.SchemaInputFileException "null not allowed".toList)
    else if reference = "null".toList then
      .error (.SchemaReferenceFileException "null not allowed".toList)
    else
      attr.compareByType input reference epsilon

/-- `class Schema`. The constructor increments `numberOfAttributes` with every
`push_back`, so it is the size of `attributes`. -/
structure Schema where
  attributes : List Attribute
  deriving DecidableEq, Repr

/-- The member `numberOfAttributes`. -/
def Schema.numberOfAttributes (s : Schema) : Nat := s.attributes.length

/-- The field comparison `Schema::compare(attributeNumber, input, reference, epsilon)`.
The record-level loop calls it with `attributeNumber < numberOfAttributes` only. -/
def Schema.compareField (s : Schema) (attributeNumber : Nat) (input reference : List Char)
    (epsilon : ℚ) : Except Exception Bool :=
  (s.attributes.getD attributeNumber {}).compare input reference epsilon

/-- `Schema::throwError`: the exception it throws. -/
def Schema.throwError (s : Schema) (inputFile : StructuredFile) (message : List Char)
    (field : Int) : Exception :=
  .SchemaException
    (inputFile.getFilename ++ ":".toList ++ Nat.toDigits 10 inputFile.getLineNumber ++ "\t".toList ++
      (if field > -1 then (s.attributes.getD field.toNat {}).name ++ ": ".toList else []) ++ message)

/-- The text of a fetched field; the `string` stays empty when the fetch threw. -/
def fieldText : FieldResult → List Char
  | .field value => value
  | _ => []

/-- The loops of the record-level `Schema::compare`, from the test of the inner
`for` at index `field`. One unit of fuel is one pass through the body of the `for`, or
one exit from it followed by the two `getNextRecord` calls; `none` means the fuel ran
out. As `field` counts up from `0`, the test `field != numberOfAttributes` is
`field < numberOfAttributes`. The line written to `cout` before the candidate's
`too few fields` is console output and is left out. -/
def Schema.compareFrom (s : Schema) (epsilon : ℚ) :
    Nat → Nat → StructuredFile → StructuredFile → Bool → Bool → Option (Except Exception Unit)
  | 0, _, _, _, _, _ => none
  | fuel + 1, field, inputFile, referenceFile, inputFinished, referenceFinished =>
    if field < s.numberOfAttributes then
      let inputFetch := inputFile.getNextField
      if inputFetch.1 = .EndOfRecordException then
        some (.error (s.throwError inputFetch.2 "too few fields".toList (-1)))
      else
        let input := fieldText inputFetch.1
        let inputFinished := inputFinished || decide (inputFetch.1 = .EndOfFileException)
        let referenceFetch := referenceFile.getNextField
        if referenceFetch.1 = .EndOfRecordException then
          some (.error (s.throwError referenceFetch.2 "too few fields".toList (-1)))
        else
          let reference := fieldText referenceFetch.1
          let referenceFinished :=
            referenceFinished || decide (referenceFetch.1 = .EndOfFileException)
          if inputFinished && referenceFinished then
            some (.ok ())
          else if inputFinished then
            some (.error (s.throwError inputFetch.2 "too few results".toList (-1)))
          else if referenceFinished then
            some (.error (s.throwError inputFetch.2 "too many results".toList (-1)))
          else
            match s.compareField field input reference epsilon with
            | .ok true =>
              s.compareFrom epsilon fuel (field + 1) inputFetch.2 referenceFetch.2
                inputFinished referenceFinished
            | .ok false =>
              some (.error (s.throwError inputFetch.2
                ("expected ".toList ++ reference ++ " got ".toList ++ input) (-1)))
            | .error (.SchemaInputFileException message) =>
              some (.error (s.throwError inputFetch.2 message field))
            | .error (.SchemaReferenceFileException message) =>
              some (.error (s.throwError referenceFetch.2 message field))
            | .error e => some (.error e)
    else
      s.compareFrom epsilon fuel 0 inputFile.getNextRecord referenceFile.getNextRecord
        inputFinished referenceFinished

/-- The record-level `Schema::compare(inputFile, referenceFile, epsilon)`. -/
def Schema.compare (s : Schema) (inputFile referenceFile : StructuredFile) (epsilon : ℚ)
    (fuel : Nat) : Option (Except Exception Unit) :=
  s.compareFrom epsilon fuel 0 inputFile referenceFile false false

/-! ## The schema-definition parser: the constructor `Schema::Schema` -/

/-- `enum class ParserState`. -/
inductive ParserState where
  | Name | Type | TypeLength | TypePrecision | NullInfo | EndOfAttribute
  deriving DecidableEq, Repr

/-- The local variables of the constructor: the attributes pushed so far, the parser state,
the attribute under construction and the text collected in `stream`. -/
structure ParserData where
  attributes : List Attribute
  state : ParserState
  attr : Attribute
  stream : List Char
  deriving DecidableEq, Repr

/-- The chain of comparisons of `stream->str()` with the six type keywords, with the
defaults each type sets; it stands twice in the constructor, in the loop and after it. -/
def resolveType (text : List Char) (attr : Attribute) : Except Exception Attribute :=
  if text = "integer".toList then .ok { attr with type := .Integer }
  else if text = "bigint".toList then .ok { attr with type := .BigInt }
  else if text = "varchar".toList then .ok { attr with type := .Varchar, length := 1 }
  else if text = "char".toList then .ok { attr with type := .Char, length := 1 }
  else if text = "decimal".toList then
    .ok { attr with type := .Decimal, length := 4, precision := 2 }
  else if text = "date".toList then .ok { attr with type := .Date }
  else .error (.SchemaException ("unknown type ".toList ++ text))

/-- The type test and the `stoi` that store a length; in the loop and after it. -/
def resolveLength (text : List Char) (attr : Attribute) : Except Exception Attribute :=
  if attr.type = .Integer ∨ attr.type = .BigInt ∨ attr.type = .Date then
    .error (.SchemaException "type cannot have a length".toList)
  else do
    let length ← stoi text
    pure { attr with length := length }

/-- The type test and the `stoi` that store a precision; in the loop and after it. -/
def resolvePrecision (text : List Char) (attr : Attribute) : Except Exception Attribute :=
  if attr.type ≠ .Decimal then
    .error (.SchemaException "type cannot have a precision".toList)
  else do
    let precision ← stoi text
    pure { attr with precision := precision }

/-- The chain of comparisons that stores the null information; in the loop and after it. -/
def resolveNull (text : List Char) (attr : Attribute) : Except Exception Attribute :=
  if text = "not null".toList then .ok { attr with null := false }
  else if text = "null".toList then .ok { attr with null := true }
  else if text = [] then .ok { attr with null := true }
  else .error (.SchemaException "invalid null info".toList)

/-- `case (ParserState::EndOfAttribute)` for one character. -/
def stepEndOfAttribute (d : ParserData) (character : Char) : Except Exception ParserData :=
  if character = '\n' then
    .ok { d with attributes := d.attributes ++ [d.attr], attr := {}, state := .Name }
  else
    .error (.SchemaException "missing newline at end of attribute".toList)

/-- `case (ParserState::NullInfo)` for one character. The `continue` after the change of
state does not advance `position`: the newline is dispatched again, in
`EndOfAttribute`. -/
def stepNullInfo (d : ParserData) (character : Char) : Except Exception ParserData :=
  if character = '\n' then do
    let attr ← resolveNull d.stream d.attr
    stepEndOfAttribute { d with attr := attr, stream := [], state := .EndOfAttribute } character
  else
    .ok { d with stream := d.stream ++ [character] }

/-- `case (ParserState::Type)` for one character; a newline is dispatched again in
`NullInfo`. -/
def stepType (d : ParserData) (character : Char) : Except Exception ParserData :=
  if character = ' ' ∨ character = '(' ∨ character = '\n' then do
    let attr ← resolveType d.stream d.attr
    if character = '(' then
      pure { d with attr := attr, stream := [], state := .TypeLength }
    else if character = ' ' then
      pure { d with attr := attr, stream := [], state := .NullInfo }
    else
      stepNullInfo { d with attr := attr, stream := [], state := .NullInfo } character
  else
    .ok { d with stream := d.stream ++ [character] }

/-- `case (ParserState::TypeLength)` for one character. -/
def stepTypeLength (d : ParserData) (character : Char) : Except Exception ParserData :=
  if character = ' ' ∨ character = ',' ∨ character = '\n' then do
    let attr ← resolveLength d.stream d.attr
    if character = ',' then
      pure { d with attr := attr, stream := [], state := .TypePrecision }
    else if character = ' ' then
      pure { d with attr := attr, stream := [], state := .NullInfo }
    else
      stepNullInfo { d with attr := attr, stream := [], state := .NullInfo } character
  else
    .ok { d with stream := d.stream ++ [character] }

/-- `case (ParserState::TypePrecision)` for one character. -/
def stepTypePrecision (d : ParserData) (character : Char) : Except Exception ParserData :=
  if character = ' ' ∨ character = '\n' then do
    let attr ← resolvePrecision d.stream d.attr
    if character = '\n' then
      stepNullInfo { d with attr := attr, stream := [], state := .NullInfo } character
    else
      pure { d with attr := attr, stream := [], state := .NullInfo }
  else
    .ok { d with stream := d.stream ++ [character] }

/-- `case (ParserState::Name)` for one character. -/
def stepName (d : ParserData) (character : Char) : Except Exception ParserData :=
  if character = ' ' then
    .ok { d with attr := { d.attr with name := d.stream }, stream := [], state := .Type }
  else
    .ok { d with stream := d.stream ++ [character] }

/-- The `switch (state)` of the loop for one character of the definition, up to and
including the `++position` that consumes it. -/
def parserStep (d : ParserData) (character : Char) : Except Exception ParserData :=
  match d.state with
  | .Name => stepName d character
  | .Type => stepType d character
  | .TypeLength => stepTypeLength d character
  | .TypePrecision => stepTypePrecision d character
  | .NullInfo => stepNullInfo d character
  | .EndOfAttribute => stepEndOfAttribute d character

/-- The loop `while (position != file.end())` of the constructor. -/
def parserLoop : List Char → ParserData → Except Exception ParserData
  | [], d => .ok d
  | character :: rest, d => do
    let d ← parserStep d character
    parserLoop rest d

/-- The code after the loop (`// Finish last attribute`): the attribute under construction
is completed according to the state and pushed unless the state is `Name`. -/
def parserFinish (d : ParserData) : Except Exception (List Attribute) := do
  let attr ←
    match d.state with
    | .Type => resolveType d.stream d.attr
    | .TypeLength => resolveLength d.stream d.attr
    | .TypePrecision => resolvePrecision d.stream d.attr
    | .NullInfo => resolveNull d.stream d.attr
    | _ => pure d.attr
  if d.state ≠ .Name then pure (d.attributes ++ [attr]) else pure d.attributes

/-- The constructor `Schema::Schema(filename)` on the content of the schema file. -/
def Schema.new (content : List Char) : Except Exception Schema := do
  let d ← parserLoop content ⟨[], .Name, {}, []⟩
  let attributes ← parserFinish d
  pure ⟨attributes⟩

/-! ## Vocabulary of the statements: rendered records, decimal fields and schema lines -/

/-- The message of a length violation: it names the column type. -/
def lengthMessage (t : AttributeType) : List Char :=
  if t = .Varchar then "varchar field exceeds length".toList
  else "character field exceeds length".toList

/-- The number a fixed-point pair `(integer part, scaled fractional part)` denotes at
`precision` fractional digits. -/
def fixedPointValue (decimal : Nat × Nat) (precision : Nat) : ℚ :=
  (decimal.1 : ℚ) + (decimal.2 : ℚ) / (10 : ℚ) ^ precision

/-- A well-formed decimal field: digits, then optionally a point and digits. -/
def decimalText (intDigits fracDigits : List Char) (point : Bool) : List Char :=
  if point then intDigits ++ '.' :: fracDigits else intDigits

/-- The number a well-formed decimal field denotes. -/
def decimalValue (intDigits fracDigits : List Char) : ℚ :=
  (digitsValue intDigits : ℚ) + (digitsValue fracDigits : ℚ) / (10 : ℚ) ^ fracDigits.length

/-- The text of one record: its fields separated by the field delimiter, ended by the
record delimiter. -/
def renderRecord (fieldDelimiter recordDelimiter : Char) : List (List Char) → List Char
  | [] => [recordDelimiter]
  | [field] => field ++ [recordDelimiter]
  | field :: next :: more =>
    field ++ fieldDelimiter :: renderRecord fieldDelimiter recordDelimiter (next :: more)

/-- The text of a list of records. -/
def renderRecords (fieldDelimiter recordDelimiter : Char) : List (List (List Char)) → List Char
  | [] => []
  | record :: more =>
    renderRecord fieldDelimiter recordDelimiter record ++
      renderRecords fieldDelimiter recordDelimiter more

/-- The content a tokenizer is opened on: the records, after a header line when the
tokenizer is set to skip one. -/
def fileContent (f : StructuredFile) (header : List Char) (records : List (List (List Char))) :
    List Char :=
  (if f.ignoreFirstLine then header ++ [f.recordDelimiter] else []) ++
    renderRecords f.fieldDelimiter f.recordDelimiter records

/-- No field of the record contains a delimiter. -/
def cleanRecord (fieldDelimiter recordDelimiter : Char) (record : List (List Char)) : Prop :=
  ∀ field ∈ record, fieldDelimiter ∉ field ∧ recordDelimiter ∉ field

/-- The fields of a candidate record and of a reference record compare equal, column by
column from column `j` on, and the two records have the same number of fields. -/
def fieldsEqualFrom (s : Schema) (epsilon : ℚ) : Nat → List (List Char) → List (List Char) → Prop
  | _, [], [] => True
  | j, c :: cs, r :: rs => s.compareField j c r epsilon = .ok true ∧
      fieldsEqualFrom s epsilon (j + 1) cs rs
  | _, _, _ => False

/-- The records of a well-formed file: each has exactly `n` fields, none of which holds a
delimiter. -/
def wellFormedRecords (n : Nat) (fieldDelimiter recordDelimiter : Char)
    (records : List (List (List Char))) : Prop :=
  ∀ record ∈ records, record.length = n ∧ cleanRecord fieldDelimiter recordDelimiter record

/-- Record by record, the candidate records and the reference records compare equal in
every column; there are as many of the ones as of the others. -/
def recordsEqual (s : Schema) (epsilon : ℚ) :
    List (List (List Char)) → List (List (List Char)) → Prop
  | [], [] => True
  | c :: cs, r :: rs => fieldsEqualFrom s epsilon 0 c r ∧ recordsEqual s epsilon cs rs
  | _, _ => False

/-- The keyword of a column type in a schema definition. -/
def typeKeyword : AttributeType → List Char
  | .Integer => "integer".toList
  | .BigInt => "bigint".toList
  | .Varchar => "varchar".toList
  | .Char => "char".toList
  | .Decimal => "decimal".toList
  | .Date => "date".toList

/-- The parenthesised part of a rendered column: nothing for Integer, BigInt and Date,
`(L)` for Varchar and Char, `(L,P)` for Decimal. -/
def renderTypeArguments (a : Attribute) : List Char :=
  match a.type with
  | .Integer | .BigInt | .Date => []
  | .Varchar | .Char => "(".toList ++ Nat.toDigits 10 a.length.toNat ++ ")".toList
  | .Decimal =>
    "(".toList ++ Nat.toDigits 10 a.length.toNat ++ ",".toList ++
      Nat.toDigits 10 a.precision.toNat ++ ")".toList

/-- One column descriptor as a line of a schema definition. -/
def renderAttribute (a : Attribute) : List Char :=
  a.name ++ " ".toList ++ typeKeyword a.type ++ renderTypeArguments a ++
    (if a.null then [] else " not null".toList) ++ "\n".toList

/-- A list of column descriptors as a schema definition. -/
def renderSchema : List Attribute → List Char
  | [] => []
  | a :: more => renderAttribute a ++ renderSchema more

/-- The column descriptors of the round trip: no space in the name; no length and no
precision for Integer, BigInt and Date; a length `L > 0` and no precision for Varchar and
Char; a length `L > 0` and a precision `P ≥ 0` for Decimal. -/
def roundTripAttribute (a : Attribute) : Prop :=
  ' ' ∉ a.name ∧
    match a.type with
    | .Integer | .BigInt | .Date => a.length = -1 ∧ a.precision = -1
    | .Varchar | .Char => 0 < a.length ∧ a.precision = -1
    | .Decimal => 0 < a.length ∧ 0 ≤ a.precision

/-- A call on a tokenizer: `getNextField` or `getNextRecord`. -/
inductive TokenizerCall where
  | nextField
  | nextRecord
  deriving DecidableEq, Repr

/-- The outcomes of the `getNextField` calls in a sequence of calls on a tokenizer. -/
def callOutcomes : List TokenizerCall → StructuredFile → List FieldResult
  | [], _ => []
  | .nextField :: more, f => f.getNextField.1 :: callOutcomes more f.getNextField.2
  | .nextRecord :: more, f => callOutcomes more f.getNextRecord

/-- The tokenizer after a sequence of calls. -/
def afterCalls : List TokenizerCall → StructuredFile → StructuredFile
  | [], f => f
  | .nextField :: more, f => afterCalls more f.getNextField.2
  | .nextRecord :: more, f => afterCalls more f.getNextRecord

/-- The given number of `getNextField` calls: the outcome of each call with the
end-of-record flag it leaves, and the tokenizer afterwards. -/
def fetchFields : Nat → StructuredFile → List (FieldResult × Bool) × StructuredFile
  | 0, f => ([], f)
  | k + 1, f =>
    ((f.getNextField.1, f.getNextField.2.endOfRecord) :: (fetchFields k f.getNextField.2).1,
      (fetchFields k f.getNextField.2).2)

/-- Records read one after the other: for each the given number of `getNextField` calls,
then one `getNextRecord`. -/
def fetchRecords : List Nat → StructuredFile →
    List (List (FieldResult × Bool)) × StructuredFile
  | [], f => ([], f)
  | k :: more, f =>
    ((fetchFields k f).1 :: (fetchRecords more (fetchFields k f).2.getNextRecord).1,
      (fetchRecords more (fetchFields k f).2.getNextRecord).2)

/-- What reading a record should give: its fields in order, the end-of-record flag set by
the last one only. -/
def expectedFetches : List (List Char) → List (FieldResult × Bool)
  | [] => []
  | [field] => [(.field field, true)]
  | field :: next :: more => (.field field, false) :: expectedFetches (next :: more)

/-- A field that is valid for its column: no literal `null` where the column is not
nullable, and apart from a `null` in a nullable column an integer the conversion can
read for Integer (`stoi`), BigInt and Date (`stol`), at most the declared number of
characters for Varchar and Char. -/
def validField (a : Attribute) (field : List Char) : Prop :=
  if field = ['n', 'u', 'l', 'l'] then a.null = true
  else
    match a.type with
    | .Integer => ∃ v, stoi field = .ok v
    | .BigInt | .Date => ∃ v, stol field = .ok v
    | .Varchar | .Char => (field.length : Int) ≤ a.length
    | .Decimal => True

/-- Every field of a record is valid for its column, the first field standing in column
`j`. -/
def validRecord (s : Schema) : Nat → List (List Char) → Prop
  | _, [] => True
  | j, field :: more => validField (s.attributes.getD j {}) field ∧ validRecord s (j + 1) more

/-- The range of the 32-bit `int`, in which `stoi` returns. -/
def isInt (v : Int) : Prop := -(2 : Int) ^ 31 ≤ v ∧ v < (2 : Int) ^ 31

/-- What the constructor guarantees about the length and the precision of a column
descriptor: both keep their initial value `-1` for Integer, BigInt and Date; Varchar and
Char have a length that is some `int` and the initial precision; Decimal has a length and
a precision that are some `int`. -/
def typeAppropriate (a : Attribute) : Prop :=
  match a.type with
  | .Integer | .BigInt | .Date => a.length = -1 ∧ a.precision = -1
  | .Varchar | .Char => isInt a.length ∧ a.precision = -1
  | .Decimal => isInt a.length ∧ isInt a.precision

/-- The attribute under construction once the text in `stream` has been resolved according
to the state: the `switch` after the loop, which the loop also runs through at a
delimiter. -/
def pendingAttribute (d : ParserData) : Except Exception Attribute :=
  match d.state with
  | .Type => resolveType d.stream d.attr
  | .TypeLength => resolveLength d.stream d.attr
  | .TypePrecision => resolvePrecision d.stream d.attr
  | .NullInfo => resolveNull d.stream d.attr
  | _ => pure d.attr

/-- An invariant of the loop of the constructor: the attributes pushed so far are
type-appropriate; before the type is resolved the attribute under construction has its
initial length, precision and null flag; afterwards it is type-appropriate, and its null
flag is the initial one until the null information is resolved; no iteration ends in
state `EndOfAttribute`. -/
def parserInvariant (d : ParserData) : Prop :=
  (∀ a ∈ d.attributes, typeAppropriate a) ∧
    match d.state with
    | .Name | .Type => d.attr.length = -1 ∧ d.attr.precision = -1 ∧ d.attr.null = true
    | .TypeLength | .TypePrecision => typeAppropriate d.attr ∧ d.attr.null = true
    | .NullInfo => typeAppropriate d.attr
    | .EndOfAttribute => False

/-- What the text after the type says about nullability, in the words of the
specification: `not null` means not nullable, `null` and the empty text mean nullable,
any other text is an error. -/
def nullableOf (text : List Char) : Option Bool :=
  if text = "not null".toList then some false
  else if text = "null".toList then some true
  else if text = [] then some true
  else none

/-- The descriptor of a column declared by its name and a type keyword without
parentheses, in the words of the specification: length 1 for Varchar and Char, length 4
and precision 2 for Decimal, neither length nor precision for the other types. -/
def defaultColumn (name : List Char) : AttributeType → Bool → Attribute
  | .Varchar, null => { name := name, type := .Varchar, length := 1, null := null }
  | .Char, null => { name := name, type := .Char, length := 1, null := null }
  | .Decimal, null => { name := name, type := .Decimal, length := 4, precision := 2, null := null }
  | t, null => { name := name, type := t, null := null }

/-! # Theorems -/

/-! ## Field comparison -/

/-- The field comparison of column `n` is the comparison under its attribute. -/
theorem compareField_eq (s : Schema) (n : Nat) (a : Attribute) (input reference : List Char)
    (epsilon : ℚ) (ha : s.attributes[n]? = some a) :
    s.compareField n input reference epsilon = a.compare input reference epsilon := by
  unfold Schema.compareField
  have : s.attributes.getD n {} = a := by
    rw [List.getD_eq_getElem?_getD, ha]; rfl
  rw [this]

/-- A non-negative `int` is unchanged by the conversion to an unsigned 64-bit value. -/
theorem u64_of_int_range (x : Int) (h0 : 0 ≤ x) (h1 : x < 2 ^ 31) : ((u64 x : Nat) : Int) = x := by
  unfold u64
  rw [Int.emod_eq_of_lt h0 (by omega)]
  exact Int.toNat_of_nonneg h0

/-- C4: the null contract of the field comparison, for a column of any type. In a nullable
column two `"null"` fields are equal; in a column that is not nullable a candidate
`"null"` fails with `SchemaInputFileException`, and a reference `"null"` next to a
candidate that is not `"null"` fails with `SchemaReferenceFileException`. -/
theorem compareField_null_contract (s : Schema) (n : Nat) (a : Attribute)
    (input reference : List Char) (epsilon : ℚ) (ha : s.attributes[n]? = some a) :
    (a.null = true → input = "null".toList → reference = "null".toList →
      s.compareField n input reference epsilon = .ok true) ∧
    (a.null = false → input = "null".toList →
      s.compareField n input reference epsilon =
        .error (.SchemaInputFileException "null not allowed".toList)) ∧
    (a.null = false → input ≠ "null".toList → reference = "null".toList →
      s.compareField n input reference epsilon =
        .error (.SchemaReferenceFileException "null not allowed".toList)) := by
  rw [compareField_eq s n a input reference epsilon ha]
  refine ⟨?_, ?_, ?_⟩
  · intro hn hi hr
    simp [Attribute.compare, hn, hi, hr]
  · intro hn hi
    simp [Attribute.compare, hn, hi]
  · intro hn hi hr
    have hi2 : input ≠ ['n', 'u', 'l', 'l'] := hi
    simp [Attribute.compare, hn, hi2, hr]

theorem compareField_null_contract_witness :
    (Schema.mk [{ name := "a".toList, type := .Integer, null := true }]).compareField 0
        "null".toList "null".toList 0 = .ok true ∧
    (Schema.mk [{ name := "a".toList, type := .Integer, null := false }]).compareField 0
        "null".toList "5".toList 0 = .error (.SchemaInputFileException "null not allowed".toList) ∧
    (Schema.mk [{ name := "a".toList, type := .Integer, null := false }]).compareField 0
        "5".toList "null".toList 0 =
          .error (.SchemaReferenceFileException "null not allowed".toList) :=
  ⟨(compareField_null_contract ⟨[{ name := "a".toList, type := .Integer, null := true }]⟩ 0
      { name := "a".toList, type := .Integer, null := true }
      "null".toList "null".toList 0 rfl).1 rfl rfl rfl,
   (compareField_null_contract ⟨[{ name := "a".toList, type := .Integer, null := false }]⟩ 0
      { name := "a".toList, type := .Integer, null := false }
      "null".toList "5".toList 0 rfl).2.1 rfl rfl,
   (compareField_null_contract ⟨[{ name := "a".toList, type := .Integer, null := false }]⟩ 0
      { name := "a".toList, type := .Integer, null := false }
      "5".toList "null".toList 0 rfl).2.2 rfl (by decide) rfl⟩

/-- C5, for a declared length `L` that is not negative (and an `int`): in a Varchar or Char
column, for fields that are not `"null"`: a candidate longer than `L` fails with
`SchemaInputFileException` whatever the reference is; otherwise a reference longer than `L`
fails with `SchemaReferenceFileException`; otherwise the result is whether the strings are
identical. -/
theorem compareField_varchar_char (s : Schema) (n : Nat) (a : Attribute)
    (input reference : List Char) (epsilon : ℚ) (ha : s.attributes[n]? = some a)
    (hty : a.type = .Varchar ∨ a.type = .Char) (hL0 : 0 ≤ a.length) (hL1 : a.length < 2 ^ 31)
    (hi : input ≠ "null".toList) (hr : reference ≠ "null".toList) :
    (a.length < input.length →
      s.compareField n input reference epsilon =
        .error (.SchemaInputFileException (lengthMessage a.type))) ∧
    ((input.length : Int) ≤ a.length → a.length < reference.length →
      s.compareField n input reference epsilon =
        .error (.SchemaReferenceFileException (lengthMessage a.type))) ∧
    ((input.length : Int) ≤ a.length → (reference.length : Int) ≤ a.length →
      s.compareField n input reference epsilon = .ok (decide (input = reference))) := by
  rw [compareField_eq s n a input reference epsilon ha]
  have hu := u64_of_int_range a.length hL0 hL1
  have hi2 : input ≠ ['n', 'u', 'l', 'l'] := hi
  have hr2 : reference ≠ ['n', 'u', 'l', 'l'] := hr
  have hbody : a.compare input reference epsilon =
      (if a.type = .Varchar then compareVarchar input reference a.length
        else compareChar input reference a.length) := by
    rcases hty with h | h <;> simp [Attribute.compare, Attribute.compareByType, hi2, hr2, h]
  rw [hbody]
  refine ⟨?_, ?_, ?_⟩
  · intro h1
    have : input.length > u64 a.length := by omega
    rcases hty with h | h <;> simp [compareVarchar, compareChar, lengthMessage, h, this]
  · intro h1 h2
    have h1 : ¬ input.length > u64 a.length := by omega
    have h2 : reference.length > u64 a.length := by omega
    rcases hty with h | h <;> simp [compareVarchar, compareChar, lengthMessage, h, h1, h2]
  · intro h1 h2
    have h1 : ¬ input.length > u64 a.length := by omega
    have h2 : ¬ reference.length > u64 a.length := by omega
    rcases hty with h | h <;> simp [compareVarchar, compareChar, lengthMessage, h, h1, h2]

theorem compareField_varchar_char_witness :
    (Schema.mk [{ name := "a".toList, type := .Varchar, length := 3 }]).compareField 0
        "ab".toList "abcd".toList 0 =
      .error (.SchemaReferenceFileException "varchar field exceeds length".toList) :=
  (compareField_varchar_char ⟨[{ name := "a".toList, type := .Varchar, length := 3 }]⟩ 0
    { name := "a".toList, type := .Varchar, length := 3 } "ab".toList "abcd".toList 0 rfl
    (Or.inl rfl) (by decide) (by decide) (by decide) (by decide)).2.1 (by decide) (by decide)

/-- C5 as stated, at the column `a varchar(-5)`, which the constructor accepts: the
candidate `abc` is longer than the declared length `-5`, yet the comparison with the
reference `abc` returns equal instead of failing with an error tagged to the candidate. The
test `input.length() > length` converts the length to the unsigned `size_t`, so a negative
length bounds nothing. -/
theorem negative_length_is_no_bound :
    Schema.new "a varchar(-5)\n".toList =
      .ok ⟨[{ name := "a".toList, type := .Varchar, length := -5 }]⟩ ∧
    (-5 : Int) < ("abc".toList.length : Int) ∧
    (Schema.mk [{ name := "a".toList, type := .Varchar, length := -5 }]).compareField 0
      "abc".toList "abc".toList 0 = .ok true := by
  refine ⟨rfl, by decide, ?_⟩
  simp [Schema.compareField, Attribute.compare, Attribute.compareByType, compareVarchar, u64]

/-! ## Evaluations of the record-level comparison and of the tolerant decimal comparison -/

/-- C1: a two-column schema over the files `h\n1\t2` and `h\n1\t3` (last line without a
record delimiter). The comparison returns successfully although both tokenizers signal the
end of the file at field index 1, inside the record, and the last fields `2` and `3`,
which the field comparison finds different, are never compared. -/
theorem compare_succeeds_on_end_of_file_inside_record :
    (Schema.mk [{ name := "a".toList, type := .Integer },
        { name := "b".toList, type := .Integer }]).compare
      (StructuredFile.new "candidate".toList "h\n1\t2".toList)
      (StructuredFile.new "reference".toList "h\n1\t3".toList) 0 2 = some (.ok ()) ∧
    (StructuredFile.new "candidate".toList "h\n1\t2".toList).getNextField.1 = .field "1".toList ∧
    (StructuredFile.new "candidate".toList "h\n1\t2".toList).getNextField.2.getNextField.1 =
      .EndOfFileException ∧
    (StructuredFile.new "reference".toList "h\n1\t3".toList).getNextField.1 = .field "1".toList ∧
    (StructuredFile.new "reference".toList "h\n1\t3".toList).getNextField.2.getNextField.1 =
      .EndOfFileException ∧
    (Schema.mk [{ name := "a".toList, type := .Integer },
        { name := "b".toList, type := .Integer }]).compareField 1 "2".toList "3".toList 0 =
      .ok false :=
  ⟨rfl, rfl, rfl, rfl, rfl, rfl⟩

/-- The decimal logarithm of 5, rounded down. -/
theorem log_five : Nat.log 10 5 = 0 := Nat.log_of_lt (by norm_num)

/-- The decimal logarithm of 50, rounded down. -/
theorem log_fifty : Nat.log 10 50 = 1 := by
  rw [Nat.log_eq_iff] <;> norm_num

/-- C2: precision 2, tolerance 1 percent, candidate `10.05`, reference `10.50`. The two
fields parse to `(10, 5)` and `(10, 50)`, `fractionToDouble` turns both fractions into
`0.5`, and the comparison answers equal, although the values the fields denote at
precision 2 differ by more than 4 percent of the reference. -/
theorem compareDecimal_tolerance_drops_leading_zeros :
    parseDecimal "10.05".toList 4 2 = (10, 5) ∧
    parseDecimal "10.50".toList 4 2 = (10, 50) ∧
    fractionToDouble (toInt32 5) = 1 / 2 ∧
    fractionToDouble (toInt32 50) = 1 / 2 ∧
    compareDecimal "10.05".toList "10.50".toList 4 2 1 = .ok true ∧
    ¬ (|fixedPointValue (parseDecimal "10.05".toList 4 2) 2 -
          fixedPointValue (parseDecimal "10.50".toList 4 2) 2| /
        fixedPointValue (parseDecimal "10.50".toList 4 2) 2 * 100 < 1) := by
  have h1 : parseDecimal "10.05".toList 4 2 = (10, 5) := by
    simp [parseDecimal, parseDecimalLoop, charToInt, u64]
  have h2 : parseDecimal "10.50".toList 4 2 = (10, 50) := by
    simp [parseDecimal, parseDecimalLoop, charToInt, u64]
  refine ⟨h1, h2, ?_, ?_, ?_, ?_⟩
  · simp [fractionToDouble, toInt32, log_five]; norm_num
  · simp [fractionToDouble, toInt32, log_fifty]; norm_num
  · simp [compareDecimal, parseDecimal, parseDecimalLoop, charToInt, u64, fractionToDouble,
      toInt32, log_five, log_fifty]
    norm_num
  · rw [h1, h2]
    have h : |(5 : ℚ) / 10 ^ 2 - 50 / 10 ^ 2| = 9 / 20 := by
      rw [abs_of_neg (by norm_num)]; norm_num
    simp [fixedPointValue]
    rw [h]
    norm_num

/-- C6: an Integer column, candidate field `abc`, reference field `5`. `stoi` throws
`std::invalid_argument`; the field comparison lets it through without a tag for the
candidate side, and the record-level comparison, which handles the two tagged classes
only, ends with that exception instead of a `SchemaException` naming file, line and
column. -/
theorem integer_parse_failure_is_not_tagged :
    stoi "abc".toList = .error .invalid_argument ∧
    (Schema.mk [{ name := "a".toList, type := .Integer }]).compareField 0
      "abc".toList "5".toList 0 = .error .invalid_argument ∧
    (Schema.mk [{ name := "a".toList, type := .Integer }]).compare
      (StructuredFile.new "candidate".toList "h\nabc\n".toList)
      (StructuredFile.new "reference".toList "h\n5\n".toList) 0 1 =
        some (.error .invalid_argument) :=
  ⟨rfl, rfl, rfl⟩

/-- C9: whenever the loop fetches a candidate field `c` and a reference field `r` for a
column and the field comparison answers not equal, the comparison ends at once with a
`SchemaException` whose message is the candidate file name, `:`, the candidate line
number, a tab, `expected `, `r`, ` got `, `c`; nothing of what follows in either file
enters the result. -/
theorem value_mismatch_is_hard_error (s : Schema) (epsilon : ℚ) (fuel field : Nat)
    (inputFile referenceFile inputFile1 referenceFile1 : StructuredFile) (c r : List Char)
    (hfield : field < s.numberOfAttributes)
    (hc : inputFile.getNextField = (.field c, inputFile1))
    (hr : referenceFile.getNextField = (.field r, referenceFile1))
    (hne : s.compareField field c r epsilon = .ok false) :
    s.compareFrom epsilon (fuel + 1) field inputFile referenceFile false false =
      some (.error (.SchemaException
        (inputFile.getFilename ++ [':'] ++ Nat.toDigits 10 inputFile1.getLineNumber ++ ['\t'] ++
          ("expected ".toList ++ r ++ " got ".toList ++ c)))) := by
  have hname : inputFile1.getFilename = inputFile.getFilename := by
    have h2 : inputFile1 = inputFile.getNextField.2 := by rw [hc]
    rw [h2]
    unfold StructuredFile.getNextField StructuredFile.getFilename
    split
    · rfl
    · dsimp only
      split <;> rfl
  unfold Schema.compareFrom
  simp [hfield, hc, hr, fieldText, hne, Schema.throwError, hname]

theorem value_mismatch_is_hard_error_witness :
    (Schema.mk [{ name := "a".toList, type := .Integer }]).compareFrom 0 (0 + 1) 0
      (StructuredFile.new "candidate".toList "h\n2\n".toList)
      (StructuredFile.new "reference".toList "h\n3\n".toList) false false =
      some (.error (.SchemaException "candidate:2\texpected 3 got 2".toList)) :=
  value_mismatch_is_hard_error ⟨[{ name := "a".toList, type := .Integer }]⟩ 0 0 0
    (StructuredFile.new "candidate".toList "h\n2\n".toList)
    (StructuredFile.new "reference".toList "h\n3\n".toList)
    { StructuredFile.new "candidate".toList [] with ignoreFirstLine := false, endOfRecord := true }
    { StructuredFile.new "reference".toList [] with ignoreFirstLine := false, endOfRecord := true }
    "2".toList "3".toList (by decide) rfl rfl rfl

/-! ## Exact decimal comparison -/

/-- A digit character has a code from 48 to 57. -/
theorem isDigit_bounds (c : Char) (h : c.isDigit = true) : 48 ≤ c.toNat ∧ c.toNat ≤ 57 := by
  unfold Char.isDigit at h
  simp only [Bool.and_eq_true, decide_eq_true_eq, ge_iff_le] at h
  have h1 : (48 : UInt32).toNat ≤ c.val.toNat := h.1
  have h2 : c.val.toNat ≤ (57 : UInt32).toNat := h.2
  exact ⟨h1, h2⟩

/-- A digit character is not the decimal point. -/
theorem isDigit_ne_point (c : Char) (h : c.isDigit = true) : c ≠ '.' := by
  intro hc
  rw [hc] at h
  exact absurd h (by decide)

/-- The step of `parseDecimal` on a digit: multiply by ten and add the digit, modulo `2 ^ 64`. -/
theorem u64_digit_step (x : Nat) (c : Char) (h : c.isDigit = true) :
    u64 (x * 10 + charToInt c - 48) = (x * 10 + (c.toNat - 48)) % 2 ^ 64 := by
  obtain ⟨h1, h2⟩ := isDigit_bounds c h
  unfold u64 charToInt
  have hm : c.toNat % 256 = c.toNat := Nat.mod_eq_of_lt (by omega)
  rw [hm]
  simp only [show c.toNat < 128 from by omega, if_true]
  omega

/-- Folding digits onto an accumulator shifts the accumulator and adds their value. -/
theorem foldl_digits (ds : List Char) : ∀ x : Nat,
    ds.foldl (fun acc c => acc * 10 + (c.toNat - 48)) x = x * 10 ^ ds.length + digitsValue ds := by
  induction ds with
  | nil => intro x; simp [digitsValue]
  | cons c ds ih =>
    intro x
    simp only [List.foldl_cons, List.length_cons, digitsValue]
    rw [ih, ih (0 * 10 + (c.toNat - 48))]
    ring

/-- The value of a digit string with one more leading digit. -/
theorem digitsValue_cons (c : Char) (ds : List Char) :
    digitsValue (c :: ds) = (c.toNat - 48) * 10 ^ ds.length + digitsValue ds := by
  have h := foldl_digits ds (0 * 10 + (c.toNat - 48))
  simp only [digitsValue, List.foldl_cons]
  rw [h]
  simp [digitsValue]

/-- A string of `k` digits denotes a number below `10 ^ k`. -/
theorem digitsValue_lt (ds : List Char) (hd : ∀ c ∈ ds, c.isDigit = true) :
    digitsValue ds < 10 ^ ds.length := by
  induction ds with
  | nil => simp [digitsValue]
  | cons c ds ih =>
    have h1 := isDigit_bounds c (hd c (List.mem_cons_self _ _))
    have h2 := ih (fun x hx => hd x (List.mem_cons_of_mem _ hx))
    rw [digitsValue_cons, List.length_cons, pow_succ]
    have h3 : (c.toNat - 48) * 10 ^ ds.length ≤ 9 * 10 ^ ds.length :=
      Nat.mul_le_mul_right _ (by omega)
    omega

/-- The integer part: a run of digits read before the decimal point is accumulated
exactly as long as the result fits 64 bits. -/
theorem parseDecimalLoop_integer (p : Int) (rest : List Char) (ds : List Char) :
    ∀ (a b : Nat) (k : Int), (∀ c ∈ ds, c.isDigit = true) →
      a * 10 ^ ds.length + digitsValue ds < 2 ^ 64 →
      parseDecimalLoop p (ds ++ rest) ⟨a, b, false, k⟩ =
        parseDecimalLoop p rest ⟨a * 10 ^ ds.length + digitsValue ds, b, false, k⟩ := by
  induction ds with
  | nil => intro a b k _ _; simp [digitsValue]
  | cons c ds ih =>
    intro a b k hd hb
    have hc := hd c (List.mem_cons_self _ _)
    have hne := isDigit_ne_point c hc
    rw [digitsValue_cons, List.length_cons, pow_succ] at hb
    have hpos : 0 < 10 ^ ds.length := pow_pos (by norm_num) _
    have hstep : a * 10 + (c.toNat - 48) < 2 ^ 64 := by
      have : (a * 10 + (c.toNat - 48)) * 1 ≤ (a * 10 + (c.toNat - 48)) * 10 ^ ds.length :=
        Nat.mul_le_mul_left _ hpos
      have e : (a * 10 + (c.toNat - 48)) * 10 ^ ds.length =
          a * (10 ^ ds.length * 10) + (c.toNat - 48) * 10 ^ ds.length := by ring
      omega
    have e2 : (a * 10 + (c.toNat - 48)) * 10 ^ ds.length + digitsValue ds =
        a * 10 ^ (c :: ds).length + digitsValue (c :: ds) := by
      rw [digitsValue_cons, List.length_cons, pow_succ]; ring
    rw [List.cons_append, parseDecimalLoop]
    simp only [hne, if_false, Bool.false_eq_true]
    rw [u64_digit_step a c hc, Nat.mod_eq_of_lt hstep]
    rw [ih _ b k (fun x hx => hd x (List.mem_cons_of_mem _ hx)) (by rw [e2, digitsValue_cons, List.length_cons, pow_succ]; omega)]
    rw [e2]

/-- The fractional part: at most `precision` digits after the point are accumulated
exactly as long as the result fits 64 bits, and counted. -/
theorem parseDecimalLoop_fraction (p : Int) (ds : List Char) :
    ∀ (a b : Nat) (k : Int), (∀ c ∈ ds, c.isDigit = true) →
      k + ds.length ≤ p → b * 10 ^ ds.length + digitsValue ds < 2 ^ 64 →
      parseDecimalLoop p ds ⟨a, b, true, k⟩ =
        ⟨a, b * 10 ^ ds.length + digitsValue ds, true, k + ds.length⟩ := by
  induction ds with
  | nil => intro a b k _ _ _; simp [digitsValue, parseDecimalLoop]
  | cons c ds ih =>
    intro a b k hd hk hb
    have hc := hd c (List.mem_cons_self _ _)
    have hne := isDigit_ne_point c hc
    rw [digitsValue_cons, List.length_cons, pow_succ] at hb
    have hpos : 0 < 10 ^ ds.length := pow_pos (by norm_num) _
    have hstep : b * 10 + (c.toNat - 48) < 2 ^ 64 := by
      have : (b * 10 + (c.toNat - 48)) * 1 ≤ (b * 10 + (c.toNat - 48)) * 10 ^ ds.length :=
        Nat.mul_le_mul_left _ hpos
      have e : (b * 10 + (c.toNat - 48)) * 10 ^ ds.length =
          b * (10 ^ ds.length * 10) + (c.toNat - 48) * 10 ^ ds.length := by ring
      omega
    have e2 : (b * 10 + (c.toNat - 48)) * 10 ^ ds.length + digitsValue ds =
        b * 10 ^ (c :: ds).length + digitsValue (c :: ds) := by
      rw [digitsValue_cons, List.length_cons, pow_succ]; ring
    have hk2 : ¬ (k + 1 = p + 1) := by
      simp only [List.length_cons, Nat.cast_add, Nat.cast_one] at hk
      omega
    rw [parseDecimalLoop]
    simp only [hne, if_false, if_true, hk2]
    rw [u64_digit_step b c hc, Nat.mod_eq_of_lt hstep]
    rw [ih a _ (k + 1) (fun x hx => hd x (List.mem_cons_of_mem _ hx))
      (by simp only [List.length_cons, Nat.cast_add, Nat.cast_one] at hk; omega)
      (by rw [e2, digitsValue_cons, List.length_cons, pow_succ]; omega)]
    rw [e2]
    simp only [List.length_cons, Nat.cast_add, Nat.cast_one]
    congr 1
    ring

/-- A natural number below `2 ^ 64` is unchanged by the conversion to `uint64_t`. -/
theorem u64_of_nat (n : Nat) (h : n < 2 ^ 64) : u64 (n : Int) = n := by
  unfold u64
  have e : ((n : Int) % (2 : Int) ^ 64) = n :=
    Int.emod_eq_of_lt (by omega) (by exact_mod_cast h)
  rw [e]
  exact Int.toNat_ofNat n

/-- The padding loop of `parseDecimal`: `n` multiplications by ten, exact as long as the
result fits 64 bits. -/
theorem pad_iterate (n : Nat) : ∀ x : Nat, x * 10 ^ n < 2 ^ 64 →
    (fun y : Nat => u64 (y * 10))^[n] x = x * 10 ^ n := by
  induction n with
  | zero => intro x _; rw [Function.iterate_zero, id, pow_zero, Nat.mul_one]
  | succ n ih =>
    intro x hx
    have hpos : 0 < 10 ^ n := pow_pos (by norm_num) _
    have e : x * 10 ^ (n + 1) = x * 10 * 10 ^ n := by rw [pow_succ]; ring
    have hstep : x * 10 < 2 ^ 64 := by
      have : x * 10 * 1 ≤ x * 10 * 10 ^ n := Nat.mul_le_mul_left _ hpos
      omega
    have hu : u64 ((x : Int) * 10) = x * 10 := by
      have := u64_of_nat (x * 10) hstep
      push_cast at this
      exact this
    rw [Function.iterate_succ_apply]
    show (fun y : Nat => u64 (y * 10))^[n] (u64 ((x : Int) * 10)) = x * 10 ^ (n + 1)
    rw [hu, ih (x * 10) (by omega), e]

/-- What `parseDecimal` returns on a well-formed field with at most `p` fractional digits
when nothing overflows: the value of the integer digits and the value of the fractional
digits scaled to `p` digits. -/
theorem parseDecimal_wellformed (p : Nat) (len : Int) (I F : List Char) (pt : Bool)
    (hI : ∀ c ∈ I, c.isDigit = true) (hF : ∀ c ∈ F, c.isDigit = true)
    (hpt : pt = false → F = []) (hk : F.length ≤ p)
    (hb1 : digitsValue I < 2 ^ 64) (hb2 : digitsValue F * 10 ^ (p - F.length) < 2 ^ 64) :
    parseDecimal (decimalText I F pt) len p =
      (digitsValue I, digitsValue F * 10 ^ (p - F.length)) := by
  have hpos : 0 < 10 ^ (p - F.length) := pow_pos (by norm_num) _
  have hF64 : digitsValue F < 2 ^ 64 := by
    have : digitsValue F * 1 ≤ digitsValue F * 10 ^ (p - F.length) := Nat.mul_le_mul_left _ hpos
    omega
  cases pt with
  | true =>
    have h1 := parseDecimalLoop_integer p ('.' :: F) I 0 0 0 hI (by simpa using hb1)
    have h2 := parseDecimalLoop_fraction p F (digitsValue I) 0 0 hF (by simpa using hk)
      (by simpa using hF64)
    unfold parseDecimal
    simp only [decimalText, if_true]
    rw [h1]
    simp only [Nat.zero_mul, Nat.zero_add, parseDecimalLoop, if_true]
    simp only [Nat.zero_mul, Nat.zero_add, Int.zero_add] at h2
    rw [h2]
    have hn : ((p : Int) - (F.length : Int)).toNat = p - F.length := by omega
    simp only [hn]
    rw [pad_iterate _ _ hb2]
  | false =>
    have hFnil := hpt rfl
    subst hFnil
    have h1 := parseDecimalLoop_integer p [] I 0 0 0 hI (by simpa using hb1)
    unfold parseDecimal
    simp only [decimalText, Bool.false_eq_true, if_false]
    rw [List.append_nil] at h1
    rw [h1]
    simp only [Nat.zero_mul, Nat.zero_add, parseDecimalLoop]
    rw [pad_iterate _ _ (by simp)]
    simp [digitsValue]

/-- The number a field denotes, scaled by `10 ^ p`, is the integer part shifted by `p`
digits plus the fractional part scaled to `p` digits. -/
theorem decimalValue_scaled (p : Nat) (I F : List Char) (hk : F.length ≤ p) :
    decimalValue I F * (10 : ℚ) ^ p =
      ((digitsValue I * 10 ^ p + digitsValue F * 10 ^ (p - F.length) : Nat) : ℚ) := by
  have hp : (10 : ℚ) ^ p = 10 ^ F.length * 10 ^ (p - F.length) := by
    rw [← pow_add]; congr 1; omega
  have h10 : (10 : ℚ) ^ F.length ≠ 0 := pow_ne_zero _ (by norm_num)
  unfold decimalValue
  push_cast
  rw [add_mul]
  congr 1
  rw [hp]
  field_simp
  ring

/-- Two fields denote the same number exactly when their integer parts and their
fractional parts scaled to `p` digits agree. -/
theorem parts_eq_iff_value_eq (p : Nat) (I1 F1 I2 F2 : List Char)
    (hF1 : ∀ c ∈ F1, c.isDigit = true) (hF2 : ∀ c ∈ F2, c.isDigit = true)
    (hk1 : F1.length ≤ p) (hk2 : F2.length ≤ p) :
    (digitsValue I1 = digitsValue I2 ∧
      digitsValue F1 * 10 ^ (p - F1.length) = digitsValue F2 * 10 ^ (p - F2.length)) ↔
    decimalValue I1 F1 = decimalValue I2 F2 := by
  have hs : ∀ F : List Char, (∀ c ∈ F, c.isDigit = true) → F.length ≤ p →
      digitsValue F * 10 ^ (p - F.length) < 10 ^ p := by
    intro F hF hk
    have h1 := digitsValue_lt F hF
    have hp : 10 ^ p = 10 ^ F.length * 10 ^ (p - F.length) := by
      rw [← pow_add]; congr 1; omega
    rw [hp]
    exact Nat.mul_lt_mul_of_lt_of_le h1 (le_refl _) (pow_pos (by norm_num) _)
  have h10 : (10 : ℚ) ^ p ≠ 0 := pow_ne_zero _ (by norm_num)
  constructor
  · rintro ⟨h1, h2⟩
    have e1 := decimalValue_scaled p I1 F1 hk1
    have e2 := decimalValue_scaled p I2 F2 hk2
    rw [h1, h2, ← e2] at e1
    exact mul_right_cancel₀ h10 e1
  · intro h
    have e1 := decimalValue_scaled p I1 F1 hk1
    have e2 := decimalValue_scaled p I2 F2 hk2
    rw [h, e2] at e1
    have e : digitsValue I2 * 10 ^ p + digitsValue F2 * 10 ^ (p - F2.length) =
        digitsValue I1 * 10 ^ p + digitsValue F1 * 10 ^ (p - F1.length) := by
      exact_mod_cast e1
    have b1 := hs F1 hF1 hk1
    have b2 := hs F2 hF2 hk2
    have hq : digitsValue I2 = digitsValue I1 := by
      have q1 : (digitsValue I1 * 10 ^ p + digitsValue F1 * 10 ^ (p - F1.length)) / 10 ^ p =
          digitsValue I1 := by
        rw [Nat.add_comm, Nat.add_mul_div_right _ _ (pow_pos (by norm_num) _),
          Nat.div_eq_of_lt b1, Nat.zero_add]
      have q2 : (digitsValue I2 * 10 ^ p + digitsValue F2 * 10 ^ (p - F2.length)) / 10 ^ p =
          digitsValue I2 := by
        rw [Nat.add_comm, Nat.add_mul_div_right _ _ (pow_pos (by norm_num) _),
          Nat.div_eq_of_lt b2, Nat.zero_add]
      rw [← q1, ← q2, e]
    rw [hq] at e
    exact ⟨hq.symm, (Nat.add_left_cancel e).symm⟩

/-- C3: with tolerance 0, on well-formed decimal fields with at most `p` fractional digits
whose integer part and scaled fractional part fit 64 bits, `compareDecimal` answers equal
exactly when the integer parts and the fractional parts scaled to `p` digits agree, which
is exactly when the two fields denote the same number. -/
theorem compareDecimal_exact (p : Nat) (len : Int) (I1 F1 I2 F2 : List Char) (pt1 pt2 : Bool)
    (hI1 : ∀ c ∈ I1, c.isDigit = true) (hF1 : ∀ c ∈ F1, c.isDigit = true)
    (hI2 : ∀ c ∈ I2, c.isDigit = true) (hF2 : ∀ c ∈ F2, c.isDigit = true)
    (hpt1 : pt1 = false → F1 = []) (hpt2 : pt2 = false → F2 = [])
    (hk1 : F1.length ≤ p) (hk2 : F2.length ≤ p)
    (hb1 : digitsValue I1 < 2 ^ 64) (hc1 : digitsValue F1 * 10 ^ (p - F1.length) < 2 ^ 64)
    (hb2 : digitsValue I2 < 2 ^ 64) (hc2 : digitsValue F2 * 10 ^ (p - F2.length) < 2 ^ 64) :
    compareDecimal (decimalText I1 F1 pt1) (decimalText I2 F2 pt2) len p 0 =
        .ok (decide (digitsValue I1 = digitsValue I2 ∧
          digitsValue F1 * 10 ^ (p - F1.length) = digitsValue F2 * 10 ^ (p - F2.length))) ∧
    compareDecimal (decimalText I1 F1 pt1) (decimalText I2 F2 pt2) len p 0 =
        .ok (decide (decimalValue I1 F1 = decimalValue I2 F2)) := by
  have e1 := parseDecimal_wellformed p len I1 F1 pt1 hI1 hF1 hpt1 hk1 hb1 hc1
  have e2 := parseDecimal_wellformed p len I2 F2 pt2 hI2 hF2 hpt2 hk2 hb2 hc2
  have hiff := parts_eq_iff_value_eq p I1 F1 I2 F2 hF1 hF2 hk1 hk2
  have hmain : compareDecimal (decimalText I1 F1 pt1) (decimalText I2 F2 pt2) len p 0 =
      .ok (decide (digitsValue I1 = digitsValue I2 ∧
        digitsValue F1 * 10 ^ (p - F1.length) = digitsValue F2 * 10 ^ (p - F2.length))) := by
    unfold compareDecimal
    simp only [Nat.cast_ofNat, e1, e2, if_true]
    congr 1
    simp [Bool.decide_and]
  refine ⟨hmain, ?_⟩
  rw [hmain]
  congr 1
  exact decide_eq_decide.mpr hiff

theorem compareDecimal_exact_witness :
    compareDecimal "10.5".toList "10.50".toList 4 (2 : Nat) 0 = .ok true ∧
    compareDecimal "10.49".toList "10.50".toList 4 (2 : Nat) 0 = .ok false :=
  ⟨(compareDecimal_exact 2 4 "10".toList "5".toList "10".toList "50".toList true true
      (by decide) (by decide) (by decide) (by decide) (by decide) (by decide)
      (by decide) (by decide) (by decide) (by decide) (by decide) (by decide)).1,
   (compareDecimal_exact 2 4 "10".toList "49".toList "10".toList "50".toList true true
      (by decide) (by decide) (by decide) (by decide) (by decide) (by decide)
      (by decide) (by decide) (by decide) (by decide) (by decide) (by decide)).1⟩

/-! ## The tokenizer on well-formed records -/

/-- Scanning across characters that are no delimiter appends them to the field. -/
theorem scanField_clean (fd rd : Char) (rest : List Char) (x : List Char) :
    ∀ (eor : Bool) (acc : List Char), fd ∉ x → rd ∉ x →
      scanField fd rd (x ++ rest) false eor acc = scanField fd rd rest false eor (acc ++ x) := by
  induction x with
  | nil => intro eor acc _ _; simp
  | cons c x ih =>
    intro eor acc hf hr
    have hcf : c ≠ fd := fun h => hf (by rw [h]; exact List.mem_cons_self _ _)
    have hcr : c ≠ rd := fun h => hr (by rw [h]; exact List.mem_cons_self _ _)
    rw [List.cons_append, scanField]
    simp only [Bool.false_eq_true, if_false, hcf, hcr]
    rw [ih eor (acc ++ [c]) (fun h => hf (List.mem_cons_of_mem _ h))
      (fun h => hr (List.mem_cons_of_mem _ h))]
    simp

/-- Skipping the header: everything up to and including the first record delimiter is
dropped and the flag is cleared. -/
theorem scanField_header (fd rd : Char) (rest : List Char) (h : List Char) :
    ∀ (eor : Bool) (acc : List Char), rd ∉ h →
      scanField fd rd (h ++ rd :: rest) true eor acc = scanField fd rd rest false eor acc := by
  induction h with
  | nil =>
    intro eor acc _
    rw [List.nil_append, scanField]
    simp
  | cons c h ih =>
    intro eor acc hr
    have hcr : c ≠ rd := fun e => hr (by rw [e]; exact List.mem_cons_self _ _)
    rw [List.cons_append, scanField]
    simp only [if_true]
    have hb : (c != rd) = true := by simp [hcr]
    rw [hb, ih eor acc (fun e => hr (List.mem_cons_of_mem _ e))]

/-- A field followed by the field delimiter is returned and the record stays open. -/
theorem getNextField_field (f : StructuredFile) (x rest : List Char)
    (hE : f.endOfRecord = false) (hI : f.ignoreFirstLine = false)
    (hP : f.position = x ++ f.fieldDelimiter :: rest)
    (hf : f.fieldDelimiter ∉ x) (hr : f.recordDelimiter ∉ x) :
    f.getNextField = (.field x, { f with position := rest }) := by
  unfold StructuredFile.getNextField
  rw [hE, hI, hP, scanField_clean _ _ _ _ _ _ hf hr, scanField]
  simp only [Bool.false_eq_true, if_false, if_true, List.nil_append]

/-- A field followed by the record delimiter is returned and the end-of-record flag is
set. -/
theorem getNextField_last (f : StructuredFile) (x rest : List Char)
    (hE : f.endOfRecord = false) (hI : f.ignoreFirstLine = false)
    (hP : f.position = x ++ f.recordDelimiter :: rest)
    (hd : f.fieldDelimiter ≠ f.recordDelimiter)
    (hf : f.fieldDelimiter ∉ x) (hr : f.recordDelimiter ∉ x) :
    f.getNextField = (.field x, { f with position := rest, endOfRecord := true }) := by
  unfold StructuredFile.getNextField
  rw [hE, hI, hP, scanField_clean _ _ _ _ _ _ hf hr, scanField]
  simp only [Bool.false_eq_true, if_false, if_true, List.nil_append, hd.symm]

/-- At the end of the file `getNextField` throws `EndOfFileException`. -/
theorem getNextField_eof (f : StructuredFile) (hE : f.endOfRecord = false)
    (hP : f.position = []) : f.getNextField = (.EndOfFileException, f) := by
  unfold StructuredFile.getNextField
  rw [hE, hP, scanField]
  simp only [Bool.false_eq_true, if_false]
  cases f
  simp_all

/-- With the header still to skip, `getNextField` behaves as on the text after the header
line with the flag cleared. -/
theorem getNextField_header (f : StructuredFile) (h body : List Char)
    (hE : f.endOfRecord = false) (hI : f.ignoreFirstLine = true)
    (hP : f.position = h ++ f.recordDelimiter :: body) (hr : f.recordDelimiter ∉ h) :
    f.getNextField =
      StructuredFile.getNextField { f with ignoreFirstLine := false, position := body } := by
  unfold StructuredFile.getNextField
  simp only [hE, hI, hP, Bool.false_eq_true, if_false]
  rw [scanField_header _ _ _ _ _ _ hr]

/-! ## The comparison loop on well-formed records -/

/-- One pair of records with equal fields: from column `j` the loop consumes the remaining
fields of both records, leaves the inner loop and advances both tokenizers to the next
record. -/
theorem compareFrom_equal_fields (s : Schema) (epsilon : ℚ) (fuel : Nat)
    (restc restr : List Char) :
    ∀ (cs rs : List (List Char)) (j : Nat) (inp ref : StructuredFile),
      cs ≠ [] → j + cs.length = s.numberOfAttributes →
      fieldsEqualFrom s epsilon j cs rs →
      cleanRecord inp.fieldDelimiter inp.recordDelimiter cs →
      cleanRecord ref.fieldDelimiter ref.recordDelimiter rs →
      inp.endOfRecord = false → inp.ignoreFirstLine = false →
      inp.fieldDelimiter ≠ inp.recordDelimiter →
      ref.endOfRecord = false → ref.ignoreFirstLine = false →
      ref.fieldDelimiter ≠ ref.recordDelimiter →
      inp.position = renderRecord inp.fieldDelimiter inp.recordDelimiter cs ++ restc →
      ref.position = renderRecord ref.fieldDelimiter ref.recordDelimiter rs ++ restr →
      s.compareFrom epsilon (fuel + cs.length + 1) j inp ref false false =
        s.compareFrom epsilon fuel 0
          { inp with position := restc, currentRecord := inp.currentRecord + 1 }
          { ref with position := restr, currentRecord := ref.currentRecord + 1 }
          false false := by
  intro cs
  induction cs with
  | nil => intro rs j inp ref h; exact absurd rfl h
  | cons c cs ih =>
    intro rs j inp ref _ hj heq hcc hcr hE hI hD hE2 hI2 hD2 hP hP2
    cases rs with
    | nil => exact absurd heq (by simp [fieldsEqualFrom])
    | cons r rs =>
      obtain ⟨hcmp, heq⟩ := heq
      have hjn : j < s.numberOfAttributes := by
        simp only [List.length_cons] at hj; omega
      have hc := hcc c (List.mem_cons_self _ _)
      have hr := hcr r (List.mem_cons_self _ _)
      cases cs with
      | nil =>
        cases rs with
        | cons r2 rs2 => exact absurd heq (by simp [fieldsEqualFrom])
        | nil =>
          have g1 := getNextField_last inp c restc hE hI
            (by simpa [renderRecord] using hP) hD hc.1 hc.2
          have g2 := getNextField_last ref r restr hE2 hI2
            (by simpa [renderRecord] using hP2) hD2 hr.1 hr.2
          have hlast : ¬ (j + 1 < s.numberOfAttributes) := by
            simp only [List.length_cons, List.length_nil] at hj; omega
          rw [show fuel + [c].length + 1 = (fuel + 1) + 1 from rfl, Schema.compareFrom]
          simp only [hjn, if_true, g1, g2, fieldText, hcmp, Bool.false_or, Bool.and_self,
            Bool.false_eq_true, if_false, reduceCtorEq, decide_False]
          rw [Schema.compareFrom]
          simp only [hlast, if_false, StructuredFile.getNextRecord]
          rw [hE, hE2]
      | cons c2 cs2 =>
        cases rs with
        | nil => exact absurd heq (by simp [fieldsEqualFrom])
        | cons r2 rs2 =>
          have g1 := getNextField_field inp c
            (renderRecord inp.fieldDelimiter inp.recordDelimiter (c2 :: cs2) ++ restc) hE hI
            (by simpa [renderRecord] using hP) hc.1 hc.2
          have g2 := getNextField_field ref r
            (renderRecord ref.fieldDelimiter ref.recordDelimiter (r2 :: rs2) ++ restr) hE2 hI2
            (by simpa [renderRecord] using hP2) hr.1 hr.2
          rw [show fuel + (c :: c2 :: cs2).length + 1 = (fuel + (c2 :: cs2).length + 1) + 1
            from rfl, Schema.compareFrom]
          simp only [hjn, if_true, g1, g2, fieldText, hcmp, Bool.false_or, Bool.and_self,
            Bool.false_eq_true, if_false, reduceCtorEq, decide_False]
          exact ih (r2 :: rs2) (j + 1)
            { inp with position :=
                renderRecord inp.fieldDelimiter inp.recordDelimiter (c2 :: cs2) ++ restc }
            { ref with position :=
                renderRecord ref.fieldDelimiter ref.recordDelimiter (r2 :: rs2) ++ restr }
            (by simp) (by simp only [List.length_cons] at hj ⊢; omega) heq
            (fun x hx => hcc x (List.mem_cons_of_mem _ hx))
            (fun x hx => hcr x (List.mem_cons_of_mem _ hx))
            hE hI hD hE2 hI2 hD2 rfl rfl

/-- A run of record pairs with equal fields: the loop consumes them all and arrives at the
first field of what follows, the record counters advanced by the number of records. -/
theorem compareFrom_equal_records (s : Schema) (epsilon : ℚ) (restc restr : List Char)
    (hn : 1 ≤ s.numberOfAttributes) :
    ∀ (cs rs : List (List (List Char))) (fuel : Nat) (inp ref : StructuredFile),
      recordsEqual s epsilon cs rs →
      wellFormedRecords s.numberOfAttributes inp.fieldDelimiter inp.recordDelimiter cs →
      wellFormedRecords s.numberOfAttributes ref.fieldDelimiter ref.recordDelimiter rs →
      inp.endOfRecord = false → inp.ignoreFirstLine = false →
      inp.fieldDelimiter ≠ inp.recordDelimiter →
      ref.endOfRecord = false → ref.ignoreFirstLine = false →
      ref.fieldDelimiter ≠ ref.recordDelimiter →
      inp.position = renderRecords inp.fieldDelimiter inp.recordDelimiter cs ++ restc →
      ref.position = renderRecords ref.fieldDelimiter ref.recordDelimiter rs ++ restr →
      s.compareFrom epsilon (fuel + cs.length * (s.numberOfAttributes + 1)) 0 inp ref
          false false =
        s.compareFrom epsilon fuel 0
          { inp with position := restc, currentRecord := inp.currentRecord + cs.length }
          { ref with position := restr, currentRecord := ref.currentRecord + cs.length }
          false false := by
  intro cs
  induction cs with
  | nil =>
    intro rs fuel inp ref heq _ _ hE hI hD hE2 hI2 hD2 hP hP2
    cases rs with
    | cons r rs => exact absurd heq (by simp [recordsEqual])
    | nil =>
      simp only [renderRecords, List.nil_append] at hP hP2
      simp only [List.length_nil, Nat.zero_mul, Nat.add_zero, ← hP, ← hP2]
  | cons c cs ih =>
    intro rs fuel inp ref heq hwc hwr hE hI hD hE2 hI2 hD2 hP hP2
    cases rs with
    | nil => exact absurd heq (by simp [recordsEqual])
    | cons r rs =>
      obtain ⟨hfe, hrest⟩ := heq
      obtain ⟨hlen, hcc⟩ := hwc c (List.mem_cons_self _ _)
      obtain ⟨_, hcr⟩ := hwr r (List.mem_cons_self _ _)
      have hne : c ≠ [] := by
        intro h; rw [h] at hlen; simp at hlen; omega
      simp only [renderRecords, List.append_assoc] at hP hP2
      have hfuel : fuel + (c :: cs).length * (s.numberOfAttributes + 1) =
          (fuel + cs.length * (s.numberOfAttributes + 1)) + c.length + 1 := by
        rw [List.length_cons, hlen]; ring
      rw [hfuel, compareFrom_equal_fields s epsilon _ _ _ c r 0 inp ref hne
        (by rw [hlen]; omega) hfe hcc hcr hE hI hD hE2 hI2 hD2 hP hP2]
      rw [ih rs fuel
        { inp with
            position := renderRecords inp.fieldDelimiter inp.recordDelimiter cs ++ restc,
            currentRecord := inp.currentRecord + 1 }
        { ref with
            position := renderRecords ref.fieldDelimiter ref.recordDelimiter rs ++ restr,
            currentRecord := ref.currentRecord + 1 }
        hrest (fun x hx => hwc x (List.mem_cons_of_mem _ hx))
        (fun x hx => hwr x (List.mem_cons_of_mem _ hx)) hE hI hD hE2 hI2 hD2 rfl rfl]
      simp only [List.length_cons]
      congr 2 <;> omega

/-- The text of two runs of records is the concatenation of their texts. -/
theorem renderRecords_append (fd rd : Char) (xs ys : List (List (List Char))) :
    renderRecords fd rd (xs ++ ys) = renderRecords fd rd xs ++ renderRecords fd rd ys := by
  induction xs with
  | nil => simp [renderRecords]
  | cons x xs ih => simp [renderRecords, ih]

/-- The first field of a record without delimiters in its fields is returned as it is; the
tokenizer moves on in the text, nothing else changes but the end-of-record flag. -/
theorem getNextField_first (f : StructuredFile) (x : List Char) (xs : List (List Char))
    (rest : List Char) (hE : f.endOfRecord = false) (hI : f.ignoreFirstLine = false)
    (hD : f.fieldDelimiter ≠ f.recordDelimiter)
    (hc : cleanRecord f.fieldDelimiter f.recordDelimiter (x :: xs))
    (hP : f.position = renderRecord f.fieldDelimiter f.recordDelimiter (x :: xs) ++ rest) :
    ∃ p e, f.getNextField = (.field x, { f with position := p, endOfRecord := e }) := by
  have hx := hc x (List.mem_cons_self _ _)
  cases xs with
  | nil =>
    exact ⟨rest, true, getNextField_last f x rest hE hI (by simpa [renderRecord] using hP) hD
      hx.1 hx.2⟩
  | cons y ys =>
    refine ⟨renderRecord f.fieldDelimiter f.recordDelimiter (y :: ys) ++ rest, false, ?_⟩
    rw [getNextField_field f x _ hE hI (by simpa [renderRecord] using hP) hx.1 hx.2, hE]

/-- The first fetch from a tokenizer opened on a file is the first fetch from the text
after the header line with the header flag cleared. -/
theorem getNextField_fileContent (f : StructuredFile) (header : List Char)
    (records : List (List (List Char))) (rest : List Char) (hE : f.endOfRecord = false)
    (hH : f.recordDelimiter ∉ header)
    (hP : f.position = fileContent f header records ++ rest) :
    f.getNextField =
      StructuredFile.getNextField
        { f with ignoreFirstLine := false,
                 position := renderRecords f.fieldDelimiter f.recordDelimiter records ++ rest } := by
  cases hI : f.ignoreFirstLine with
  | true =>
    exact getNextField_header f header _ hE hI
      (by rw [hP]; simp [fileContent, hI]) hH
  | false =>
    have hpos : f.position =
        renderRecords f.fieldDelimiter f.recordDelimiter records ++ rest := by
      rw [hP]; simp [fileContent, hI]
    rw [← hpos, ← hI]

/-- The body of the loop depends on the two tokenizers through their next fetch only. -/
theorem compareFrom_congr_fetch (s : Schema) (epsilon : ℚ) (fuel field : Nat)
    (inp inp2 ref ref2 : StructuredFile) (iF rF : Bool) (hfield : field < s.numberOfAttributes)
    (h1 : inp.getNextField = inp2.getNextField) (h2 : ref.getNextField = ref2.getNextField) :
    s.compareFrom epsilon (fuel + 1) field inp ref iF rF =
      s.compareFrom epsilon (fuel + 1) field inp2 ref2 iF rF := by
  conv_lhs => rw [Schema.compareFrom]
  conv_rhs => rw [Schema.compareFrom]
  simp only [hfield, if_true, h1, h2]

/-- The comparison of two files that begin, after their header lines, with runs of
well-formed records that compare equal: the loop arrives at the first field of what
follows, the header flags cleared and the record counters advanced. -/
theorem compare_after_equal_records (s : Schema) (epsilon : ℚ) (inp ref : StructuredFile)
    (hc hr restc restr : List Char) (cs rs : List (List (List Char))) (fuel : Nat)
    (hn : 1 ≤ s.numberOfAttributes)
    (hEc : inp.endOfRecord = false) (hEr : ref.endOfRecord = false)
    (hDc : inp.fieldDelimiter ≠ inp.recordDelimiter)
    (hDr : ref.fieldDelimiter ≠ ref.recordDelimiter)
    (hHc : inp.recordDelimiter ∉ hc) (hHr : ref.recordDelimiter ∉ hr)
    (heq : recordsEqual s epsilon cs rs)
    (hwc : wellFormedRecords s.numberOfAttributes inp.fieldDelimiter inp.recordDelimiter cs)
    (hwr : wellFormedRecords s.numberOfAttributes ref.fieldDelimiter ref.recordDelimiter rs)
    (hPc : inp.position = fileContent inp hc cs ++ restc)
    (hPr : ref.position = fileContent ref hr rs ++ restr) :
    s.compare inp ref epsilon (fuel + 1 + cs.length * (s.numberOfAttributes + 1)) =
      s.compareFrom epsilon (fuel + 1) 0
        { inp with ignoreFirstLine := false, position := restc,
                   currentRecord := inp.currentRecord + cs.length }
        { ref with ignoreFirstLine := false, position := restr,
                   currentRecord := ref.currentRecord + cs.length } false false := by
  unfold Schema.compare
  rw [show fuel + 1 + cs.length * (s.numberOfAttributes + 1) =
    (fuel + cs.length * (s.numberOfAttributes + 1)) + 1 from by ring]
  rw [compareFrom_congr_fetch s epsilon _ 0 inp _ ref _ false false (by omega)
    (getNextField_fileContent inp hc cs restc hEc hHc hPc)
    (getNextField_fileContent ref hr rs restr hEr hHr hPr)]
  rw [show (fuel + cs.length * (s.numberOfAttributes + 1)) + 1 =
    (fuel + 1) + cs.length * (s.numberOfAttributes + 1) from by ring]
  exact compareFrom_equal_records s epsilon restc restr hn cs rs (fuel + 1)
    { inp with ignoreFirstLine := false,
               position := renderRecords inp.fieldDelimiter inp.recordDelimiter cs ++ restc }
    { ref with ignoreFirstLine := false,
               position := renderRecords ref.fieldDelimiter ref.recordDelimiter rs ++ restr }
    heq hwc hwr hEc rfl hDc hEr rfl hDr rfl rfl

/-- The content of a file splits after any number of its records. -/
theorem fileContent_append (f : StructuredFile) (header : List Char)
    (xs ys : List (List (List Char))) :
    fileContent f header (xs ++ ys) =
      fileContent f header xs ++ renderRecords f.fieldDelimiter f.recordDelimiter ys := by
  simp [fileContent, renderRecords_append]

/-- C7: a schema with at least one column and two well-formed files whose common records
compare equal. When the candidate holds a further record the comparison fails with
`too many results`, when the reference holds a further record it fails with
`too few results`; the exception names the candidate file and the line of the first
record past the common ones. -/
theorem file_length_mismatch (s : Schema) (epsilon : ℚ) (inp ref : StructuredFile)
    (hc hr : List Char) (cs rs : List (List (List Char))) (extra : List (List Char))
    (more : List (List (List Char))) (fuel : Nat)
    (hn : 1 ≤ s.numberOfAttributes)
    (hEc : inp.endOfRecord = false) (hEr : ref.endOfRecord = false)
    (hDc : inp.fieldDelimiter ≠ inp.recordDelimiter)
    (hDr : ref.fieldDelimiter ≠ ref.recordDelimiter)
    (hHc : inp.recordDelimiter ∉ hc) (hHr : ref.recordDelimiter ∉ hr)
    (heq : recordsEqual s epsilon cs rs) :
    (wellFormedRecords s.numberOfAttributes inp.fieldDelimiter inp.recordDelimiter
        (cs ++ extra :: more) →
      wellFormedRecords s.numberOfAttributes ref.fieldDelimiter ref.recordDelimiter rs →
      inp.position = fileContent inp hc (cs ++ extra :: more) →
      ref.position = fileContent ref hr rs →
      s.compare inp ref epsilon (fuel + 1 + cs.length * (s.numberOfAttributes + 1)) =
        some (.error (.SchemaException
          (inp.getFilename ++ [':'] ++ Nat.toDigits 10 (inp.currentRecord + cs.length + 2) ++
            ['\t'] ++ "too many results".toList)))) ∧
    (wellFormedRecords s.numberOfAttributes inp.fieldDelimiter inp.recordDelimiter cs →
      wellFormedRecords s.numberOfAttributes ref.fieldDelimiter ref.recordDelimiter
        (rs ++ extra :: more) →
      inp.position = fileContent inp hc cs →
      ref.position = fileContent ref hr (rs ++ extra :: more) →
      s.compare inp ref epsilon (fuel + 1 + cs.length * (s.numberOfAttributes + 1)) =
        some (.error (.SchemaException
          (inp.getFilename ++ [':'] ++ Nat.toDigits 10 (inp.currentRecord + cs.length + 2) ++
            ['\t'] ++ "too few results".toList)))) := by
  have hfield : 0 < s.numberOfAttributes := hn
  constructor
  · intro hwc hwr hPc hPr
    have hwc1 : wellFormedRecords s.numberOfAttributes inp.fieldDelimiter inp.recordDelimiter cs :=
      fun x hx => hwc x (List.mem_append_left _ hx)
    obtain ⟨hlen, hclean⟩ := hwc extra (List.mem_append_right _ (List.mem_cons_self _ _))
    rw [compare_after_equal_records s epsilon inp ref hc hr
      (renderRecords inp.fieldDelimiter inp.recordDelimiter (extra :: more)) [] cs rs fuel hn
      hEc hEr hDc hDr hHc hHr heq hwc1 hwr (by rw [hPc, fileContent_append])
      (by rw [hPr, List.append_nil])]
    cases extra with
    | nil => simp at hlen; omega
    | cons x xs =>
      obtain ⟨p, e, hg⟩ := getNextField_first
        { inp with ignoreFirstLine := false,
                   position := renderRecords inp.fieldDelimiter inp.recordDelimiter
                     ((x :: xs) :: more),
                   currentRecord := inp.currentRecord + cs.length }
        x xs (renderRecords inp.fieldDelimiter inp.recordDelimiter more) hEc rfl hDc hclean rfl
      have hg2 := getNextField_eof
        { ref with ignoreFirstLine := false, position := [],
                   currentRecord := ref.currentRecord + cs.length } hEr rfl
      rw [Schema.compareFrom]
      simp [hfield, hg, hg2, fieldText, Schema.throwError, StructuredFile.getLineNumber,
        StructuredFile.getFilename]
  · intro hwc hwr hPc hPr
    have hwr1 : wellFormedRecords s.numberOfAttributes ref.fieldDelimiter ref.recordDelimiter rs :=
      fun x hx => hwr x (List.mem_append_left _ hx)
    obtain ⟨hlen, hclean⟩ := hwr extra (List.mem_append_right _ (List.mem_cons_self _ _))
    rw [compare_after_equal_records s epsilon inp ref hc hr []
      (renderRecords ref.fieldDelimiter ref.recordDelimiter (extra :: more)) cs rs fuel hn
      hEc hEr hDc hDr hHc hHr heq hwc hwr1 (by rw [hPc, List.append_nil])
      (by rw [hPr, fileContent_append])]
    cases extra with
    | nil => simp at hlen; omega
    | cons x xs =>
      obtain ⟨p, e, hg⟩ := getNextField_first
        { ref with ignoreFirstLine := false,
                   position := renderRecords ref.fieldDelimiter ref.recordDelimiter
                     ((x :: xs) :: more),
                   currentRecord := ref.currentRecord + cs.length }
        x xs (renderRecords ref.fieldDelimiter ref.recordDelimiter more) hEr rfl hDr hclean rfl
      have hg2 := getNextField_eof
        { inp with ignoreFirstLine := false, position := [],
                   currentRecord := inp.currentRecord + cs.length } hEc rfl
      rw [Schema.compareFrom]
      simp [hfield, hg, hg2, fieldText, Schema.throwError, StructuredFile.getLineNumber,
        StructuredFile.getFilename]

theorem file_length_mismatch_witness :
    (Schema.mk [{ name := "a".toList, type := .Integer }]).compare
      (StructuredFile.new "candidate".toList "h\n1\n2\n".toList)
      (StructuredFile.new "reference".toList "h\n1\n".toList) 0 (0 + 1 + 1 * (1 + 1)) =
      some (.error (.SchemaException "candidate:3\ttoo many results".toList)) :=
  (file_length_mismatch ⟨[{ name := "a".toList, type := .Integer }]⟩ 0
    (StructuredFile.new "candidate".toList "h\n1\n2\n".toList)
    (StructuredFile.new "reference".toList "h\n1\n".toList) "h".toList "h".toList
    [["1".toList]] [["1".toList]] ["2".toList] [] 0 (by decide) rfl rfl (by decide) (by decide)
    (by decide) (by decide) ⟨⟨rfl, trivial⟩, trivial⟩).1
    (by simp [wellFormedRecords, cleanRecord, Schema.numberOfAttributes, StructuredFile.new])
    (by simp [wellFormedRecords, cleanRecord, Schema.numberOfAttributes, StructuredFile.new])
    rfl rfl

/-! ## Records that end early -/

/-- The character of a decimal digit is a digit character with that value. -/
theorem digitChar_spec (d : Nat) (h : d < 10) :
    (Nat.digitChar d).isDigit = true ∧ (Nat.digitChar d).toNat - 48 = d := by
  interval_cases d <;> exact ⟨rfl, rfl⟩

/-- The value of a digit string with one more trailing digit. -/
theorem digitsValue_append_singleton (ds : List Char) (c : Char) :
    digitsValue (ds ++ [c]) = digitsValue ds * 10 + (c.toNat - 48) := by
  simp [digitsValue, List.foldl_append]

/-- The accumulator of `Nat.toDigitsCore` stays behind the digits it produces. -/
theorem toDigitsCore_accumulator (k : Nat) : ∀ (m : Nat) (tail : List Char),
    Nat.toDigitsCore 10 k m tail = Nat.toDigitsCore 10 k m [] ++ tail := by
  induction k with
  | zero => intro m tail; rfl
  | succ k ih =>
    intro m tail
    unfold Nat.toDigitsCore
    by_cases hz : m / 10 = 0
    · simp [hz]
    · simp only [hz, if_false]
      rw [ih (m / 10) (Nat.digitChar (m % 10) :: tail), ih (m / 10) [Nat.digitChar (m % 10)]]
      simp

/-- With more fuel than the number, `Nat.toDigitsCore` produces digit characters only. -/
theorem toDigitsCore_isDigit (k : Nat) : ∀ m : Nat, m < k →
    ∀ c ∈ Nat.toDigitsCore 10 k m [], c.isDigit = true := by
  induction k with
  | zero => intro m hm; omega
  | succ k ih =>
    intro m hm c hc
    have hd := (digitChar_spec (m % 10) (Nat.mod_lt _ (by norm_num))).1
    unfold Nat.toDigitsCore at hc
    by_cases hz : m / 10 = 0
    · simp only [hz, if_true, List.mem_singleton] at hc
      rw [hc]; exact hd
    · simp only [hz, if_false] at hc
      rw [toDigitsCore_accumulator, List.mem_append, List.mem_singleton] at hc
      rcases hc with hc | hc
      · exact ih (m / 10) (by omega) c hc
      · rw [hc]; exact hd

/-- With more fuel than the number, the digits of `Nat.toDigitsCore` denote the number. -/
theorem toDigitsCore_value (k : Nat) : ∀ m : Nat, m < k →
    digitsValue (Nat.toDigitsCore 10 k m []) = m := by
  induction k with
  | zero => intro m hm; omega
  | succ k ih =>
    intro m hm
    have hd := (digitChar_spec (m % 10) (Nat.mod_lt _ (by norm_num))).2
    unfold Nat.toDigitsCore
    by_cases hz : m / 10 = 0
    · simp only [hz, if_true]
      rw [show [Nat.digitChar (m % 10)] = [] ++ [Nat.digitChar (m % 10)] from rfl,
        digitsValue_append_singleton, hd]
      simp only [digitsValue, List.foldl_nil]
      omega
    · simp only [hz, if_false]
      rw [toDigitsCore_accumulator, digitsValue_append_singleton, ih (m / 10) (by omega), hd]
      omega

/-- `Nat.toDigitsCore` with fuel left produces at least one character. -/
theorem toDigitsCore_ne_nil (k m : Nat) : Nat.toDigitsCore 10 (k + 1) m [] ≠ [] := by
  unfold Nat.toDigitsCore
  by_cases hz : m / 10 = 0
  · simp [hz]
  · simp only [hz, if_false]
    rw [toDigitsCore_accumulator]
    simp

/-- The decimal digits of a number: a non-empty run of digit characters whose value is the
number. -/
theorem toDigits_spec (n : Nat) :
    Nat.toDigits 10 n ≠ [] ∧ (∀ c ∈ Nat.toDigits 10 n, c.isDigit = true) ∧
      digitsValue (Nat.toDigits 10 n) = n :=
  ⟨toDigitsCore_ne_nil n n, toDigitsCore_isDigit (n + 1) n (by omega),
    toDigitsCore_value (n + 1) n (by omega)⟩

/-- A digit character is no white space and no sign. -/
theorem isDigit_not_space_sign (c : Char) (h : c.isDigit = true) :
    isspace c = false ∧ c ≠ '-' ∧ c ≠ '+' := by
  have hb := isDigit_bounds c h
  refine ⟨?_, ?_, ?_⟩
  · unfold isspace
    have hne : ∀ d : Char, d.toNat < 48 → c ≠ d := by
      intro d hd e; rw [e] at hb; omega
    simp [hne ' ' (by decide), hne '\t' (by decide), hne '\n' (by decide),
      hne '\x0b' (by decide), hne '\x0c' (by decide), hne '\r' (by decide)]
  · intro e; rw [e] at hb; exact absurd hb.1 (by decide)
  · intro e; rw [e] at hb; exact absurd hb.1 (by decide)

/-- The conversion reads a non-empty run of digits followed by a character that is no
digit as the value of the run. -/
theorem strtol_digits (ds : List Char) (c : Char) (rest : List Char) (hne : ds ≠ [])
    (hd : ∀ x ∈ ds, x.isDigit = true) (hc : c.isDigit = false) :
    strtol (ds ++ c :: rest) = some (digitsValue ds : Int) := by
  obtain ⟨x, xs, rfl⟩ := List.exists_cons_of_ne_nil hne
  have hx := hd x (List.mem_cons_self _ _)
  obtain ⟨h1, h2, h3⟩ := isDigit_not_space_sign x hx
  have htake : List.takeWhile Char.isDigit (x :: xs ++ c :: rest) = x :: xs := by
    rw [List.takeWhile_append_of_pos hd]
    simp [List.takeWhile, hc]
  have hsign : stripSign (x :: (xs ++ c :: rest)) = (false, x :: (xs ++ c :: rest)) := by
    unfold stripSign
    split
    · rename_i heq; injection heq with e1 e2; exact absurd e1 h2
    · rename_i heq; injection heq with e1 e2; exact absurd e1 h3
    · rfl
  unfold strtol
  simp only [List.cons_append, List.dropWhile_cons, h1, Bool.false_eq_true, if_false, hsign]
  rw [← List.cons_append, htake]
  simp

/-- `stoi` reads back the decimal digits of a number that fits an `int`, whatever follows
them, as long as it does not begin with a digit. -/
theorem stoi_toDigits (n : Nat) (c : Char) (rest : List Char) (hn : n < 2 ^ 31)
    (hc : c.isDigit = false) :
    stoi (Nat.toDigits 10 n ++ c :: rest) = .ok (n : Int) := by
  obtain ⟨h1, h2, h3⟩ := toDigits_spec n
  unfold stoi
  rw [strtol_digits _ c rest h1 h2 hc, h3]
  have : -(2 : Int) ^ 31 ≤ (n : Int) ∧ (n : Int) < (2 : Int) ^ 31 := by
    constructor <;> omega
  show (if -(2 : Int) ^ 31 ≤ (n : Int) ∧ (n : Int) < (2 : Int) ^ 31 then Except.ok (n : Int)
    else Except.error Exception.out_of_range) = Except.ok (n : Int)
  rw [if_pos this]


/-- In state `Name` the characters before the first space are collected as the name. -/
theorem parserLoop_name (acc : List Attribute) (attr : Attribute) (rest : List Char)
    (name : List Char) : ∀ (st : List Char), ' ' ∉ name →
      parserLoop (name ++ ' ' :: rest) ⟨acc, .Name, attr, st⟩ =
        parserLoop rest ⟨acc, .Type, { attr with name := st ++ name }, []⟩ := by
  induction name with
  | nil =>
    intro st _
    simp [parserLoop, parserStep, stepName, bind, Except.bind]
  | cons c name ih =>
    intro st h
    have hc : c ≠ ' ' := fun e => h (by rw [e]; exact List.mem_cons_self _ _)
    rw [List.cons_append, parserLoop]
    simp only [parserStep, stepName, hc, if_false, bind, Except.bind]
    rw [ih (st ++ [c]) (fun e => h (List.mem_cons_of_mem _ e))]
    simp

/-- In state `Type` characters other than space, `(` and newline are collected. -/
theorem parserLoop_type (acc : List Attribute) (attr : Attribute) (rest : List Char)
    (text : List Char) : ∀ (st : List Char), (∀ c ∈ text, c ≠ ' ' ∧ c ≠ '(' ∧ c ≠ '\n') →
      parserLoop (text ++ rest) ⟨acc, .Type, attr, st⟩ =
        parserLoop rest ⟨acc, .Type, attr, st ++ text⟩ := by
  induction text with
  | nil => intro st _; simp
  | cons c text ih =>
    intro st h
    obtain ⟨h1, h2, h3⟩ := h c (List.mem_cons_self _ _)
    rw [List.cons_append, parserLoop]
    simp only [parserStep, stepType, h1, h2, h3, or_self, if_false, bind, Except.bind]
    rw [ih (st ++ [c]) (fun x hx => h x (List.mem_cons_of_mem _ hx))]
    simp

/-- In state `TypeLength` characters other than space, comma and newline are collected. -/
theorem parserLoop_length (acc : List Attribute) (attr : Attribute) (rest : List Char)
    (text : List Char) : ∀ (st : List Char), (∀ c ∈ text, c ≠ ' ' ∧ c ≠ ',' ∧ c ≠ '\n') →
      parserLoop (text ++ rest) ⟨acc, .TypeLength, attr, st⟩ =
        parserLoop rest ⟨acc, .TypeLength, attr, st ++ text⟩ := by
  induction text with
  | nil => intro st _; simp
  | cons c text ih =>
    intro st h
    obtain ⟨h1, h2, h3⟩ := h c (List.mem_cons_self _ _)
    rw [List.cons_append, parserLoop]
    simp only [parserStep, stepTypeLength, h1, h2, h3, or_self, if_false, bind, Except.bind]
    rw [ih (st ++ [c]) (fun x hx => h x (List.mem_cons_of_mem _ hx))]
    simp

/-- In state `TypePrecision` characters other than space and newline are collected. -/
theorem parserLoop_precision (acc : List Attribute) (attr : Attribute) (rest : List Char)
    (text : List Char) : ∀ (st : List Char), (∀ c ∈ text, c ≠ ' ' ∧ c ≠ '\n') →
      parserLoop (text ++ rest) ⟨acc, .TypePrecision, attr, st⟩ =
        parserLoop rest ⟨acc, .TypePrecision, attr, st ++ text⟩ := by
  induction text with
  | nil => intro st _; simp
  | cons c text ih =>
    intro st h
    obtain ⟨h1, h2⟩ := h c (List.mem_cons_self _ _)
    rw [List.cons_append, parserLoop]
    simp only [parserStep, stepTypePrecision, h1, h2, or_self, if_false, bind, Except.bind]
    rw [ih (st ++ [c]) (fun x hx => h x (List.mem_cons_of_mem _ hx))]
    simp

/-- The end of a column line after a type keyword without arguments: the optional
` not null` and the newline complete the attribute and push it. -/
theorem parserLoop_close_type (acc : List Attribute) (attr attr2 : Attribute)
    (kw rest : List Char) (null : Bool) (h : resolveType kw attr = .ok attr2) :
    parserLoop ((if null then [] else " not null".toList) ++ '\n' :: rest)
        ⟨acc, .Type, attr, kw⟩ =
      parserLoop rest ⟨acc ++ [{ attr2 with null := null }], .Name, {}, []⟩ := by
  cases null <;>
    simp [parserLoop, parserStep, stepType, h, stepNullInfo, resolveNull, stepEndOfAttribute,
      bind, Except.bind, pure, Except.pure]

/-- The end of a column line after a length. -/
theorem parserLoop_close_length (acc : List Attribute) (attr attr2 : Attribute)
    (text rest : List Char) (null : Bool) (h : resolveLength text attr = .ok attr2) :
    parserLoop ((if null then [] else " not null".toList) ++ '\n' :: rest)
        ⟨acc, .TypeLength, attr, text⟩ =
      parserLoop rest ⟨acc ++ [{ attr2 with null := null }], .Name, {}, []⟩ := by
  cases null <;>
    simp [parserLoop, parserStep, stepTypeLength, h, stepNullInfo, resolveNull,
      stepEndOfAttribute, bind, Except.bind, pure, Except.pure]

/-- The end of a column line after a precision. -/
theorem parserLoop_close_precision (acc : List Attribute) (attr attr2 : Attribute)
    (text rest : List Char) (null : Bool) (h : resolvePrecision text attr = .ok attr2) :
    parserLoop ((if null then [] else " not null".toList) ++ '\n' :: rest)
        ⟨acc, .TypePrecision, attr, text⟩ =
      parserLoop rest ⟨acc ++ [{ attr2 with null := null }], .Name, {}, []⟩ := by
  cases null <;>
    simp [parserLoop, parserStep, stepTypePrecision, h, stepNullInfo, resolveNull,
      stepEndOfAttribute, bind, Except.bind, pure, Except.pure]

/-- No character of a type keyword ends the collection of the type. -/
theorem typeKeyword_clean (t : AttributeType) :
    ∀ c ∈ typeKeyword t, c ≠ ' ' ∧ c ≠ '(' ∧ c ≠ '\n' := by
  cases t <;> decide

/-- The decimal digits of a number followed by `)` hold no space, comma or newline. -/
theorem digits_paren_clean (n : Nat) :
    ∀ c ∈ Nat.toDigits 10 n ++ [')'], c ≠ ' ' ∧ c ≠ ',' ∧ c ≠ '\n' := by
  intro c hc
  rw [List.mem_append, List.mem_singleton] at hc
  rcases hc with hc | hc
  · have hb := isDigit_bounds c ((toDigits_spec n).2.1 c hc)
    refine ⟨?_, ?_, ?_⟩ <;> (intro e; rw [e] at hb; exact absurd hb.1 (by decide))
  · rw [hc]; decide

/-- The decimal digits of a number hold no space, comma or newline. -/
theorem digits_clean (n : Nat) :
    ∀ c ∈ Nat.toDigits 10 n, c ≠ ' ' ∧ c ≠ ',' ∧ c ≠ '\n' :=
  fun c hc => digits_paren_clean n c (List.mem_append_left _ hc)

/-- `stoi` reads back the decimal digits of a number that fits an `int`. -/
theorem stoi_toDigits_alone (n : Nat) (hn : n < 2 ^ 31) :
    stoi (Nat.toDigits 10 n) = .ok (n : Int) := by
  obtain ⟨h1, h2, h3⟩ := toDigits_spec n
  obtain ⟨x, xs, hx⟩ := List.exists_cons_of_ne_nil h1
  have hxd := h2 x (by rw [hx]; exact List.mem_cons_self _ _)
  obtain ⟨s1, s2, s3⟩ := isDigit_not_space_sign x hxd
  have hsign : stripSign (x :: xs) = (false, x :: xs) := by
    unfold stripSign
    split
    · rename_i heq; injection heq with e1 e2; exact absurd e1 s2
    · rename_i heq; injection heq with e1 e2; exact absurd e1 s3
    · rfl
  have htake : List.takeWhile Char.isDigit (x :: xs) = x :: xs := by
    rw [List.takeWhile_eq_self_iff]
    intro c hc; rw [← hx] at hc; exact h2 c hc
  have hrange : -(2 : Int) ^ 31 ≤ (n : Int) ∧ (n : Int) < (2 : Int) ^ 31 := by
    constructor <;> omega
  unfold stoi strtol
  rw [hx] at h3
  simp only [hx, List.dropWhile_cons, s1, Bool.false_eq_true, if_false, hsign, htake, h3]
  simp only [reduceCtorEq, if_false]
  rw [if_pos hrange]

/-- One rendered column descriptor, read from state `Name`: the parser pushes exactly
that descriptor and is back in state `Name`. -/
theorem parserLoop_attribute (acc : List Attribute) (a : Attribute) (rest : List Char)
    (h : roundTripAttribute a) (hL : a.length < 2 ^ 31) (hP : a.precision < 2 ^ 31) :
    parserLoop (renderAttribute a ++ rest) ⟨acc, .Name, {}, []⟩ =
      parserLoop rest ⟨acc ++ [a], .Name, {}, []⟩ := by
  obtain ⟨name, type, length, precision, null⟩ := a
  obtain ⟨hname, hty⟩ := h
  simp only at hname hL hP
  have e : renderAttribute ⟨name, type, length, precision, null⟩ ++ rest =
      name ++ ' ' :: (typeKeyword type ++
        (renderTypeArguments ⟨name, type, length, precision, null⟩ ++
          ((if null then [] else " not null".toList) ++ '\n' :: rest))) := by
    simp [renderAttribute]
  rw [e, parserLoop_name acc {} _ name [] hname,
    parserLoop_type acc _ _ (typeKeyword type) [] (typeKeyword_clean type)]
  simp only [List.nil_append]
  cases type with
  | Integer =>
    simp only at hty
    have hres : resolveType (typeKeyword .Integer) ⟨name, .Integer, -1, -1, true⟩ =
        .ok ⟨name, .Integer, -1, -1, true⟩ := by
      simp [resolveType, typeKeyword]
    rw [show renderTypeArguments ⟨name, .Integer, length, precision, null⟩ = [] from rfl,
      List.nil_append,
      parserLoop_close_type acc ⟨name, .Integer, -1, -1, true⟩ ⟨name, .Integer, -1, -1, true⟩
        (typeKeyword .Integer) rest null hres, hty.1, hty.2]
  | BigInt =>
    simp only at hty
    have hres : resolveType (typeKeyword .BigInt) ⟨name, .Integer, -1, -1, true⟩ =
        .ok ⟨name, .BigInt, -1, -1, true⟩ := by
      simp [resolveType, typeKeyword]
    rw [show renderTypeArguments ⟨name, .BigInt, length, precision, null⟩ = [] from rfl,
      List.nil_append,
      parserLoop_close_type acc ⟨name, .Integer, -1, -1, true⟩ ⟨name, .BigInt, -1, -1, true⟩
        (typeKeyword .BigInt) rest null hres, hty.1, hty.2]
  | Date =>
    simp only at hty
    have hres : resolveType (typeKeyword .Date) ⟨name, .Integer, -1, -1, true⟩ =
        .ok ⟨name, .Date, -1, -1, true⟩ := by
      simp [resolveType, typeKeyword]
    rw [show renderTypeArguments ⟨name, .Date, length, precision, null⟩ = [] from rfl,
      List.nil_append,
      parserLoop_close_type acc ⟨name, .Integer, -1, -1, true⟩ ⟨name, .Date, -1, -1, true⟩
        (typeKeyword .Date) rest null hres, hty.1, hty.2]
  | Varchar =>
    simp only at hty
    have hlen : ((length.toNat : Nat) : Int) = length := Int.toNat_of_nonneg (by omega)
    have hr : resolveLength (Nat.toDigits 10 length.toNat ++ [')'])
        ⟨name, .Varchar, 1, -1, true⟩ = .ok ⟨name, .Varchar, length, -1, true⟩ := by
      simp [resolveLength, stoi_toDigits length.toNat ')' [] (by omega) (by decide), hlen,
        bind, Except.bind, pure, Except.pure]
    have hres : resolveType (typeKeyword .Varchar) ⟨name, .Integer, -1, -1, true⟩ =
        .ok ⟨name, .Varchar, 1, -1, true⟩ := by
      simp [resolveType, typeKeyword]
    rw [show renderTypeArguments ⟨name, .Varchar, length, precision, null⟩ =
        '(' :: (Nat.toDigits 10 length.toNat ++ [')']) from by simp [renderTypeArguments],
      List.cons_append, parserLoop]
    simp only [parserStep, stepType, true_or, or_true, if_true, hres, bind, Except.bind, pure,
      Except.pure]
    rw [parserLoop_length acc _ _ _ [] (digits_paren_clean _), List.nil_append,
      parserLoop_close_length acc _ _ _ rest null hr, hty.2]
  | Char =>
    simp only at hty
    have hlen : ((length.toNat : Nat) : Int) = length := Int.toNat_of_nonneg (by omega)
    have hr : resolveLength (Nat.toDigits 10 length.toNat ++ [')'])
        ⟨name, .Char, 1, -1, true⟩ = .ok ⟨name, .Char, length, -1, true⟩ := by
      simp [resolveLength, stoi_toDigits length.toNat ')' [] (by omega) (by decide), hlen,
        bind, Except.bind, pure, Except.pure]
    have hres : resolveType (typeKeyword .Char) ⟨name, .Integer, -1, -1, true⟩ =
        .ok ⟨name, .Char, 1, -1, true⟩ := by
      simp [resolveType, typeKeyword]
    rw [show renderTypeArguments ⟨name, .Char, length, precision, null⟩ =
        '(' :: (Nat.toDigits 10 length.toNat ++ [')']) from by simp [renderTypeArguments],
      List.cons_append, parserLoop]
    simp only [parserStep, stepType, true_or, or_true, if_true, hres, bind, Except.bind, pure,
      Except.pure]
    rw [parserLoop_length acc _ _ _ [] (digits_paren_clean _), List.nil_append,
      parserLoop_close_length acc _ _ _ rest null hr, hty.2]
  | Decimal =>
    simp only at hty
    have hlen : ((length.toNat : Nat) : Int) = length := Int.toNat_of_nonneg (by omega)
    have hprec : ((precision.toNat : Nat) : Int) = precision := Int.toNat_of_nonneg hty.2
    have hr1 : resolveLength (Nat.toDigits 10 length.toNat)
        ⟨name, .Decimal, 4, 2, true⟩ = .ok ⟨name, .Decimal, length, 2, true⟩ := by
      simp [resolveLength, stoi_toDigits_alone length.toNat (by omega), hlen,
        bind, Except.bind, pure, Except.pure]
    have hr2 : resolvePrecision (Nat.toDigits 10 precision.toNat ++ [')'])
        ⟨name, .Decimal, length, 2, true⟩ = .ok ⟨name, .Decimal, length, precision, true⟩ := by
      simp [resolvePrecision, stoi_toDigits precision.toNat ')' [] (by omega) (by decide), hprec,
        bind, Except.bind, pure, Except.pure]
    have hres : resolveType (typeKeyword .Decimal) ⟨name, .Integer, -1, -1, true⟩ =
        .ok ⟨name, .Decimal, 4, 2, true⟩ := by
      simp [resolveType, typeKeyword]
    rw [show renderTypeArguments ⟨name, .Decimal, length, precision, null⟩ =
        '(' :: (Nat.toDigits 10 length.toNat ++ ',' ::
          (Nat.toDigits 10 precision.toNat ++ [')'])) from by simp [renderTypeArguments],
      List.cons_append, parserLoop]
    simp only [parserStep, stepType, true_or, or_true, if_true, hres, bind, Except.bind, pure,
      Except.pure]
    rw [List.append_assoc, parserLoop_length acc _ _ _ [] (digits_clean _), List.nil_append,
      List.cons_append, parserLoop]
    simp only [parserStep, stepTypeLength, true_or, or_true, if_true, hr1, bind, Except.bind,
      pure, Except.pure]
    rw [parserLoop_precision acc _ _ _ []
      (fun c hc => ⟨(digits_paren_clean _ c hc).1, (digits_paren_clean _ c hc).2.2⟩),
      List.nil_append, parserLoop_close_precision acc _ _ _ rest null hr2]

/-- A rendered list of column descriptors, read from state `Name`: the parser pushes the
descriptors in order and ends in state `Name`. -/
theorem parserLoop_schema (attributes : List Attribute) : ∀ (acc : List Attribute),
    (∀ a ∈ attributes, roundTripAttribute a ∧ a.length < 2 ^ 31 ∧ a.precision < 2 ^ 31) →
    parserLoop (renderSchema attributes) ⟨acc, .Name, {}, []⟩ =
      .ok ⟨acc ++ attributes, .Name, {}, []⟩ := by
  induction attributes with
  | nil => intro acc _; simp [renderSchema, parserLoop]
  | cons a more ih =>
    intro acc h
    obtain ⟨h1, h2, h3⟩ := h a (List.mem_cons_self _ _)
    rw [renderSchema, parserLoop_attribute acc a _ h1 h2 h3,
      ih (acc ++ [a]) (fun x hx => h x (List.mem_cons_of_mem _ hx))]
    simp

/-- C10, for lengths and precisions that fit the 32-bit `int` of `Attribute`: rendering
column descriptors (no space in the name; no length or precision for Integer, BigInt and
Date; a length `L > 0` for Varchar and Char; a length `L > 0` and a precision `P ≥ 0` for
Decimal; any nullable flag) line by line and parsing the text yields the same
descriptors in the same order. -/
theorem schema_round_trip (attributes : List Attribute)
    (h : ∀ a ∈ attributes, roundTripAttribute a ∧ a.length < 2 ^ 31 ∧ a.precision < 2 ^ 31) :
    Schema.new (renderSchema attributes) = .ok ⟨attributes⟩ := by
  unfold Schema.new
  rw [parserLoop_schema attributes [] h]
  simp [parserFinish, bind, Except.bind, pure, Except.pure]

theorem schema_round_trip_witness :
    renderSchema [⟨"a".toList, .Decimal, 10, 3, false⟩, ⟨"b".toList, .Integer, -1, -1, true⟩,
        ⟨"c".toList, .Varchar, 5, -1, true⟩] =
      "a decimal(10,3) not null\nb integer\nc varchar(5)\n".toList ∧
    Schema.new (renderSchema [⟨"a".toList, .Decimal, 10, 3, false⟩,
        ⟨"b".toList, .Integer, -1, -1, true⟩, ⟨"c".toList, .Varchar, 5, -1, true⟩]) =
      .ok ⟨[⟨"a".toList, .Decimal, 10, 3, false⟩, ⟨"b".toList, .Integer, -1, -1, true⟩,
        ⟨"c".toList, .Varchar, 5, -1, true⟩]⟩ :=
  ⟨rfl, schema_round_trip
    [⟨"a".toList, .Decimal, 10, 3, false⟩, ⟨"b".toList, .Integer, -1, -1, true⟩,
      ⟨"c".toList, .Varchar, 5, -1, true⟩]
    (by simp [roundTripAttribute])⟩

/-- C10 as stated, at the Varchar column `a` of length `2 ^ 31`: the descriptor meets the
conditions of the round trip, its rendering is `a varchar(2147483648)`, and parsing it
ends with the `std::out_of_range` of `stoi` instead of a schema. -/
theorem schema_round_trip_fails_beyond_int :
    roundTripAttribute ⟨"a".toList, .Varchar, 2147483648, -1, true⟩ ∧
    renderSchema [⟨"a".toList, .Varchar, 2147483648, -1, true⟩] =
      "a varchar(2147483648)\n".toList ∧
    Schema.new (renderSchema [⟨"a".toList, .Varchar, 2147483648, -1, true⟩]) =
      .error .out_of_range := by
  refine ⟨by simp [roundTripAttribute], rfl, rfl⟩

/-! ## Decimal rounding -/

/-- The fractional part in front of further text: at most `precision` digits after the
point are accumulated exactly as long as the result fits 64 bits, and counted. -/
theorem parseDecimalLoop_fraction_then (p : Int) (rest : List Char) (ds : List Char) :
    ∀ (a b : Nat) (k : Int), (∀ c ∈ ds, c.isDigit = true) →
      k + ds.length ≤ p → b * 10 ^ ds.length + digitsValue ds < 2 ^ 64 →
      parseDecimalLoop p (ds ++ rest) ⟨a, b, true, k⟩ =
        parseDecimalLoop p rest ⟨a, b * 10 ^ ds.length + digitsValue ds, true, k + ds.length⟩ := by
  induction ds with
  | nil => intro a b k _ _ _; simp [digitsValue]
  | cons c ds ih =>
    intro a b k hd hk hb
    have hc := hd c (List.mem_cons_self _ _)
    have hne := isDigit_ne_point c hc
    have hpos : 0 < 10 ^ ds.length := pow_pos (by norm_num) _
    have e2 : b * 10 ^ (c :: ds).length + digitsValue (c :: ds) =
        (b * 10 + (c.toNat - 48)) * 10 ^ ds.length + digitsValue ds := by
      rw [digitsValue_cons, List.length_cons, pow_succ]; ring
    rw [e2] at hb
    have hstep : b * 10 + (c.toNat - 48) < 2 ^ 64 := by
      have : (b * 10 + (c.toNat - 48)) * 1 ≤ (b * 10 + (c.toNat - 48)) * 10 ^ ds.length :=
        Nat.mul_le_mul_left _ hpos
      omega
    simp only [List.length_cons, Nat.cast_add, Nat.cast_one] at hk
    have hk2 : ¬ (k + 1 = p + 1) := by omega
    rw [List.cons_append, parseDecimalLoop]
    simp only [hne, if_false, if_true, hk2]
    rw [u64_digit_step b c hc, Nat.mod_eq_of_lt hstep,
      ih a _ (k + 1) (fun x hx => hd x (List.mem_cons_of_mem _ hx)) (by omega) hb, e2]
    simp only [List.length_cons, Nat.cast_add, Nat.cast_one]
    congr 2
    ring

/-- The digit after the last kept one: the loop adds one to the fractional part when the
digit is 5 or more and stops, whatever follows. -/
theorem parseDecimalLoop_round (p : Nat) (d : Char) (tail : List Char) (a b : Nat)
    (hd : d.isDigit = true) (hb : b + 1 < 2 ^ 64) :
    parseDecimalLoop p (d :: tail) ⟨a, b, true, p⟩ =
      ⟨a, b + (if 5 ≤ d.toNat - 48 then 1 else 0), true, (p : Int) + 1⟩ := by
  obtain ⟨h1, h2⟩ := isDigit_bounds d hd
  have hne := isDigit_ne_point d hd
  have hm : d.toNat % 256 = d.toNat := Nat.mod_eq_of_lt (by omega)
  have hci : charToInt d = (d.toNat : Int) := by
    unfold charToInt
    rw [hm]
    simp only [show d.toNat < 128 from by omega, if_true]
  have hu : u64 ((b : Int) + 1) = b + 1 := by
    have := u64_of_nat (b + 1) hb
    push_cast at this
    exact this
  rw [parseDecimalLoop]
  simp only [hne, if_false, if_true, hci, hu]
  by_cases h5 : 5 ≤ d.toNat - 48
  · have : (d.toNat : Int) - 48 > 4 := by omega
    simp [h5, this]
  · have : ¬ ((d.toNat : Int) - 48 > 4) := by omega
    simp [h5, this]

/-- C20, for values that fit 64 bits: at precision `p`, on digits `I`, a point, `p` digits
`kept`, one more digit `d` and any further text, `parseDecimal` returns the value of `I`
and the value of `kept` plus one when `d` is 5 or more; what follows `d` is not read and
nothing is carried into the integer part. -/
theorem parseDecimal_rounds_half_up (p : Nat) (len : Int) (I kept tail : List Char) (d : Char)
    (hI : ∀ c ∈ I, c.isDigit = true) (hK : ∀ c ∈ kept, c.isDigit = true)
    (hd : d.isDigit = true) (hlen : kept.length = p)
    (hbI : digitsValue I < 2 ^ 64) (hbK : digitsValue kept + 1 < 2 ^ 64) :
    parseDecimal (I ++ '.' :: (kept ++ d :: tail)) len p =
      (digitsValue I, digitsValue kept + (if 5 ≤ d.toNat - 48 then 1 else 0)) := by
  have h1 := parseDecimalLoop_integer p ('.' :: (kept ++ d :: tail)) I 0 0 0 hI
    (by simpa using hbI)
  have h2 := parseDecimalLoop_fraction_then p (d :: tail) kept (digitsValue I) 0 0 hK
    (by rw [hlen]; simp) (by simp; omega)
  have h3 := parseDecimalLoop_round p d tail (digitsValue I) (digitsValue kept) hd hbK
  simp only [Nat.zero_mul, Nat.zero_add, Int.zero_add, hlen] at h2
  unfold parseDecimal
  rw [h1]
  simp only [Nat.zero_mul, Nat.zero_add]
  rw [parseDecimalLoop]
  simp only [if_true]
  rw [h2, h3]
  have hn : ((p : Int) - ((p : Int) + 1)).toNat = 0 := by omega
  simp only [hn, Function.iterate_zero, id_eq]

theorem parseDecimal_rounds_half_up_witness :
    parseDecimal "1.005".toList 4 (2 : Nat) = (1, 1) :=
  parseDecimal_rounds_half_up 2 4 "1".toList "00".toList [] '5' (by decide) (by decide)
    (by decide) (by decide) (by decide) (by decide)

/-- C20 as stated, at precision 0 and the field `18446744073709551616.5`: the integer digits
denote `2 ^ 64`, and `parseDecimal` returns the integer part 0. -/
theorem parseDecimal_integer_part_wraps :
    digitsValue "18446744073709551616".toList = 2 ^ 64 ∧
    parseDecimal "18446744073709551616.5".toList 4 0 = (0, 1) := by
  constructor
  · decide
  · simp [parseDecimal, parseDecimalLoop, charToInt, u64]

/-! ## The tokenizer: round trip, header skip and line numbers -/

/-- Reading a record without delimiters in its fields, field by field: the fields come
back in order, the last one sets the end-of-record flag, and the tokenizer stands behind
the record. -/
theorem fetchFields_record (rest : List Char) : ∀ (record : List (List Char))
    (f : StructuredFile), record ≠ [] →
    cleanRecord f.fieldDelimiter f.recordDelimiter record →
    f.endOfRecord = false → f.ignoreFirstLine = false →
    f.fieldDelimiter ≠ f.recordDelimiter →
    f.position = renderRecord f.fieldDelimiter f.recordDelimiter record ++ rest →
    fetchFields record.length f =
      (expectedFetches record, { f with position := rest, endOfRecord := true }) := by
  intro record
  induction record with
  | nil => intro f h; exact absurd rfl h
  | cons x xs ih =>
    intro f _ hc hE hI hD hP
    have hx := hc x (List.mem_cons_self _ _)
    cases xs with
    | nil =>
      have g := getNextField_last f x rest hE hI (by simpa [renderRecord] using hP) hD
        hx.1 hx.2
      simp [fetchFields, g, expectedFetches]
    | cons y ys =>
      have g := getNextField_field f x
        (renderRecord f.fieldDelimiter f.recordDelimiter (y :: ys) ++ rest) hE hI
        (by simpa [renderRecord] using hP) hx.1 hx.2
      have h := ih
        { f with position :=
            renderRecord f.fieldDelimiter f.recordDelimiter (y :: ys) ++ rest }
        (by simp) (fun z hz => hc z (List.mem_cons_of_mem _ hz)) hE hI hD rfl
      rw [List.length_cons, fetchFields, g]
      simp only [hE] at h ⊢
      simp only [h, expectedFetches]

/-- C16: with header skip disabled, the text of a list of non-empty records whose fields
hold no delimiter is tokenized, `getNextRecord` called once after each record, into
exactly those fields in order; in each record only the last `getNextField` leaves the
end-of-record flag set, and the `getNextField` after the last record throws
`EndOfFileException`. -/
theorem tokenizer_round_trip : ∀ (records : List (List (List Char))) (f : StructuredFile),
    (∀ record ∈ records, record ≠ [] ∧
      cleanRecord f.fieldDelimiter f.recordDelimiter record) →
    f.endOfRecord = false → f.ignoreFirstLine = false →
    f.fieldDelimiter ≠ f.recordDelimiter →
    f.position = renderRecords f.fieldDelimiter f.recordDelimiter records →
    fetchRecords (records.map List.length) f =
      (records.map expectedFetches,
        { f with position := [], currentRecord := f.currentRecord + records.length }) ∧
    (fetchRecords (records.map List.length) f).2.getNextField.1 = .EndOfFileException := by
  intro records
  induction records with
  | nil =>
    intro f _ hE hI hD hP
    simp only [renderRecords] at hP
    have hf : ({ f with position := [], currentRecord := f.currentRecord + 0 } :
        StructuredFile) = f := by
      cases f
      simp_all
    refine ⟨?_, ?_⟩
    · simp only [List.map_nil, fetchRecords, List.length_nil]
      rw [hf]
    · simp only [List.map_nil, fetchRecords]
      rw [getNextField_eof f hE hP]
  | cons r rs ih =>
    intro f h hE hI hD hP
    obtain ⟨hne, hc⟩ := h r (List.mem_cons_self _ _)
    have g := fetchFields_record (renderRecords f.fieldDelimiter f.recordDelimiter rs) r f hne
      hc hE hI hD (by simpa [renderRecords] using hP)
    have h2 := ih
      { f with position := renderRecords f.fieldDelimiter f.recordDelimiter rs,
               currentRecord := f.currentRecord + 1 }
      (fun x hx => h x (List.mem_cons_of_mem _ hx)) hE hI hD rfl
    have e : (fetchFields r.length f).2.getNextRecord =
        { f with position := renderRecords f.fieldDelimiter f.recordDelimiter rs,
                 currentRecord := f.currentRecord + 1 } := by
      rw [g, StructuredFile.getNextRecord, hE]
    have hn : f.currentRecord + 1 + rs.length = f.currentRecord + (rs.length + 1) := by omega
    rw [hn] at h2
    have h3 := h2.2
    rw [h2.1] at h3
    have hrec : fetchRecords (List.map List.length (r :: rs)) f =
        ((fetchFields r.length f).1 ::
          (fetchRecords (List.map List.length rs)
            { f with position := renderRecords f.fieldDelimiter f.recordDelimiter rs,
                     currentRecord := f.currentRecord + 1 }).1,
          (fetchRecords (List.map List.length rs)
            { f with position := renderRecords f.fieldDelimiter f.recordDelimiter rs,
                     currentRecord := f.currentRecord + 1 }).2) := by
      simp only [List.map_cons, fetchRecords, e]
    rw [hrec, h2.1, g]
    exact ⟨rfl, h3⟩

theorem tokenizer_round_trip_witness :
    fetchRecords [2, 1]
        { StructuredFile.new "f".toList "a\tb\nc\n".toList with ignoreFirstLine := false } =
      ([[(.field "a".toList, false), (.field "b".toList, true)], [(.field "c".toList, true)]],
        { StructuredFile.new "f".toList [] with ignoreFirstLine := false,
                                                  currentRecord := 2 }) ∧
    (fetchRecords [2, 1]
        { StructuredFile.new "f".toList "a\tb\nc\n".toList with
          ignoreFirstLine := false }).2.getNextField.1 = .EndOfFileException :=
  tokenizer_round_trip [["a".toList, "b".toList], ["c".toList]]
    { StructuredFile.new "f".toList "a\tb\nc\n".toList with ignoreFirstLine := false }
    (by simp [cleanRecord, StructuredFile.new]) rfl rfl (by decide) rfl

/-- C17: a tokenizer that still has to skip its header, over a header without record
delimiter, the record delimiter and a body, gives for every sequence of `getNextField` and
`getNextRecord` calls the same outcomes as the same tokenizer with header skip disabled
over the body alone. -/
theorem header_skip_outcomes (h b : List Char) : ∀ (calls : List TokenizerCall)
    (f : StructuredFile), f.endOfRecord = false → f.ignoreFirstLine = true →
    f.recordDelimiter ∉ h → f.position = h ++ f.recordDelimiter :: b →
    callOutcomes calls f =
      callOutcomes calls { f with ignoreFirstLine := false, position := b } := by
  intro calls
  induction calls with
  | nil => intro f _ _ _ _; rfl
  | cons c calls ih =>
    intro f hE hI hH hP
    cases c with
    | nextField =>
      simp only [callOutcomes]
      rw [getNextField_header f h b hE hI hP hH]
    | nextRecord =>
      simp only [callOutcomes]
      exact ih f.getNextRecord rfl hI hH hP

theorem header_skip_outcomes_witness :
    callOutcomes [.nextField, .nextField, .nextRecord, .nextField]
        (StructuredFile.new "f".toList "x\ty\na\tb\n".toList) =
      callOutcomes [.nextField, .nextField, .nextRecord, .nextField]
        { StructuredFile.new "f".toList "x\ty\na\tb\n".toList with
          ignoreFirstLine := false, position := "a\tb\n".toList } :=
  header_skip_outcomes "x\ty".toList "a\tb\n".toList
    [.nextField, .nextField, .nextRecord, .nextField]
    (StructuredFile.new "f".toList "x\ty\na\tb\n".toList) rfl rfl (by decide) rfl

/-- `getNextField` leaves a cleared header flag cleared and does not touch the record
counter. -/
theorem getNextField_keeps_line (f : StructuredFile) (hI : f.ignoreFirstLine = false) :
    f.getNextField.2.ignoreFirstLine = false ∧
      f.getNextField.2.currentRecord = f.currentRecord := by
  have hscan : ∀ (text : List Char) (eor : Bool) (field : List Char),
      (scanField f.fieldDelimiter f.recordDelimiter text false eor field).ignoreFirstLine =
        false := by
    intro text
    induction text with
    | nil => intro eor field; rfl
    | cons c text ih =>
      intro eor field
      rw [scanField]
      simp only [Bool.false_eq_true, if_false]
      split
      · rfl
      · split
        · rfl
        · exact ih _ _
  unfold StructuredFile.getNextField
  split
  · exact ⟨hI, rfl⟩
  · rw [hI]
    dsimp only
    split
    · exact ⟨hscan _ _ _, rfl⟩
    · exact ⟨hscan _ _ _, rfl⟩

/-- C18: with header skip disabled the line number after `k` calls of `getNextRecord`
(and any calls of `getNextField`) is `k + 2`, not `k + 1`: over the file `1\n2\n` the
first fetch returns the field `1` of line 1 and `getLineNumber` answers 2. -/
theorem line_number_without_header_is_off_by_one :
    (∀ (calls : List TokenizerCall) (f : StructuredFile), f.ignoreFirstLine = false →
      (afterCalls calls f).getLineNumber =
        f.currentRecord + calls.count .nextRecord + 2) ∧
    ({ StructuredFile.new "f".toList "1\n2\n".toList with
        ignoreFirstLine := false }).getNextField.1 = .field "1".toList ∧
    ({ StructuredFile.new "f".toList "1\n2\n".toList with
        ignoreFirstLine := false }).getNextField.2.getLineNumber = 2 := by
  refine ⟨?_, rfl, rfl⟩
  intro calls
  induction calls with
  | nil =>
    intro f hI
    simp [afterCalls, StructuredFile.getLineNumber, hI]
  | cons c calls ih =>
    intro f hI
    cases c with
    | nextField =>
      obtain ⟨h1, h2⟩ := getNextField_keeps_line f hI
      simp only [afterCalls]
      rw [ih _ h1, h2]
      simp
    | nextRecord =>
      simp only [afterCalls]
      rw [ih f.getNextRecord hI]
      simp [StructuredFile.getNextRecord]
      omega

/-! ## Termination of the record-level comparison -/

/-- The scanning loop never moves the iterator backwards. -/
theorem scanField_position_le (fd rd : Char) : ∀ (text : List Char) (ign eor : Bool)
    (field : List Char), (scanField fd rd text ign eor field).position.length ≤ text.length := by
  intro text
  induction text with
  | nil => intro ign eor field; simp [scanField]
  | cons c text ih =>
    intro ign eor field
    rw [scanField]
    split
    · exact Nat.le_succ_of_le (ih _ _ _)
    · split
      · exact Nat.le_refl _
      · split
        · exact Nat.le_refl _
        · exact Nat.le_succ_of_le (ih _ _ _)

/-- A `getNextField` that returns a field consumes at least one character. -/
theorem getNextField_consumes (f : StructuredFile) (x : List Char)
    (h : f.getNextField.1 = .field x) :
    f.getNextField.2.position.length < f.position.length := by
  have hle := scanField_position_le f.fieldDelimiter f.recordDelimiter f.position
    f.ignoreFirstLine f.endOfRecord []
  unfold StructuredFile.getNextField at h ⊢
  cases hE : f.endOfRecord with
  | true => rw [hE] at h; simp at h
  | false =>
    rw [hE] at h hle
    simp only [Bool.false_eq_true, if_false] at h ⊢
    revert h hle
    generalize scanField f.fieldDelimiter f.recordDelimiter f.position f.ignoreFirstLine
      false [] = r
    rcases r with ⟨p, i, e, fl⟩
    cases p with
    | nil => intro _ h; simp at h
    | cons c rest =>
      intro hle _
      simp only [List.length_cons] at hle ⊢
      omega

/-- After `getNextField` the outcome is a field, or one of the two exceptions. -/
theorem fieldResult_cases (r : FieldResult) :
    r = .EndOfRecordException ∨ r = .EndOfFileException ∨ ∃ x, r = .field x := by
  cases r with
  | field x => exact Or.inr (Or.inr ⟨x, rfl⟩)
  | EndOfRecordException => exact Or.inl rfl
  | EndOfFileException => exact Or.inr (Or.inl rfl)

/-- With at least one column the comparison ends, from every column index, every pair of
tokenizers and every value of the two flags: some amount of fuel gives a result. -/
theorem compareFrom_terminates (s : Schema) (epsilon : ℚ) (hn : 1 ≤ s.numberOfAttributes) :
    ∀ (m : Nat) (inp : StructuredFile), inp.position.length ≤ m →
      ∀ (field : Nat) (ref : StructuredFile) (iF rF : Bool),
        ∃ fuel, (s.compareFrom epsilon fuel field inp ref iF rF).isSome = true := by
  have body : ∀ (m : Nat),
      (∀ (inp : StructuredFile), inp.position.length < m →
        ∀ (field : Nat) (ref : StructuredFile) (iF rF : Bool),
          ∃ fuel, (s.compareFrom epsilon fuel field inp ref iF rF).isSome = true) →
      ∀ (inp : StructuredFile), inp.position.length ≤ m →
        ∀ (field : Nat), field < s.numberOfAttributes → ∀ (ref : StructuredFile) (iF rF : Bool),
          ∃ fuel, (s.compareFrom epsilon fuel field inp ref iF rF).isSome = true := by
    intro m ih inp hm field hfield ref iF rF
    rcases fieldResult_cases inp.getNextField.1 with h1 | h1 | ⟨x, h1⟩
    · exact ⟨1, by rw [Schema.compareFrom]; simp [hfield, h1]⟩
    · rcases fieldResult_cases ref.getNextField.1 with h2 | h2 | ⟨y, h2⟩
      · exact ⟨1, by rw [Schema.compareFrom]; simp [hfield, h1, h2]⟩
      · exact ⟨1, by rw [Schema.compareFrom]; simp [hfield, h1, h2]⟩
      · cases rF with
        | true => exact ⟨1, by rw [Schema.compareFrom]; simp [hfield, h1, h2]⟩
        | false => exact ⟨1, by rw [Schema.compareFrom]; simp [hfield, h1, h2]⟩
    · rcases fieldResult_cases ref.getNextField.1 with h2 | h2 | ⟨y, h2⟩
      · exact ⟨1, by rw [Schema.compareFrom]; simp [hfield, h1, h2]⟩
      · cases iF with
        | true => exact ⟨1, by rw [Schema.compareFrom]; simp [hfield, h1, h2]⟩
        | false => exact ⟨1, by rw [Schema.compareFrom]; simp [hfield, h1, h2]⟩
      · cases iF with
        | true =>
          cases rF with
          | true => exact ⟨1, by rw [Schema.compareFrom]; simp [hfield, h1, h2]⟩
          | false => exact ⟨1, by rw [Schema.compareFrom]; simp [hfield, h1, h2]⟩
        | false =>
          cases rF with
          | true => exact ⟨1, by rw [Schema.compareFrom]; simp [hfield, h1, h2]⟩
          | false =>
            have hlt := getNextField_consumes inp x h1
            obtain ⟨fuel, hres⟩ := ih inp.getNextField.2 (by omega) (field + 1)
              ref.getNextField.2 false false
            cases hcmp : s.compareField field x y epsilon with
            | ok b =>
              cases b with
              | true =>
                refine ⟨fuel + 1, ?_⟩
                rw [Schema.compareFrom]
                simp [hfield, h1, h2, fieldText, hcmp, hres]
              | false =>
                exact ⟨1, by
                  rw [Schema.compareFrom]; simp [hfield, h1, h2, fieldText, hcmp]⟩
            | error e =>
              cases e with
              | SchemaException msg =>
                exact ⟨1, by
                  rw [Schema.compareFrom]; simp [hfield, h1, h2, fieldText, hcmp]⟩
              | SchemaInputFileException msg =>
                exact ⟨1, by
                  rw [Schema.compareFrom]; simp [hfield, h1, h2, fieldText, hcmp]⟩
              | SchemaReferenceFileException msg =>
                exact ⟨1, by
                  rw [Schema.compareFrom]; simp [hfield, h1, h2, fieldText, hcmp]⟩
              | invalid_argument =>
                exact ⟨1, by
                  rw [Schema.compareFrom]; simp [hfield, h1, h2, fieldText, hcmp]⟩
              | out_of_range =>
                exact ⟨1, by
                  rw [Schema.compareFrom]; simp [hfield, h1, h2, fieldText, hcmp]⟩
  intro m
  induction m using Nat.strong_induction_on with
  | _ m ih =>
    intro inp hm field ref iF rF
    have hbody := body m (fun inp2 h2 => ih inp2.position.length h2 inp2 (Nat.le_refl _))
    by_cases hfield : field < s.numberOfAttributes
    · exact hbody inp hm field hfield ref iF rF
    · obtain ⟨fuel, hres⟩ := hbody inp.getNextRecord hm 0 hn ref.getNextRecord iF rF
      refine ⟨fuel + 1, ?_⟩
      rw [Schema.compareFrom]
      simp only [hfield, if_false]
      exact hres

/-- With at least one column the record-level comparison ends on every pair of
tokenizers: some amount of fuel gives a result. -/
theorem compare_terminates_with_columns (s : Schema) (epsilon : ℚ)
    (inputFile referenceFile : StructuredFile) (hn : 1 ≤ s.numberOfAttributes) :
    ∃ fuel result, s.compare inputFile referenceFile epsilon fuel = some result := by
  obtain ⟨fuel, h⟩ := compareFrom_terminates s epsilon hn inputFile.position.length
    inputFile (Nat.le_refl _) 0 referenceFile false false
  exact ⟨fuel, Option.isSome_iff_exists.mp h⟩

/-- C19: the empty schema text parses to a schema without columns, and with that schema
the record-level comparison gives no result on any pair of files, however much fuel it
gets: the inner `for` has nothing to do and the outer `while (true)` has no other
exit. -/
theorem compare_never_returns_without_columns :
    Schema.new [] = .ok ⟨[]⟩ ∧
    ∀ (epsilon : ℚ) (fuel : Nat) (inputFile referenceFile : StructuredFile),
      (Schema.mk []).compare inputFile referenceFile epsilon fuel = none := by
  refine ⟨rfl, ?_⟩
  intro epsilon fuel
  have h : ∀ (fuel field : Nat) (inp ref : StructuredFile) (iF rF : Bool),
      (Schema.mk []).compareFrom epsilon fuel field inp ref iF rF = none := by
    intro fuel
    induction fuel with
    | zero => intro field inp ref iF rF; rfl
    | succ fuel ih =>
      intro field inp ref iF rF
      rw [Schema.compareFrom]
      simp only [Schema.numberOfAttributes, List.length_nil, Nat.not_lt_zero, if_false]
      exact ih _ _ _ _ _
  intro inputFile referenceFile
  exact h fuel 0 inputFile referenceFile false false

/-! ## Integer, BigInt and Date fields: only the leading integer counts -/

/-- Skipping leading characters is not affected by what is appended, as long as some
character of the text stays. -/
theorem dropWhile_append_of_ne_nil (p : Char → Bool) (x : List Char) :
    ∀ s : List Char, s.dropWhile p ≠ [] → (s ++ x).dropWhile p = s.dropWhile p ++ x := by
  intro s
  induction s with
  | nil => intro h; exact absurd rfl h
  | cons a s ih =>
    intro h
    rw [List.cons_append, List.dropWhile_cons, List.dropWhile_cons]
    rw [List.dropWhile_cons] at h
    cases hp : p a with
    | true =>
      rw [hp] at h
      simp only [if_true] at h ⊢
      exact ih h
    | false => simp

/-- A run of digits ends at the first character that is no digit. -/
theorem takeWhile_isDigit_append (c : Char) (t : List Char) (hc : c.isDigit = false) :
    ∀ r : List Char, (r ++ c :: t).takeWhile Char.isDigit = r.takeWhile Char.isDigit := by
  intro r
  induction r with
  | nil => simp [List.takeWhile, hc]
  | cons a r ih =>
    rw [List.cons_append, List.takeWhile_cons, List.takeWhile_cons, ih]

/-- The sign is read off the first character, whatever is appended to a text that has
one. -/
theorem stripSign_append (a : Char) (r x : List Char) :
    stripSign (a :: r ++ x) = ((stripSign (a :: r)).1, (stripSign (a :: r)).2 ++ x) := by
  by_cases h1 : a = '-'
  · subst h1; rfl
  · by_cases h2 : a = '+'
    · subst h2; rfl
    · have e : ∀ y : List Char, stripSign (a :: y) = (false, a :: y) := by
        intro y
        unfold stripSign
        split
        · rename_i heq; injection heq with e1 e2; exact absurd e1 h1
        · rename_i heq; injection heq with e1 e2; exact absurd e1 h2
        · rfl
      rw [List.cons_append, e, e]
      rfl

/-- A text from which the conversion reads an integer reads the same with anything
appended that starts with a character that is no digit. -/
theorem strtol_append (s t : List Char) (c : Char) (hc : c.isDigit = false)
    (hs : strtol s ≠ none) : strtol (s ++ c :: t) = strtol s := by
  have hne : s.dropWhile isspace ≠ [] := by
    intro h
    apply hs
    unfold strtol
    rw [h]
    rfl
  obtain ⟨a, r, har⟩ := List.exists_cons_of_ne_nil hne
  unfold strtol
  rw [dropWhile_append_of_ne_nil isspace (c :: t) s hne, har, stripSign_append]
  simp only [takeWhile_isDigit_append c t hc]

/-- No text from which the conversion reads an integer is the literal `null`. -/
theorem strtol_ne_null (s : List Char) (hs : strtol s ≠ none) : s ≠ ['n', 'u', 'l', 'l'] := by
  intro h
  apply hs
  rw [h]
  rfl

/-- C22: in an Integer, BigInt or Date column, a field `s` that parses as an integer and
the same field followed by any text that starts with a character that is no digit are
read as the same number: each compares equal to the other, and two fields that extend
`s` in different ways compare equal. -/
theorem leading_integer_decides_comparison (a : Attribute) (s t t2 : List Char)
    (c c2 : Char) (epsilon : ℚ) (v : Int)
    (hty : a.type = .Integer ∨ a.type = .BigInt ∨ a.type = .Date)
    (hs : (if a.type = .Integer then stoi s else stol s) = .ok v)
    (hc : c.isDigit = false) (hc2 : c2.isDigit = false) :
    a.compare (s ++ c :: t) s epsilon = .ok true ∧
    a.compare s (s ++ c :: t) epsilon = .ok true ∧
    a.compare (s ++ c :: t) (s ++ c2 :: t2) epsilon = .ok true := by
  have hsome : strtol s ≠ none := by
    intro h
    unfold stoi stol at hs
    rw [h] at hs
    split at hs <;> exact absurd hs (by simp)
  have e1 : stoi (s ++ c :: t) = stoi s := by unfold stoi; rw [strtol_append s t c hc hsome]
  have e2 : stol (s ++ c :: t) = stol s := by unfold stol; rw [strtol_append s t c hc hsome]
  have e3 : stoi (s ++ c2 :: t2) = stoi s := by
    unfold stoi; rw [strtol_append s t2 c2 hc2 hsome]
  have e4 : stol (s ++ c2 :: t2) = stol s := by
    unfold stol; rw [strtol_append s t2 c2 hc2 hsome]
  have n1 : s ≠ ['n', 'u', 'l', 'l'] := strtol_ne_null s hsome
  have n2 : s ++ c :: t ≠ ['n', 'u', 'l', 'l'] :=
    strtol_ne_null _ (by rw [strtol_append s t c hc hsome]; exact hsome)
  have n3 : s ++ c2 :: t2 ≠ ['n', 'u', 'l', 'l'] :=
    strtol_ne_null _ (by rw [strtol_append s t2 c2 hc2 hsome]; exact hsome)
  have body : ∀ x y : List Char, x ≠ ['n', 'u', 'l', 'l'] → y ≠ ['n', 'u', 'l', 'l'] →
      a.compare x y epsilon = a.compareByType x y epsilon := by
    intro x y hx hy
    unfold Attribute.compare
    cases a.null <;> simp [hx, hy]
  rw [body _ _ n2 n1, body _ _ n1 n2, body _ _ n2 n3]
  rcases hty with h | h | h
  · rw [h] at hs
    simp only [if_true] at hs
    simp [Attribute.compareByType, h, compareInteger, e1, e3, hs, bind, Except.bind, pure,
      Except.pure]
  · rw [h] at hs
    simp only [reduceCtorEq, if_false] at hs
    simp [Attribute.compareByType, h, compareBigInt, e2, e4, hs, bind, Except.bind, pure,
      Except.pure]
  · rw [h] at hs
    simp only [reduceCtorEq, if_false] at hs
    simp [Attribute.compareByType, h, compareDate, e2, e4, hs, bind, Except.bind, pure,
      Except.pure]

theorem leading_integer_decides_comparison_witness :
    ({ name := "d".toList, type := .Date } : Attribute).compare "2014-01-01".toList
      "2014-12-31".toList 0 = .ok true :=
  (leading_integer_decides_comparison { name := "d".toList, type := .Date }
    "2014".toList "01-01".toList "12-31".toList '-' '-' 0 2014 (Or.inr (Or.inr rfl)) rfl
    rfl rfl).2.2

/-! ## Decimal fields next to a reference of zero -/

/-- At tolerance 0 a field that is valid for its column compares equal to itself. -/
theorem compare_self_of_valid (a : Attribute) (field : List Char)
    (hL : a.length < 2 ^ 31) (hv : validField a field) :
    a.compare field field 0 = .ok true := by
  unfold validField at hv
  by_cases hnull : field = ['n', 'u', 'l', 'l']
  · rw [if_pos hnull] at hv
    simp [Attribute.compare, hv, hnull]
  · rw [if_neg hnull] at hv
    have body : a.compare field field 0 = a.compareByType field field 0 := by
      unfold Attribute.compare
      cases a.null <;> simp [hnull]
    rw [body]
    unfold Attribute.compareByType
    cases hty : a.type <;> rw [hty] at hv <;> simp only at hv ⊢
    · obtain ⟨v, hv⟩ := hv
      simp [compareInteger, hv, bind, Except.bind, pure, Except.pure]
    · obtain ⟨v, hv⟩ := hv
      simp [compareBigInt, hv, bind, Except.bind, pure, Except.pure]
    · have h0 : 0 ≤ a.length := le_trans (Int.ofNat_nonneg _) hv
      have hu := u64_of_int_range a.length h0 hL
      have : ¬ field.length > u64 a.length := by omega
      simp [compareVarchar, this]
    · have h0 : 0 ≤ a.length := le_trans (Int.ofNat_nonneg _) hv
      have hu := u64_of_int_range a.length h0 hL
      have : ¬ field.length > u64 a.length := by omega
      simp [compareChar, this]
    · simp [compareDecimal]
    · obtain ⟨v, hv⟩ := hv
      simp [compareDate, hv, bind, Except.bind, pure, Except.pure]

/-- A record of valid fields compares equal to itself, column by column. -/
theorem fieldsEqualFrom_self (s : Schema)
    (hL : ∀ a ∈ s.attributes, a.length < 2 ^ 31) :
    ∀ (record : List (List Char)) (j : Nat), j + record.length ≤ s.numberOfAttributes →
      validRecord s j record → fieldsEqualFrom s 0 j record record := by
  intro record
  induction record with
  | nil => intro j _ _; trivial
  | cons x xs ih =>
    intro j hj hv
    simp only [List.length_cons] at hj
    have hlt : j < s.attributes.length := by unfold Schema.numberOfAttributes at hj; omega
    have hget : s.attributes.getD j {} = s.attributes[j] := by
      rw [List.getD_eq_getElem?_getD, List.getElem?_eq_getElem hlt]; rfl
    refine ⟨?_, ih (j + 1) (by omega) hv.2⟩
    unfold Schema.compareField
    exact compare_self_of_valid _ x (by rw [hget]; exact hL _ (List.getElem_mem _)) hv.1

/-- A list of records of valid fields compares equal to itself, record by record. -/
theorem recordsEqual_self (s : Schema) (hL : ∀ a ∈ s.attributes, a.length < 2 ^ 31) :
    ∀ records : List (List (List Char)),
      (∀ record ∈ records, record.length = s.numberOfAttributes ∧ validRecord s 0 record) →
      recordsEqual s 0 records records := by
  intro records
  induction records with
  | nil => intro _; trivial
  | cons r rs ih =>
    intro h
    have hr := h r (List.mem_cons_self _ _)
    exact ⟨fieldsEqualFrom_self s hL r 0 (by omega) hr.2,
      ih (fun x hx => h x (List.mem_cons_of_mem _ hx))⟩

/-- Two files without any content compare equal, whatever the header-skip setting. -/
theorem compare_empty_files (s : Schema) (inp ref : StructuredFile) (epsilon : ℚ) (fuel : Nat)
    (hn : 1 ≤ s.numberOfAttributes)
    (hEc : inp.endOfRecord = false) (hEr : ref.endOfRecord = false)
    (hPc : inp.position = []) (hPr : ref.position = []) :
    s.compare inp ref epsilon (fuel + 1) = some (.ok ()) := by
  have hfield : 0 < s.numberOfAttributes := hn
  unfold Schema.compare
  rw [Schema.compareFrom]
  simp [hfield, getNextField_eof inp hEc hPc, getNextField_eof ref hEr hPr]

/-- C21: a schema with at least one column, tolerance 0, and two tokenizers with the same
delimiters and the same header-skip setting over the same content: a header line when
one is skipped, then records of exactly `n` fields, each field valid for its column and
each record ended by the record delimiter. With enough fuel the record-level comparison
returns successfully. -/
theorem identical_files_compare_equal (s : Schema) (inp ref : StructuredFile)
    (header : List Char) (records : List (List (List Char))) (fuel : Nat)
    (hn : 1 ≤ s.numberOfAttributes)
    (hL : ∀ a ∈ s.attributes, a.length < 2 ^ 31)
    (hEc : inp.endOfRecord = false) (hEr : ref.endOfRecord = false)
    (hD : inp.fieldDelimiter ≠ inp.recordDelimiter)
    (hfd : ref.fieldDelimiter = inp.fieldDelimiter)
    (hrd : ref.recordDelimiter = inp.recordDelimiter)
    (hskip : ref.ignoreFirstLine = inp.ignoreFirstLine)
    (hH : inp.recordDelimiter ∉ header)
    (hw : wellFormedRecords s.numberOfAttributes inp.fieldDelimiter inp.recordDelimiter records)
    (hv : ∀ record ∈ records, validRecord s 0 record)
    (hPc : inp.position = fileContent inp header records)
    (hPr : ref.position = inp.position) :
    s.compare inp ref 0 (fuel + 1 + records.length * (s.numberOfAttributes + 1)) =
      some (.ok ()) := by
  have hPr2 : ref.position = fileContent ref header records ++ [] := by
    rw [hPr, hPc]
    simp [fileContent, hfd, hrd, hskip]
  have hPc2 : inp.position = fileContent inp header records ++ [] := by rw [hPc]; simp
  have heq : recordsEqual s 0 records records :=
    recordsEqual_self s hL records (fun r hr => ⟨(hw r hr).1, hv r hr⟩)
  rw [compare_after_equal_records s 0 inp ref header header [] [] records records fuel hn
    hEc hEr hD (by rw [hfd, hrd]; exact hD) hH (by rw [hrd]; exact hH) heq hw
    (by rw [hfd, hrd]; exact hw) hPc2 hPr2]
  have g1 := getNextField_eof
    { inp with ignoreFirstLine := false, position := [],
               currentRecord := inp.currentRecord + records.length } hEc rfl
  have g2 := getNextField_eof
    { ref with ignoreFirstLine := false, position := [],
               currentRecord := ref.currentRecord + records.length } hEr rfl
  have hfield : 0 < s.numberOfAttributes := hn
  rw [Schema.compareFrom]
  simp [hfield, g1, g2]

theorem identical_files_compare_equal_witness :
    (Schema.mk [{ name := "a".toList, type := .Integer },
        { name := "b".toList, type := .Varchar, length := 3, null := false }]).compare
      (StructuredFile.new "candidate".toList "a\tb\n1\tabc\nnull\t\n".toList)
      (StructuredFile.new "reference".toList "a\tb\n1\tabc\nnull\t\n".toList) 0
      (0 + 1 + 2 * (2 + 1)) = some (.ok ()) :=
  identical_files_compare_equal
    ⟨[{ name := "a".toList, type := .Integer },
      { name := "b".toList, type := .Varchar, length := 3, null := false }]⟩
    (StructuredFile.new "candidate".toList "a\tb\n1\tabc\nnull\t\n".toList)
    (StructuredFile.new "reference".toList "a\tb\n1\tabc\nnull\t\n".toList)
    "a\tb".toList [["1".toList, "abc".toList], ["null".toList, []]] 0
    (by decide) (by simp) rfl rfl (by decide) rfl rfl rfl (by decide)
    (by simp [wellFormedRecords, cleanRecord, Schema.numberOfAttributes, StructuredFile.new])
    (by
      simp only [List.mem_cons, List.mem_singleton, List.not_mem_nil, or_false]
      rintro record (rfl | rfl)
      · exact ⟨⟨1, rfl⟩, by simp [validField, validRecord]⟩
      · exact ⟨by simp [validField], by simp [validField, validRecord]⟩)
    rfl rfl

/-! ## The schema parser: resolution of the pending attribute and an invariant of the loop -/

/-- The loop over a concatenation is the loop over the first part, then over the second. -/
theorem parserLoop_append (y : List Char) : ∀ (x : List Char) (d : ParserData),
    parserLoop (x ++ y) d = (parserLoop x d).bind (parserLoop y) := by
  intro x
  induction x with
  | nil => intro d; rfl
  | cons c x ih =>
    intro d
    rw [List.cons_append, parserLoop, parserLoop]
    cases h : parserStep d c with
    | error e => rfl
    | ok d2 => exact ih d2

/-- Resolving the type keeps the name and the null flag and sets the defaults of the
type. -/
theorem resolveType_ok (text : List Char) (a b : Attribute) (h : resolveType text a = .ok b)
    (hl : a.length = -1) (hp : a.precision = -1) :
    b.null = a.null ∧ b.name = a.name ∧ typeAppropriate b := by
  unfold resolveType at h
  have i1 : isInt 1 := by unfold isInt; constructor <;> norm_num
  have i4 : isInt 4 := by unfold isInt; constructor <;> norm_num
  have i2 : isInt 2 := by unfold isInt; constructor <;> norm_num
  split at h
  · injection h with h; subst h; exact ⟨rfl, rfl, by simp [typeAppropriate, hl, hp]⟩
  · split at h
    · injection h with h; subst h; exact ⟨rfl, rfl, by simp [typeAppropriate, hl, hp]⟩
    · split at h
      · injection h with h; subst h; exact ⟨rfl, rfl, by simp [typeAppropriate, hp, i1]⟩
      · split at h
        · injection h with h; subst h; exact ⟨rfl, rfl, by simp [typeAppropriate, hp, i1]⟩
        · split at h
          · injection h with h; subst h; exact ⟨rfl, rfl, by simp [typeAppropriate, i4, i2]⟩
          · split at h
            · injection h with h; subst h
              exact ⟨rfl, rfl, by simp [typeAppropriate, hl, hp]⟩
            · exact absurd h (by simp)

/-- What `stoi` returns is an `int`. -/
theorem stoi_isInt (text : List Char) (v : Int) (h : stoi text = .ok v) : isInt v := by
  unfold stoi at h
  split at h
  · exact absurd h (by simp)
  · split at h
    · rename_i hr
      injection h with h
      subst h
      exact hr
    · exact absurd h (by simp)

/-- Resolving a length keeps everything but the length, and needs a type that takes
one. -/
theorem resolveLength_ok (text : List Char) (a b : Attribute)
    (h : resolveLength text a = .ok b) (ha : typeAppropriate a) :
    b.null = a.null ∧ b.name = a.name ∧ typeAppropriate b := by
  unfold resolveLength at h
  split at h
  · exact absurd h (by simp)
  · rename_i hty
    cases hs : stoi text with
    | error e => rw [hs] at h; exact absurd h (by simp [bind, Except.bind])
    | ok v =>
      rw [hs] at h
      simp only [bind, Except.bind, pure, Except.pure] at h
      injection h with h
      subst h
      have hv := stoi_isInt text v hs
      refine ⟨rfl, rfl, ?_⟩
      unfold typeAppropriate at ha ⊢
      cases hty2 : a.type <;> rw [hty2] at ha <;> simp_all

/-- Resolving a precision keeps everything but the precision, and needs the type
Decimal. -/
theorem resolvePrecision_ok (text : List Char) (a b : Attribute)
    (h : resolvePrecision text a = .ok b) (ha : typeAppropriate a) :
    b.null = a.null ∧ b.name = a.name ∧ typeAppropriate b := by
  unfold resolvePrecision at h
  split at h
  · exact absurd h (by simp)
  · rename_i hty
    cases hs : stoi text with
    | error e => rw [hs] at h; exact absurd h (by simp [bind, Except.bind])
    | ok v =>
      rw [hs] at h
      simp only [bind, Except.bind, pure, Except.pure] at h
      injection h with h
      subst h
      have hv := stoi_isInt text v hs
      refine ⟨rfl, rfl, ?_⟩
      unfold typeAppropriate at ha ⊢
      cases hty2 : a.type <;> rw [hty2] at ha <;> simp_all

/-- Resolving the null information changes the null flag only, as the text says. -/
theorem resolveNull_eq (text : List Char) (a : Attribute) :
    resolveNull text a =
      match nullableOf text with
      | some b => .ok { a with null := b }
      | none => .error (.SchemaException "invalid null info".toList) := by
  unfold resolveNull nullableOf
  split
  · rfl
  · split
    · rfl
    · split
      · rfl
      · rfl

/-- The null flag does not enter the type-appropriateness of a descriptor. -/
theorem typeAppropriate_null (a : Attribute) (b : Bool) (h : typeAppropriate a) :
    typeAppropriate { a with null := b } := h

/-- At a newline after the type, the length or the precision, the pending attribute is
resolved, the empty null information makes it nullable, and it is pushed. -/
theorem parserStep_newline (d : ParserData)
    (hs : d.state = .Type ∨ d.state = .TypeLength ∨ d.state = .TypePrecision) :
    parserStep d '\n' =
      (pendingAttribute d).bind
        (fun a => .ok ⟨d.attributes ++ [{ a with null := true }], .Name, {}, []⟩) := by
  obtain ⟨attrs, st, attr, stream⟩ := d
  simp only at hs
  rcases hs with h | h | h <;> subst h
  · simp only [parserStep, stepType, pendingAttribute]
    cases resolveType stream attr <;>
      simp [bind, Except.bind, pure, Except.pure, stepNullInfo, resolveNull,
        stepEndOfAttribute]
  · simp only [parserStep, stepTypeLength, pendingAttribute]
    cases resolveLength stream attr <;>
      simp [bind, Except.bind, pure, Except.pure, stepNullInfo, resolveNull,
        stepEndOfAttribute]
  · simp only [parserStep, stepTypePrecision, pendingAttribute]
    cases resolvePrecision stream attr <;>
      simp [bind, Except.bind, pure, Except.pure, stepNullInfo, resolveNull,
        stepEndOfAttribute]

/-- At a newline in the null information the attribute is resolved and pushed. -/
theorem parserStep_newline_nullInfo (d : ParserData) (hs : d.state = .NullInfo) :
    parserStep d '\n' =
      (pendingAttribute d).bind (fun a => .ok ⟨d.attributes ++ [a], .Name, {}, []⟩) := by
  obtain ⟨attrs, st, attr, stream⟩ := d
  simp only at hs
  subst hs
  simp only [parserStep, stepNullInfo, pendingAttribute]
  cases resolveNull stream attr <;>
    simp [bind, Except.bind, pure, Except.pure, stepEndOfAttribute]

/-- At a space after the type, the length or the precision, the pending attribute is
resolved and the null information begins. -/
theorem parserStep_space (d : ParserData)
    (hs : d.state = .Type ∨ d.state = .TypeLength ∨ d.state = .TypePrecision) :
    parserStep d ' ' =
      (pendingAttribute d).bind (fun a => .ok ⟨d.attributes, .NullInfo, a, []⟩) := by
  obtain ⟨attrs, st, attr, stream⟩ := d
  simp only at hs
  rcases hs with h | h | h <;> subst h
  · simp only [parserStep, stepType, pendingAttribute]
    cases resolveType stream attr <;> simp [bind, Except.bind, pure, Except.pure]
  · simp only [parserStep, stepTypeLength, pendingAttribute]
    cases resolveLength stream attr <;> simp [bind, Except.bind, pure, Except.pure]
  · simp only [parserStep, stepTypePrecision, pendingAttribute]
    cases resolvePrecision stream attr <;> simp [bind, Except.bind, pure, Except.pure]

/-- At the end of the input inside a column, the pending attribute is resolved and
pushed. -/
theorem parserFinish_pending (d : ParserData) (hs : d.state ≠ .Name) :
    parserFinish d = (pendingAttribute d).bind (fun a => .ok (d.attributes ++ [a])) := by
  obtain ⟨attrs, st, attr, stream⟩ := d
  simp only at hs
  cases st
  · exact absurd rfl hs
  · simp only [parserFinish, pendingAttribute]
    cases resolveType stream attr <;> simp [bind, Except.bind, pure, Except.pure]
  · simp only [parserFinish, pendingAttribute]
    cases resolveLength stream attr <;> simp [bind, Except.bind, pure, Except.pure]
  · simp only [parserFinish, pendingAttribute]
    cases resolvePrecision stream attr <;> simp [bind, Except.bind, pure, Except.pure]
  · simp only [parserFinish, pendingAttribute]
    cases resolveNull stream attr <;> simp [bind, Except.bind, pure, Except.pure]
  · simp [parserFinish, pendingAttribute, bind, Except.bind, pure, Except.pure]

/-- Under the invariant a pending attribute that resolves is type-appropriate, and
outside the null information it is nullable. -/
theorem pendingAttribute_ok (d : ParserData) (a : Attribute) (hinv : parserInvariant d)
    (hs : d.state ≠ .Name) (h : pendingAttribute d = .ok a) :
    typeAppropriate a ∧ (d.state ≠ .NullInfo → a.null = true) := by
  obtain ⟨attrs, st, attr, stream⟩ := d
  obtain ⟨_, hst⟩ := hinv
  simp only at hs hst
  cases st <;> simp only [pendingAttribute] at h hst
  · exact absurd rfl hs
  · obtain ⟨h1, h2, h3⟩ := resolveType_ok stream attr a h hst.1 hst.2.1
    exact ⟨h3, fun _ => by rw [h1]; exact hst.2.2⟩
  · obtain ⟨h1, h2, h3⟩ := resolveLength_ok stream attr a h hst.1
    exact ⟨h3, fun _ => by rw [h1]; exact hst.2⟩
  · obtain ⟨h1, h2, h3⟩ := resolvePrecision_ok stream attr a h hst.1
    exact ⟨h3, fun _ => by rw [h1]; exact hst.2⟩
  · rw [resolveNull_eq] at h
    split at h
    · injection h with h; subst h; exact ⟨hst, fun e => absurd rfl e⟩
    · exact absurd h (by simp)

/-- The start state of the constructor satisfies the invariant. -/
theorem parserInvariant_init : parserInvariant ⟨[], .Name, {}, []⟩ := by
  refine ⟨fun a ha => absurd ha (List.not_mem_nil a), ?_⟩
  exact ⟨rfl, rfl, rfl⟩

/-- The state after a push satisfies the invariant. -/
theorem parserInvariant_push (attrs : List Attribute) (a : Attribute)
    (h : ∀ x ∈ attrs, typeAppropriate x) (ha : typeAppropriate a) :
    parserInvariant ⟨attrs ++ [a], .Name, {}, []⟩ := by
  refine ⟨?_, rfl, rfl, rfl⟩
  intro x hx
  rw [List.mem_append, List.mem_singleton] at hx
  rcases hx with hx | hx
  · exact h x hx
  · rw [hx]; exact ha

/-- One iteration of the loop keeps the invariant. -/
theorem parserInvariant_step (d d2 : ParserData) (c : Char) (hinv : parserInvariant d)
    (h : parserStep d c = .ok d2) : parserInvariant d2 := by
  by_cases hname : d.state = .Name
  · obtain ⟨attrs, st, attr, stream⟩ := d
    simp only at hname
    subst hname
    obtain ⟨h1, h2⟩ := hinv
    simp only [parserStep, stepName] at h
    split at h <;> (injection h with h; subst h; exact ⟨h1, h2⟩)
  · by_cases hnl : c = '\n'
    · subst hnl
      have key : ∃ a b, pendingAttribute d = .ok a ∧ typeAppropriate a ∧
          d2 = ⟨d.attributes ++ [{ a with null := b }], .Name, {}, []⟩ := by
        by_cases hni : d.state = .NullInfo
        · rw [parserStep_newline_nullInfo d hni] at h
          cases hp : pendingAttribute d with
          | error e => rw [hp] at h; exact absurd h (by simp [Except.bind])
          | ok a =>
            rw [hp] at h
            simp only [Except.bind] at h
            injection h with h
            exact ⟨a, a.null, rfl, (pendingAttribute_ok d a hinv hname hp).1, h.symm⟩
        · have hs : d.state = .Type ∨ d.state = .TypeLength ∨ d.state = .TypePrecision := by
            have hE : d.state ≠ .EndOfAttribute := by
              intro e
              have := hinv.2
              rw [e] at this
              exact this
            cases hst : d.state <;> simp_all
          rw [parserStep_newline d hs] at h
          cases hp : pendingAttribute d with
          | error e => rw [hp] at h; exact absurd h (by simp [Except.bind])
          | ok a =>
            rw [hp] at h
            simp only [Except.bind] at h
            injection h with h
            exact ⟨a, true, rfl, (pendingAttribute_ok d a hinv hname hp).1, h.symm⟩
      obtain ⟨a, b, _, ha, rfl⟩ := key
      exact parserInvariant_push _ _ hinv.1 (typeAppropriate_null a b ha)
    · obtain ⟨attrs, st, attr, stream⟩ := d
      obtain ⟨h1, h2⟩ := hinv
      simp only at hname h2
      cases st <;> simp only at h2
      · exact absurd rfl hname
      · simp only [parserStep, stepType, hnl, or_false] at h
        split at h
        · cases hr : resolveType stream attr with
          | error e => rw [hr] at h; exact absurd h (by simp [bind, Except.bind])
          | ok a =>
            obtain ⟨r1, r2, r3⟩ := resolveType_ok stream attr a hr h2.1 h2.2.1
            rw [hr] at h
            simp only [bind, Except.bind, pure, Except.pure] at h
            split at h
            · injection h with h; subst h
              exact ⟨h1, r3, by rw [r1]; exact h2.2.2⟩
            · split at h
              · injection h with h; subst h; exact ⟨h1, r3⟩
              · rename_i n1 n2
                rename_i hc
                rcases hc with hc | hc
                · exact absurd hc n2
                · exact absurd hc n1
        · injection h with h; subst h; exact ⟨h1, h2⟩
      · simp only [parserStep, stepTypeLength, hnl, or_false] at h
        split at h
        · cases hr : resolveLength stream attr with
          | error e => rw [hr] at h; exact absurd h (by simp [bind, Except.bind])
          | ok a =>
            obtain ⟨r1, r2, r3⟩ := resolveLength_ok stream attr a hr h2.1
            rw [hr] at h
            simp only [bind, Except.bind, pure, Except.pure] at h
            split at h
            · injection h with h; subst h
              exact ⟨h1, r3, by rw [r1]; exact h2.2⟩
            · split at h
              · injection h with h; subst h; exact ⟨h1, r3⟩
              · rename_i n1 n2
                rename_i hc
                rcases hc with hc | hc
                · exact absurd hc n2
                · exact absurd hc n1
        · injection h with h; subst h; exact ⟨h1, h2⟩
      · simp only [parserStep, stepTypePrecision, hnl, or_false] at h
        split at h
        · cases hr : resolvePrecision stream attr with
          | error e => rw [hr] at h; exact absurd h (by simp [bind, Except.bind])
          | ok a =>
            obtain ⟨r1, r2, r3⟩ := resolvePrecision_ok stream attr a hr h2.1
            rw [hr] at h
            simp only [bind, Except.bind, pure, Except.pure, if_false] at h
            injection h with h; subst h; exact ⟨h1, r3⟩
        · injection h with h; subst h; exact ⟨h1, h2⟩
      · simp only [parserStep, stepNullInfo, hnl, if_false] at h
        injection h with h; subst h; exact ⟨h1, h2⟩

/-- The loop keeps the invariant. -/
theorem parserInvariant_loop : ∀ (text : List Char) (d d2 : ParserData),
    parserInvariant d → parserLoop text d = .ok d2 → parserInvariant d2 := by
  intro text
  induction text with
  | nil =>
    intro d d2 hinv h
    rw [parserLoop] at h
    injection h with h
    subst h
    exact hinv
  | cons c text ih =>
    intro d d2 hinv h
    rw [parserLoop] at h
    cases hs : parserStep d c with
    | error e => rw [hs] at h; exact absurd h (by simp [bind, Except.bind])
    | ok d1 =>
      rw [hs] at h
      exact ih d1 d2 (parserInvariant_step d d1 c hinv hs) h
/-! ## The last line of a schema definition and the shape of parsed descriptors -/

/-- The loop over one character is one iteration. -/
theorem parserLoop_singleton (d : ParserData) (c : Char) :
    parserLoop [c] d = parserStep d c := by
  rw [parserLoop]
  cases parserStep d c <;> rfl

/-- In state `Name` the code after the loop pushes nothing. -/
theorem parserFinish_name (d : ParserData) (hs : d.state = .Name) :
    parserFinish d = .ok d.attributes := by
  obtain ⟨attrs, st, attr, stream⟩ := d
  simp only at hs
  subst hs
  rfl

/-- Inside a column, a newline followed by the end of the input leaves the attributes the
end of the input alone leaves. -/
theorem parserFinish_after_newline (d : ParserData) (hinv : parserInvariant d)
    (hs : d.state ≠ .Name) : (parserStep d '\n').bind parserFinish = parserFinish d := by
  rw [parserFinish_pending d hs]
  by_cases hni : d.state = .NullInfo
  · rw [parserStep_newline_nullInfo d hni]
    cases hp : pendingAttribute d with
    | error e => rfl
    | ok a => rfl
  · have hst : d.state = .Type ∨ d.state = .TypeLength ∨ d.state = .TypePrecision := by
      have hE : d.state ≠ .EndOfAttribute := by
        intro e
        have := hinv.2
        rw [e] at this
        exact this
      cases hst : d.state <;> simp_all
    rw [parserStep_newline d hst]
    cases hp : pendingAttribute d with
    | error e => rfl
    | ok a =>
      have hnull := (pendingAttribute_ok d a hinv hs hp).2 hni
      have ha : ({ a with null := true } : Attribute) = a := by
        cases a
        simp_all
      simp only [Except.bind, ha]
      rfl

/-- The constructor, once the loop has ended without an exception. -/
theorem schema_new_of_loop (content : List Char) (d : ParserData)
    (hd : parserLoop content ⟨[], .Name, {}, []⟩ = .ok d) :
    Schema.new content = (parserFinish d).map Schema.mk := by
  unfold Schema.new
  rw [hd]
  cases hf : parserFinish d <;> simp [bind, Except.bind, pure, Except.pure, Except.map, hf]

/-- The constructor, when the loop ends with an exception. -/
theorem schema_new_of_loop_error (content : List Char) (e : Exception)
    (hd : parserLoop content ⟨[], .Name, {}, []⟩ = .error e) :
    Schema.new content = .error e := by
  unfold Schema.new
  rw [hd]
  rfl

/-- C14: a schema text whose scan ends inside a column (the loop of the constructor ends
in a state other than `Name`) parses to the same outcome with one newline appended: the
same list of column descriptors, or the same failure. -/
theorem missing_trailing_newline_is_tolerated (text : List Char) (d : ParserData)
    (hd : parserLoop text ⟨[], .Name, {}, []⟩ = .ok d) (hs : d.state ≠ .Name) :
    Schema.new (text ++ ['\n']) = Schema.new text := by
  have hinv := parserInvariant_loop text _ d parserInvariant_init hd
  have h := parserFinish_after_newline d hinv hs
  rw [schema_new_of_loop text d hd]
  cases hstep : parserStep d '\n' with
  | error e =>
    rw [hstep] at h
    rw [schema_new_of_loop_error (text ++ ['\n']) e
      (by rw [parserLoop_append, hd]; simp only [Except.bind]; rw [parserLoop_singleton, hstep])]
    rw [← h]
    rfl
  | ok d2 =>
    rw [hstep] at h
    rw [schema_new_of_loop (text ++ ['\n']) d2
      (by rw [parserLoop_append, hd]; simp only [Except.bind]; rw [parserLoop_singleton, hstep])]
    rw [← h]
    rfl

theorem missing_trailing_newline_is_tolerated_witness :
    Schema.new ("a integer\nb varchar(5)".toList ++ ['\n']) =
        Schema.new "a integer\nb varchar(5)".toList ∧
      Schema.new "a integer\nb varchar(5)".toList =
        .ok ⟨[{ name := "a".toList, type := .Integer },
          { name := "b".toList, type := .Varchar, length := 5 }]⟩ :=
  ⟨missing_trailing_newline_is_tolerated "a integer\nb varchar(5)".toList
    ⟨[{ name := "a".toList, type := .Integer }], .TypeLength,
      { name := "b".toList, type := .Varchar, length := 1 }, "5)".toList⟩ rfl (by decide), rfl⟩

/-- C15, as amended: every descriptor of a schema text that parses successfully has its
initial length and precision `-1` when it is Integer, BigInt or Date; a length that is
some `int`, positive or not, and the initial precision when it is Varchar or Char; a length
and a precision that are some `int` when it is Decimal. -/
theorem parsed_descriptors_are_type_appropriate (content : List Char) (s : Schema)
    (h : Schema.new content = .ok s) : ∀ a ∈ s.attributes, typeAppropriate a := by
  cases hd : parserLoop content ⟨[], .Name, {}, []⟩ with
  | error e =>
    rw [schema_new_of_loop_error content e hd] at h
    exact absurd h (by simp)
  | ok d =>
    rw [schema_new_of_loop content d hd] at h
    have hinv := parserInvariant_loop content _ d parserInvariant_init hd
    cases hf : parserFinish d with
    | error e => rw [hf] at h; exact absurd h (by simp [Except.map])
    | ok attrs =>
      rw [hf] at h
      simp only [Except.map] at h
      injection h with h
      subst h
      show ∀ a ∈ attrs, typeAppropriate a
      by_cases hs : d.state = .Name
      · rw [parserFinish_name d hs] at hf
        injection hf with hf
        subst hf
        exact hinv.1
      · rw [parserFinish_pending d hs] at hf
        cases hp : pendingAttribute d with
        | error e => rw [hp] at hf; exact absurd hf (by simp [Except.bind])
        | ok a =>
          rw [hp] at hf
          simp only [Except.bind] at hf
          injection hf with hf
          subst hf
          intro x hx
          rw [List.mem_append, List.mem_singleton] at hx
          rcases hx with hx | hx
          · exact hinv.1 x hx
          · rw [hx]; exact (pendingAttribute_ok d a hinv hs hp).1

theorem parsed_descriptors_are_type_appropriate_witness :
    Schema.new "a varchar(0)\nb decimal(5,-1)\nc date not null".toList =
        .ok ⟨[{ name := "a".toList, type := .Varchar, length := 0 },
          { name := "b".toList, type := .Decimal, length := 5, precision := -1 },
          { name := "c".toList, type := .Date, null := false }]⟩ ∧
      typeAppropriate { name := "a".toList, type := .Varchar, length := 0 } ∧
      typeAppropriate { name := "c".toList, type := .Date, null := false } :=
  ⟨rfl,
    parsed_descriptors_are_type_appropriate
      "a varchar(0)\nb decimal(5,-1)\nc date not null".toList
      ⟨[{ name := "a".toList, type := .Varchar, length := 0 },
        { name := "b".toList, type := .Decimal, length := 5, precision := -1 },
        { name := "c".toList, type := .Date, null := false }]⟩ rfl _
      (List.mem_cons_self _ _),
    parsed_descriptors_are_type_appropriate
      "a varchar(0)\nb decimal(5,-1)\nc date not null".toList
      ⟨[{ name := "a".toList, type := .Varchar, length := 0 },
        { name := "b".toList, type := .Decimal, length := 5, precision := -1 },
        { name := "c".toList, type := .Date, null := false }]⟩ rfl _
      (List.mem_cons_of_mem _ (List.mem_cons_of_mem _ (List.mem_cons_self _ _)))⟩

/-- C15 as stated, at `a varchar(0)`, `a varchar(-5)` and `a decimal(5,-1)`: the three
lines parse, to a Varchar descriptor of length `0`, to a Varchar descriptor of length `-5`
and to a Decimal descriptor of precision `-1`. -/
theorem parsed_length_and_precision_need_not_be_positive :
    Schema.new "a varchar(0)\n".toList =
      .ok ⟨[{ name := "a".toList, type := .Varchar, length := 0 }]⟩ ∧
    Schema.new "a varchar(-5)\n".toList =
      .ok ⟨[{ name := "a".toList, type := .Varchar, length := -5 }]⟩ ∧
    Schema.new "a decimal(5,-1)\n".toList =
      .ok ⟨[{ name := "a".toList, type := .Decimal, length := 5, precision := -1 }]⟩ :=
  ⟨rfl, rfl, rfl⟩

/-! ## Column lines: defaults, null information and illegal arguments -/

/-- The constructor is the loop followed by the code after it. -/
theorem schema_new_eq (content : List Char) :
    Schema.new content =
      ((parserLoop content ⟨[], .Name, {}, []⟩).bind parserFinish).map Schema.mk := by
  cases hd : parserLoop content ⟨[], .Name, {}, []⟩ with
  | error e => rw [schema_new_of_loop_error content e hd]; rfl
  | ok d => rw [schema_new_of_loop content d hd]; rfl

/-- The loop over a text that begins with `head` goes on from the state `head` leads to. -/
theorem parserLoop_from_head (head tail : List Char) (d0 d : ParserData)
    (hd : parserLoop head d0 = .ok d) : parserLoop (head ++ tail) d0 = parserLoop tail d := by
  rw [parserLoop_append, hd]
  rfl

/-- In state `NullInfo` characters other than the newline are collected. -/
theorem parserLoop_nullInfo (acc : List Attribute) (attr : Attribute) (rest : List Char)
    (text : List Char) : ∀ (st : List Char), '\n' ∉ text →
      parserLoop (text ++ rest) ⟨acc, .NullInfo, attr, st⟩ =
        parserLoop rest ⟨acc, .NullInfo, attr, st ++ text⟩ := by
  induction text with
  | nil => intro st _; simp
  | cons c text ih =>
    intro st h
    have hc : c ≠ '\n' := fun e => h (by rw [e]; exact List.mem_cons_self _ _)
    rw [List.cons_append, parserLoop]
    simp only [parserStep, stepNullInfo, hc, if_false, bind, Except.bind]
    rw [ih (st ++ [c]) (fun e => h (List.mem_cons_of_mem _ e))]
    simp

/-- What follows the type, the length or the precision of a column whose pending attribute
resolves to `a`: at the end of the input `a` is pushed; at a newline `a` is pushed as
nullable; after a space the text up to the newline or the end of the input is resolved as
null information. -/
theorem column_tail (head text rest : List Char) (d : ParserData) (a : Attribute)
    (hd : parserLoop head ⟨[], .Name, {}, []⟩ = .ok d)
    (hs : d.state = .Type ∨ d.state = .TypeLength ∨ d.state = .TypePrecision)
    (ha : pendingAttribute d = .ok a) (hclean : '\n' ∉ text) :
    a.null = true ∧
    Schema.new head = .ok ⟨d.attributes ++ [a]⟩ ∧
    parserLoop (head ++ '\n' :: rest) ⟨[], .Name, {}, []⟩ =
      parserLoop rest ⟨d.attributes ++ [a], .Name, {}, []⟩ ∧
    Schema.new (head ++ ' ' :: text) =
      (resolveNull text a).map (fun a2 => ⟨d.attributes ++ [a2]⟩) ∧
    parserLoop (head ++ ' ' :: (text ++ '\n' :: rest)) ⟨[], .Name, {}, []⟩ =
      (resolveNull text a).bind
        (fun a2 => parserLoop rest ⟨d.attributes ++ [a2], .Name, {}, []⟩) := by
  have hinv := parserInvariant_loop head _ d parserInvariant_init hd
  have hname : d.state ≠ .Name := by rcases hs with h | h | h <;> rw [h] <;> decide
  have hni : d.state ≠ .NullInfo := by rcases hs with h | h | h <;> rw [h] <;> decide
  have hnull := (pendingAttribute_ok d a hinv hname ha).2 hni
  have hself : ({ a with null := true } : Attribute) = a := by
    cases a
    simp_all
  refine ⟨hnull, ?_, ?_, ?_, ?_⟩
  · rw [schema_new_of_loop head d hd, parserFinish_pending d hname, ha]
    rfl
  · rw [parserLoop_from_head head _ _ d hd, parserLoop, parserStep_newline d hs, ha]
    simp only [Except.bind, bind, hself]
  · have h1 : parserLoop (head ++ ' ' :: text) ⟨[], .Name, {}, []⟩ =
        .ok ⟨d.attributes, .NullInfo, a, text⟩ := by
      rw [parserLoop_from_head head _ _ d hd, parserLoop, parserStep_space d hs, ha]
      simp only [Except.bind, bind]
      have := parserLoop_nullInfo d.attributes a [] text [] hclean
      simp only [List.append_nil, List.nil_append] at this
      rw [this]
      rfl
    rw [schema_new_of_loop _ _ h1, parserFinish_pending _ (by simp)]
    simp only [pendingAttribute]
    cases resolveNull text a <;> rfl
  · rw [parserLoop_from_head head _ _ d hd, parserLoop, parserStep_space d hs, ha]
    simp only [Except.bind, bind]
    rw [parserLoop_nullInfo d.attributes a ('\n' :: rest) text [] hclean, parserLoop,
      parserStep_newline_nullInfo _ rfl]
    simp only [pendingAttribute, List.nil_append]
    cases resolveNull text a <;> rfl

/-- The state after the name and the type keyword of a column at the start of a line. -/
theorem parserLoop_name_type (pre name : List Char) (acc : List Attribute) (t : AttributeType)
    (hpre : parserLoop pre ⟨[], .Name, {}, []⟩ = .ok ⟨acc, .Name, {}, []⟩)
    (hname : ' ' ∉ name) :
    parserLoop (pre ++ (name ++ ' ' :: typeKeyword t)) ⟨[], .Name, {}, []⟩ =
      .ok ⟨acc, .Type, { name := name }, typeKeyword t⟩ := by
  rw [parserLoop_from_head pre _ _ _ hpre, parserLoop_name acc {} _ name [] hname]
  have h := parserLoop_type acc { name := [] ++ name } [] (typeKeyword t) []
    (typeKeyword_clean t)
  simp only [List.append_nil, List.nil_append] at h ⊢
  rw [h]
  rfl

/-- A type keyword resolves to the descriptor with the defaults of its type. -/
theorem resolveType_typeKeyword (name : List Char) (t : AttributeType) :
    resolveType (typeKeyword t) { name := name } = .ok (defaultColumn name t true) := by
  cases t <;> rfl

/-- The three texts that the null information accepts hold no newline. -/
theorem nullableOf_clean (text : List Char) (b : Bool) (h : nullableOf text = some b) :
    '\n' ∉ text := by
  unfold nullableOf at h
  split at h
  · rename_i e; rw [e]; decide
  · split at h
    · rename_i e; rw [e]; decide
    · split at h
      · rename_i e; rw [e]; decide
      · exact absurd h (by simp)

/-- C13: a column whose name and type (with its length and precision, if any) resolve to
the descriptor `a`. Without further text, at the end of the input or at a newline, the
column is nullable. After a space, the text up to the newline or the end of the input
decides: `not null` gives a column that is not nullable, `null` and the empty text a
nullable one, and any other text makes the constructor fail with the `SchemaException`
`invalid null info`. -/
theorem null_info_decides_nullable (head text rest : List Char) (d : ParserData)
    (a : Attribute) (hd : parserLoop head ⟨[], .Name, {}, []⟩ = .ok d)
    (hs : d.state = .Type ∨ d.state = .TypeLength ∨ d.state = .TypePrecision)
    (ha : pendingAttribute d = .ok a) (hclean : '\n' ∉ text) :
    (Schema.new head = .ok ⟨d.attributes ++ [{ a with null := true }]⟩ ∧
      parserLoop (head ++ '\n' :: rest) ⟨[], .Name, {}, []⟩ =
        parserLoop rest ⟨d.attributes ++ [{ a with null := true }], .Name, {}, []⟩) ∧
    match nullableOf text with
    | some b =>
      Schema.new (head ++ ' ' :: text) = .ok ⟨d.attributes ++ [{ a with null := b }]⟩ ∧
      parserLoop (head ++ ' ' :: (text ++ '\n' :: rest)) ⟨[], .Name, {}, []⟩ =
        parserLoop rest ⟨d.attributes ++ [{ a with null := b }], .Name, {}, []⟩
    | none =>
      Schema.new (head ++ ' ' :: text) =
        .error (.SchemaException "invalid null info".toList) ∧
      Schema.new (head ++ ' ' :: (text ++ '\n' :: rest)) =
        .error (.SchemaException "invalid null info".toList) := by
  obtain ⟨h0, h1, h2, h3, h4⟩ := column_tail head text rest d a hd hs ha hclean
  have hself : ({ a with null := true } : Attribute) = a := by
    cases a
    simp_all
  rw [hself]
  refine ⟨⟨h1, h2⟩, ?_⟩
  rw [resolveNull_eq] at h3 h4
  cases hn : nullableOf text with
  | some b =>
    rw [hn] at h3 h4
    exact ⟨h3, h4⟩
  | none =>
    rw [hn] at h3 h4
    exact ⟨h3, schema_new_of_loop_error _ _ h4⟩

theorem null_info_decides_nullable_witness :
    Schema.new "a varchar(5) not null".toList =
        .ok ⟨[{ name := "a".toList, type := .Varchar, length := 5, null := false }]⟩ ∧
      Schema.new "a varchar(5) NOT NULL".toList =
        .error (.SchemaException "invalid null info".toList) :=
  ⟨(null_info_decides_nullable "a varchar(5)".toList "not null".toList []
      ⟨[], .TypeLength, { name := "a".toList, type := .Varchar, length := 1 }, "5)".toList⟩
      { name := "a".toList, type := .Varchar, length := 5 } rfl (Or.inr (Or.inl rfl)) rfl
      (by decide)).2.1,
    (null_info_decides_nullable "a varchar(5)".toList "NOT NULL".toList []
      ⟨[], .TypeLength, { name := "a".toList, type := .Varchar, length := 1 }, "5)".toList⟩
      { name := "a".toList, type := .Varchar, length := 5 } rfl (Or.inr (Or.inl rfl)) rfl
      (by decide)).2.1⟩

/-- C12: a column line at the start of a line, made of a name and a type keyword without
parentheses, parses to the descriptor with the defaults of the type (length 1 for `varchar`
and `char`, length 4 and precision 2 for `decimal`), whether the keyword is followed by the
end of the input, by a newline, or by a space and null information that ends at a newline
or at the end of the input. -/
theorem schema_defaults (pre name text rest : List Char) (acc : List Attribute)
    (t : AttributeType) (b : Bool)
    (hpre : parserLoop pre ⟨[], .Name, {}, []⟩ = .ok ⟨acc, .Name, {}, []⟩)
    (hname : ' ' ∉ name) (hb : nullableOf text = some b) :
    Schema.new (pre ++ (name ++ ' ' :: typeKeyword t)) =
      .ok ⟨acc ++ [defaultColumn name t true]⟩ ∧
    parserLoop (pre ++ (name ++ ' ' :: typeKeyword t) ++ '\n' :: rest) ⟨[], .Name, {}, []⟩ =
      parserLoop rest ⟨acc ++ [defaultColumn name t true], .Name, {}, []⟩ ∧
    Schema.new (pre ++ (name ++ ' ' :: typeKeyword t) ++ ' ' :: text) =
      .ok ⟨acc ++ [defaultColumn name t b]⟩ ∧
    parserLoop (pre ++ (name ++ ' ' :: typeKeyword t) ++ ' ' :: (text ++ '\n' :: rest))
        ⟨[], .Name, {}, []⟩ =
      parserLoop rest ⟨acc ++ [defaultColumn name t b], .Name, {}, []⟩ := by
  obtain ⟨h0, h1, h2, h3, h4⟩ := column_tail (pre ++ (name ++ ' ' :: typeKeyword t)) text rest
    ⟨acc, .Type, { name := name }, typeKeyword t⟩ (defaultColumn name t true)
    (parserLoop_name_type pre name acc t hpre hname) (Or.inl rfl)
    (resolveType_typeKeyword name t) (nullableOf_clean text b hb)
  have hnull : ({ defaultColumn name t true with null := b } : Attribute) =
      defaultColumn name t b := by
    cases t <;> rfl
  rw [resolveNull_eq, hb] at h3 h4
  refine ⟨h1, h2, ?_, ?_⟩
  · rw [h3, ← hnull]; rfl
  · rw [h4, ← hnull]; rfl

theorem schema_defaults_witness :
    Schema.new "a integer\nb varchar".toList =
        .ok ⟨[{ name := "a".toList, type := .Integer },
          { name := "b".toList, type := .Varchar, length := 1 }]⟩ ∧
      Schema.new "a integer\nb decimal not null".toList =
        .ok ⟨[{ name := "a".toList, type := .Integer },
          { name := "b".toList, type := .Decimal, length := 4, precision := 2,
            null := false }]⟩ :=
  ⟨(schema_defaults "a integer\n".toList "b".toList "not null".toList []
      [{ name := "a".toList, type := .Integer }] .Varchar false rfl (by decide) rfl).1,
    (schema_defaults "a integer\n".toList "b".toList "not null".toList []
      [{ name := "a".toList, type := .Integer }] .Decimal false rfl (by decide) rfl).2.2.1⟩

/-- A length after a type that takes none ends in the `SchemaException`
`type cannot have a length`, at the delimiter that ends the length or at the end of the
input, whatever the text is. -/
theorem typeLength_illegal (acc : List Attribute) (attr : Attribute)
    (h : attr.type = .Integer ∨ attr.type = .BigInt ∨ attr.type = .Date) :
    ∀ (rest st : List Char),
      (parserLoop rest ⟨acc, .TypeLength, attr, st⟩).bind parserFinish =
        .error (.SchemaException "type cannot have a length".toList) := by
  have hr : ∀ st, resolveLength st attr =
      .error (.SchemaException "type cannot have a length".toList) := by
    intro st
    unfold resolveLength
    rw [if_pos h]
  intro rest
  induction rest with
  | nil =>
    intro st
    rw [parserLoop]
    simp only [Except.bind, parserFinish, hr, bind]
  | cons c rest ih =>
    intro st
    rw [parserLoop]
    simp only [parserStep, stepTypeLength]
    split
    · simp only [hr, bind, Except.bind]
    · simp only [bind, Except.bind]
      exact ih _

/-- A precision after a type other than Decimal ends in the `SchemaException`
`type cannot have a precision`, whatever the text is. -/
theorem typePrecision_illegal (acc : List Attribute) (attr : Attribute)
    (h : attr.type ≠ .Decimal) :
    ∀ (rest st : List Char),
      (parserLoop rest ⟨acc, .TypePrecision, attr, st⟩).bind parserFinish =
        .error (.SchemaException "type cannot have a precision".toList) := by
  have hr : ∀ st, resolvePrecision st attr =
      .error (.SchemaException "type cannot have a precision".toList) := by
    intro st
    unfold resolvePrecision
    rw [if_pos h]
  intro rest
  induction rest with
  | nil =>
    intro st
    rw [parserLoop]
    simp only [Except.bind, parserFinish, hr, bind]
  | cons c rest ih =>
    intro st
    rw [parserLoop]
    simp only [parserStep, stepTypePrecision]
    split
    · simp only [hr, bind, Except.bind]
    · simp only [bind, Except.bind]
      exact ih _

/-- The state after the name, the type keyword and the opening parenthesis of a column. -/
theorem parserLoop_name_type_paren (pre name tail : List Char) (acc : List Attribute)
    (t : AttributeType)
    (hpre : parserLoop pre ⟨[], .Name, {}, []⟩ = .ok ⟨acc, .Name, {}, []⟩)
    (hname : ' ' ∉ name) :
    parserLoop (pre ++ (name ++ ' ' :: typeKeyword t) ++ '(' :: tail) ⟨[], .Name, {}, []⟩ =
      parserLoop tail ⟨acc, .TypeLength, defaultColumn name t true, []⟩ := by
  rw [parserLoop_from_head _ _ _ _ (parserLoop_name_type pre name acc t hpre hname), parserLoop]
  simp [parserStep, stepType, resolveType_typeKeyword, bind, Except.bind, pure, Except.pure]

/-- A length that `stoi` cannot read ends the constructor with the exception of `stoi`, at
the comma that ends the length. -/
theorem parserLoop_length_unreadable (acc : List Attribute) (attr : Attribute)
    (len rest : List Char) (e : Exception)
    (hty : ¬ (attr.type = .Integer ∨ attr.type = .BigInt ∨ attr.type = .Date))
    (hlen : ∀ c ∈ len, c ≠ ' ' ∧ c ≠ ',' ∧ c ≠ '\n') (he : stoi len = .error e) :
    parserLoop (len ++ ',' :: rest) ⟨acc, .TypeLength, attr, []⟩ = .error e := by
  rw [parserLoop_length acc _ (',' :: rest) len [] hlen, parserLoop]
  simp [parserStep, stepTypeLength, resolveLength, hty, he, bind, Except.bind]

/-- C11, as amended. A column line at the start of a line. When the keyword `integer`,
`bigint` or `date` is followed by an opening parenthesis the constructor fails with the
`SchemaException` `type cannot have a length`, whatever follows. When `varchar` or `char`
is followed by a parenthesised length and a comma, it fails with the `SchemaException`
`type cannot have a precision`, whatever follows, if `stoi` reads the length, and with
the exception of `stoi` if it does not. The keyword `decimal` without parentheses parses
to the descriptor of length 4 and precision 2: at the end of the input, before a newline
and whatever follows it, and before null information. -/
theorem type_arguments_legality (pre name len rest text : List Char) (acc : List Attribute)
    (t : AttributeType) (v : Int) (e : Exception) (b : Bool)
    (hpre : parserLoop pre ⟨[], .Name, {}, []⟩ = .ok ⟨acc, .Name, {}, []⟩)
    (hname : ' ' ∉ name) :
    (t = .Integer ∨ t = .BigInt ∨ t = .Date →
      Schema.new (pre ++ (name ++ ' ' :: typeKeyword t) ++ '(' :: rest) =
        .error (.SchemaException "type cannot have a length".toList)) ∧
    (t = .Varchar ∨ t = .Char → (∀ c ∈ len, c ≠ ' ' ∧ c ≠ ',' ∧ c ≠ '\n') →
      stoi len = .ok v →
      Schema.new (pre ++ (name ++ ' ' :: typeKeyword t) ++ '(' :: (len ++ ',' :: rest)) =
        .error (.SchemaException "type cannot have a precision".toList)) ∧
    (t = .Varchar ∨ t = .Char → (∀ c ∈ len, c ≠ ' ' ∧ c ≠ ',' ∧ c ≠ '\n') →
      stoi len = .error e →
      Schema.new (pre ++ (name ++ ' ' :: typeKeyword t) ++ '(' :: (len ++ ',' :: rest)) =
        .error e) ∧
    Schema.new (pre ++ (name ++ ' ' :: "decimal".toList)) =
      .ok ⟨acc ++ [{ name := name, type := .Decimal, length := 4, precision := 2 }]⟩ ∧
    Schema.new (pre ++ (name ++ ' ' :: "decimal".toList) ++ ['\n']) =
      .ok ⟨acc ++ [{ name := name, type := .Decimal, length := 4, precision := 2 }]⟩ ∧
    parserLoop (pre ++ (name ++ ' ' :: "decimal".toList) ++ '\n' :: rest)
        ⟨[], .Name, {}, []⟩ =
      parserLoop rest
        ⟨acc ++ [{ name := name, type := .Decimal, length := 4, precision := 2 }],
          .Name, {}, []⟩ ∧
    (nullableOf text = some b →
      Schema.new (pre ++ (name ++ ' ' :: "decimal".toList) ++ ' ' :: text) =
        .ok ⟨acc ++ [⟨name, .Decimal, 4, 2, b⟩]⟩ ∧
      parserLoop (pre ++ (name ++ ' ' :: "decimal".toList) ++ ' ' :: (text ++ '\n' :: rest))
          ⟨[], .Name, {}, []⟩ =
        parserLoop rest
          ⟨acc ++ [⟨name, .Decimal, 4, 2, b⟩], .Name, {}, []⟩) := by
  have hdec : ∀ (text2 : List Char), '\n' ∉ text2 → _ :=
    fun text2 h2 => column_tail (pre ++ (name ++ ' ' :: typeKeyword .Decimal)) text2 rest
      ⟨acc, .Type, { name := name }, typeKeyword .Decimal⟩ (defaultColumn name .Decimal true)
      (parserLoop_name_type pre name acc .Decimal hpre hname) (Or.inl rfl)
      (resolveType_typeKeyword name .Decimal) h2
  refine ⟨?_, ?_, ?_, ?_, ?_, ?_, ?_⟩
  · intro ht
    rw [schema_new_eq, parserLoop_name_type_paren pre name rest acc t hpre hname,
      typeLength_illegal acc _ (by rcases ht with h | h | h <;> subst h <;> simp [defaultColumn])]
    rfl
  · intro ht hlen hv
    have hstep : parserLoop (len ++ ',' :: rest)
        ⟨acc, .TypeLength, defaultColumn name t true, []⟩ =
        parserLoop rest
          ⟨acc, .TypePrecision, { defaultColumn name t true with length := v }, []⟩ := by
      rw [parserLoop_length acc _ (',' :: rest) len [] hlen, parserLoop]
      have hty : ¬ ((defaultColumn name t true).type = .Integer ∨
          (defaultColumn name t true).type = .BigInt ∨
          (defaultColumn name t true).type = .Date) := by
        rcases ht with h | h <;> subst h <;> simp [defaultColumn]
      simp [parserStep, stepTypeLength, resolveLength, hty, hv, bind, Except.bind, pure,
        Except.pure]
    rw [schema_new_eq, parserLoop_name_type_paren pre name _ acc t hpre hname, hstep,
      typePrecision_illegal acc _ (by rcases ht with h | h <;> subst h <;> simp [defaultColumn])]
    rfl
  · intro ht hlen he
    have hty : ¬ ((defaultColumn name t true).type = .Integer ∨
        (defaultColumn name t true).type = .BigInt ∨
        (defaultColumn name t true).type = .Date) := by
      rcases ht with h | h <;> subst h <;> simp [defaultColumn]
    exact schema_new_of_loop_error _ e (by
      rw [parserLoop_name_type_paren pre name _ acc t hpre hname]
      exact parserLoop_length_unreadable acc _ len rest e hty hlen he)
  · exact (hdec [] (by simp)).2.1
  · exact schema_new_of_loop _ ⟨acc ++ [defaultColumn name .Decimal true], .Name, {}, []⟩
      (column_tail (pre ++ (name ++ ' ' :: typeKeyword .Decimal)) [] []
        ⟨acc, .Type, { name := name }, typeKeyword .Decimal⟩
        (defaultColumn name .Decimal true)
        (parserLoop_name_type pre name acc .Decimal hpre hname) (Or.inl rfl)
        (resolveType_typeKeyword name .Decimal) (by simp)).2.2.1
  · exact (hdec [] (by simp)).2.2.1
  · intro hb
    obtain ⟨_, _, _, h3, h4⟩ := hdec text (nullableOf_clean text b hb)
    rw [resolveNull_eq, hb] at h3 h4
    exact ⟨h3, h4⟩

theorem type_arguments_legality_witness :
    Schema.new "a integer(5)\n".toList =
        .error (.SchemaException "type cannot have a length".toList) ∧
      Schema.new "a varchar(3,2)\n".toList =
        .error (.SchemaException "type cannot have a precision".toList) ∧
      Schema.new "a decimal".toList =
        .ok ⟨[{ name := "a".toList, type := .Decimal, length := 4, precision := 2 }]⟩ ∧
      Schema.new "a decimal not null".toList =
        .ok ⟨[⟨"a".toList, .Decimal, 4, 2, false⟩]⟩ :=
  ⟨(type_arguments_legality [] "a".toList [] "5)\n".toList [] [] .Integer 0 .out_of_range
      true rfl (by decide)).1 (Or.inl rfl),
    (type_arguments_legality [] "a".toList "3".toList "2)\n".toList [] [] .Varchar 3
      .out_of_range true rfl (by decide)).2.1 (Or.inl rfl) (by decide) rfl,
    (type_arguments_legality [] "a".toList [] [] [] [] .Integer 0 .out_of_range true rfl
      (by decide)).2.2.2.1,
    ((type_arguments_legality [] "a".toList [] [] "not null".toList [] .Integer 0
      .out_of_range false rfl (by decide)).2.2.2.2.2.2 rfl).1⟩

/-- C11 as stated, at `a varchar(2147483648,2)` and `a varchar(x,2)`: both lines declare a
precision for a type other than Decimal, and the constructor ends with the
`std::out_of_range` and the `std::invalid_argument` of `stoi`, which reads the length
before the type is tested for the precision, instead of a `SchemaException`. -/
theorem unreadable_length_hides_illegal_precision :
    Schema.new "a varchar(2147483648,2)\n".toList = .error .out_of_range ∧
    Schema.new "a varchar(x,2)\n".toList = .error .invalid_argument :=
  ⟨rfl, rfl⟩

end VerifySql
